import Mathlib

/-!
# Log reconstruction of the RDS collector

A shallow embedding of `GetLogLines` (`input/system/rds/logs.go`): the per-read
parse step, the backend grouping, the context attacher, the duration extractor
and the retrieval loops, and of the statistics helper `GetBuffercache`
(`input/postgres/buffercache.go`), followed by the properties established about
them.

Conventions of the embedding

* A Go `string` is a byte sequence; it is embedded as a `List Char`, one list
  element per byte.  Separators of `strings.SplitN` are single bytes in the
  source (`":"`, `"@"`, `"("`), so the embedding takes one `Char`.
* `int` is 64 bit wide; `int32(x)` is the two's complement truncation.
* A run-time panic of the Go code is the value `none`.
* `time.Parse` with the fixed layout is a library function taken as a
  parameter (`parseTime`); instants are integers ordered by `<`
  (`Time.Before`), counted in nanoseconds where a duration is added to them.
* The scan is written over any conversion `parseFloat` of the duration text;
  `strconv.ParseFloat` itself is `ParseFloat`, with `float64` values given by
  their mantissa and exponent.
* The sequence of results of `reader.ReadLine()` over one chunk is a list of
  pairs `(line, isPrefix)`.
* Iterating a Go map visits every key once in an unspecified order: the
  iteration is a list of groups that is a permutation of the map's entries.
* The responses of the log source and of the database handle are data: a tree
  of responses per log file, and the results of the successive calls on the
  handle.
-/

namespace Collector

/-- A Go string, one list element per byte. -/
abbrev GoString := List Char

/-- An instant (`time.Time`), ordered by `<`. -/
abbrev Time := Int

/-- Modelled from the spec: the record `state.LogLine` (declared in package
`state`, outside the sources at hand), with the fields that `GetLogLines`
reads and writes. -/
structure LogLine where
  OccurredAt : Time
  Username : GoString
  Database : GoString
  ClientHostname : GoString
  ClientPort : Int
  BackendPid : Int
  LogLevel : GoString
  Content : GoString
  Query : GoString
  AdditionalLines : List LogLine

/-- Modelled from the spec: the record `state.PostgresQuerySample` (declared in
package `state`, outside the sources at hand); `F` is the type of `float64`
values. -/
structure PostgresQuerySample (F : Type) where
  OccurredAt : Time
  Username : GoString
  Database : GoString
  Query : GoString
  RuntimeMs : F

/-- The zero value of `state.LogLine` (`var logLine state.LogLine`). -/
def LogLine.zero : LogLine :=
  { OccurredAt := 0, Username := [], Database := [], ClientHostname := [],
    ClientPort := 0, BackendPid := 0, LogLevel := [], Content := [], Query := [],
    AdditionalLines := [] }

/-! ## Library functions used by the parser -/

/-- Cut `s` at the first occurrence of the byte `sep` (`strings.Index` followed
by the two slicings of `genSplit`). -/
def cutAt (sep : Char) : GoString → Option (GoString × GoString)
  | [] => none
  | c :: cs =>
    if c = sep then some ([], cs)
    else match cutAt sep cs with
      | none => none
      | some (a, b) => some (c :: a, b)

/-- The function `strings.SplitN(s, sep, n)` for `n ≥ 0` and a one-byte
separator: at most `n` fields, the last one being the unsplit remainder. -/
def splitN (sep : Char) : Nat → GoString → List GoString
  | 0, _ => []
  | 1, s => [s]
  | n + 2, s =>
    match cutAt sep s with
    | none => [s]
    | some (a, rest) => a :: splitN sep (n + 1) rest

/-- The function `strings.TrimLeft(s, cutset)` for a one-byte cutset. -/
def trimLeft (c : Char) : GoString → GoString
  | [] => []
  | x :: xs => if x = c then trimLeft c xs else x :: xs

/-- The function `strings.TrimRight(s, cutset)` for a one-byte cutset. -/
def trimRight (c : Char) (s : GoString) : GoString :=
  (trimLeft c s.reverse).reverse

/-- The function `strings.HasPrefix`. -/
def hasPrefix (s p : GoString) : Bool := p.isPrefixOf s

/-- The function `strings.HasSuffix`. -/
def hasSuffix (s p : GoString) : Bool := p.reverse.isPrefixOf s.reverse

/-- The function `strings.Contains`. -/
def contains : GoString → GoString → Bool
  | [], sub => sub.isEmpty
  | c :: cs, sub => sub.isPrefixOf (c :: cs) || contains cs sub

/-- The two error kinds of package `strconv`. -/
inductive NumError where
  | errSyntax
  | errRange
  deriving DecidableEq, Repr

/-- Whether a byte is an ASCII decimal digit. -/
def isDigit (c : Char) : Bool := decide (48 ≤ c.toNat) && decide (c.toNat ≤ 57)

/-- The value of an ASCII decimal digit. -/
def digitVal (c : Char) : Nat := c.toNat - 48

/-- The largest `uint64`. -/
def maxUint64 : Nat := 2 ^ 64 - 1

/-- The digit loop of `strconv.ParseUint(s, 10, 64)`: it stops at the first
byte that is not a digit (syntax error) or at the first digit that takes the
value beyond 64 bits (range error), whichever comes first. -/
def parseUintLoop : Nat → GoString → Except NumError Nat
  | n, [] => .ok n
  | n, c :: cs =>
    if !isDigit c then .error .errSyntax
    else if n ≥ maxUint64 / 10 + 1 then .error .errRange
    else if n * 10 + digitVal c > maxUint64 then .error .errRange
    else parseUintLoop (n * 10 + digitVal c) cs

/-- The function `strconv.ParseUint(s, 10, 64)`. -/
def parseUint (s : GoString) : Except NumError Nat :=
  if s.isEmpty then .error .errSyntax else parseUintLoop 0 s

/-- The sign and range handling of `strconv.ParseInt(s, 10, 64)` after the sign
has been removed: a syntax error gives 0, a value out of range gives the
nearest bound together with the range error. -/
def parseIntSigned (neg : Bool) (digits : GoString) : Int × Option NumError :=
  match parseUint digits with
  | .error .errSyntax => (0, some .errSyntax)
  | .error .errRange =>
    if neg then (-(2 ^ 63 : Int), some .errRange) else ((2 ^ 63 : Int) - 1, some .errRange)
  | .ok un =>
    if !neg && decide (un ≥ 2 ^ 63) then ((2 ^ 63 : Int) - 1, some .errRange)
    else if neg && decide (un > 2 ^ 63) then (-(2 ^ 63 : Int), some .errRange)
    else (if neg then -(un : Int) else (un : Int), none)

/-- The function `strconv.Atoi` on a 64-bit platform: the returned value and
the returned error (`none` is `nil`). -/
def atoi : GoString → Int × Option NumError
  | [] => (0, some .errSyntax)
  | c :: cs =>
    if c = '+' then parseIntSigned false cs
    else if c = '-' then parseIntSigned true cs
    else parseIntSigned false (c :: cs)

/-- The conversion `int32(x)` of an `int`. -/
def toInt32 (x : Int) : Int := (x + 2 ^ 31) % 2 ^ 32 - 2 ^ 31

/-! ## The per-read parse step (source lines 76 to 135) -/

/-- The statement `logLines[len(logLines)-1].Content += string(line)` guarded by
`len(logLines) > 0`. -/
def appendToLast : List LogLine → GoString → List LogLine
  | [], _ => []
  | [e], line => [{ e with Content := e.Content ++ line }]
  | e :: e' :: es, line => e :: appendToLast (e' :: es) line

/-- The assignment of `Username` and `Database` (source lines 115 to 119). -/
def setUserDb (logLine : LogLine) (field : GoString) : LogLine :=
  match splitN '@' 2 field with
  | [u, d] => { logLine with Username := u, Database := d }
  | _ => logLine

/-- The assignment of `ClientHostname` and `ClientPort` (source lines 121 to
126); the error of `strconv.Atoi` is dropped. -/
def setHostPort (logLine : LogLine) (field : GoString) : LogLine :=
  match splitN '(' 2 field with
  | [h, p] =>
    { logLine with ClientHostname := h,
                   ClientPort := toInt32 (atoi (trimRight ')' p)).1 }
  | _ => logLine

/-- The slice expression `s[1 : len(s)-1]`, which panics when `len(s) < 2`. -/
def stripEnds (s : GoString) : Option GoString :=
  if s.length < 2 then none else some ((s.drop 1).take (s.length - 2))

/-- The prefix parser (source lines 96 to 134) applied to one line that starts
a new physical line: the new list of events, or `none` when the code panics. -/
def parsePrefix (parseTime : GoString → Option Time) (logLines : List LogLine)
    (line : GoString) : Option (List LogLine) :=
  match splitN ':' 8 line with
  | [p0, p1, p2, p3, p4, p5, p6, p7] =>
    match parseTime (p0 ++ [':'] ++ p1 ++ [':'] ++ p2) with
    | none => some (appendToLast logLines line)
    | some timestamp =>
      let logLine := setUserDb LogLine.zero p4
      let logLine := setHostPort logLine p3
      let logLine := { logLine with OccurredAt := timestamp }
      match stripEnds p5 with
      | none => none
      | some pid =>
        let logLine := { logLine with BackendPid := toInt32 (atoi pid).1 }
        let logLine := { logLine with LogLevel := p6 }
        let logLine := { logLine with Content := trimLeft ' ' p7 }
        some (logLines ++ [logLine])
  | _ => some (appendToLast logLines line)

/-- The state of the read loop of one chunk: the events parsed so far and the
flag `incompleteLine`. -/
structure ParseState where
  logLines : List LogLine
  incompleteLine : Bool

/-- The state at the start of a chunk (source lines 70 to 72). -/
def ParseState.init : ParseState := { logLines := [], incompleteLine := false }

/-- One iteration of the read loop (source lines 86 to 134) on the result
`(line, isPrefix)` of `ReadLine`; `none` when the code panics. -/
def processLine (parseTime : GoString → Option Time) (st : ParseState)
    (line : GoString) (isPrefix : Bool) : Option ParseState :=
  if st.incompleteLine then
    some { logLines := appendToLast st.logLines line, incompleteLine := isPrefix }
  else
    match parsePrefix parseTime st.logLines line with
    | none => none
    | some ls => some { logLines := ls, incompleteLine := isPrefix }

/-- The read loop of one chunk over the successive results of `ReadLine`. -/
def parseReads (parseTime : GoString → Option Time) :
    ParseState → List (GoString × Bool) → Option ParseState
  | st, [] => some st
  | st, (line, isPrefix) :: rest =>
    match processLine parseTime st line isPrefix with
    | none => none
    | some st' => parseReads parseTime st' rest

/-! ## Grouping by backend (source lines 137 to 147) -/

/-- The map `backendLogLines` as an association list with distinct keys. -/
abbrev BackendMap := List (Int × List LogLine)

/-- The lookup `backendLogLines[k]`: the zero value (the empty slice) when the
key is absent. -/
def BackendMap.get : BackendMap → Int → List LogLine
  | [], _ => []
  | (k', g) :: rest, k => if k' = k then g else BackendMap.get rest k

/-- The statement `backendLogLines[k] = append(backendLogLines[k], v)`. -/
def BackendMap.append : BackendMap → Int → LogLine → BackendMap
  | [], k, v => [(k, [v])]
  | (k', g) :: rest, k, v =>
    if k' = k then (k', g ++ [v]) :: rest else (k', g) :: BackendMap.append rest k v

/-- The grouping loop (source lines 140 to 147): events before
`linesNewerThan` are skipped, the others are appended to their backend's
list. -/
def groupByBackend (linesNewerThan : Time) : BackendMap → List LogLine → BackendMap
  | m, [] => m
  | m, logLine :: rest =>
    if logLine.OccurredAt < linesNewerThan then groupByBackend linesNewerThan m rest
    else groupByBackend linesNewerThan (m.append logLine.BackendPid logLine) rest

/-! ## The duration pattern (source line 175) -/

/-- The marker `"[Your log message was truncated]"`. -/
def truncationMarker : GoString := "[Your log message was truncated]".toList

/-- Remove the literal `lit` from the front of `s`, when it is there. -/
def dropLiteral : GoString → GoString → Option GoString
  | [], s => some s
  | _ :: _, [] => none
  | a :: as, c :: cs => if a = c then dropLiteral as cs else none

/-- The class `[\d\.]`. -/
def isNumChar (c : Char) : Bool := isDigit c || decide (c = '.')

/-- The class `[^:]`. -/
def isNotColon (c : Char) : Bool := !decide (c = ':')

/-- The class `.`, every byte but the line feed. -/
def isNotNewline (c : Char) : Bool := !decide (c = '\n')

/-- A match of `duration: ([\d\.]+) ms([^:]+): (.+)` that starts at the first
byte of `s`, as the three captured groups.  Each repetition is followed by
a byte outside its class, or ends the pattern, so the greedy repetition can
only succeed with the longest run. -/
def matchDurationAt (s : GoString) : Option (GoString × GoString × GoString) :=
  match dropLiteral "duration: ".toList s with
  | none => none
  | some s1 =>
    let d := s1.takeWhile isNumChar
    if d.isEmpty then none
    else match dropLiteral " ms".toList (s1.dropWhile isNumChar) with
      | none => none
      | some s3 =>
        let ctx := s3.takeWhile isNotColon
        if ctx.isEmpty then none
        else match dropLiteral ": ".toList (s3.dropWhile isNotColon) with
          | none => none
          | some s5 =>
            let q := s5.takeWhile isNotNewline
            if q.isEmpty then none else some (d, ctx, q)

/-- The call `FindStringSubmatch` of the duration pattern: the groups of the
leftmost match, `none` when the result is `nil`. -/
def findStringSubmatch : GoString → Option (GoString × GoString × GoString)
  | [] => none
  | c :: cs =>
    match matchDurationAt (c :: cs) with
    | some r => some r
    | none => findStringSubmatch cs

/-! ## Context attachment and duration extraction (source lines 149 to 199) -/

/-- The test on `futureLine.LogLevel` (source line 162). -/
def isContextLevel (level : GoString) : Bool :=
  decide (level = "STATEMENT".toList) || decide (level = "DETAIL".toList) ||
    decide (level = "HINT".toList)

/-- The lookahead loop (source lines 161 to 171) over the slice
`logLines[lowerBound:upperBound]`, with the anchor and the skip counter. -/
def attachFuture : LogLine → Nat → List LogLine → LogLine × Nat
  | logLine, skipLines, [] => (logLine, skipLines)
  | logLine, skipLines, futureLine :: rest =>
    if isContextLevel futureLine.LogLevel then
      let logLine :=
        if futureLine.LogLevel = "STATEMENT".toList
            ∧ hasSuffix futureLine.Content truncationMarker = false then
          { logLine with Query := futureLine.Content }
        else logLine
      attachFuture { logLine with AdditionalLines := logLine.AdditionalLines ++ [futureLine] }
        (skipLines + 1) rest
    else (logLine, skipLines)

/-- The duration extractor (source lines 173 to 192) on the anchor. -/
def extractDuration {F : Type} (parseFloat : GoString → F) (logLine : LogLine)
    (samples : List (PostgresQuerySample F)) : LogLine × List (PostgresQuerySample F) :=
  if hasPrefix logLine.Content "duration: ".toList then
    if hasSuffix logLine.Content truncationMarker = false then
      match findStringSubmatch logLine.Content with
      | some (d, ctx, q) =>
        let logLine := { logLine with Query := q }
        if contains ctx "bind".toList = false ∧ contains ctx "parse".toList = false then
          (logLine, samples ++ [{ OccurredAt := logLine.OccurredAt,
                                  Username := logLine.Username,
                                  Database := logLine.Database,
                                  Query := logLine.Query,
                                  RuntimeMs := parseFloat d }])
        else (logLine, samples)
      | none => (logLine, samples)
    else (logLine, samples)
  else (logLine, samples)

/-- The variables that the scan of the groups updates: the counter `skipLines`
and the two results of `GetLogLines`. -/
structure ScanState (F : Type) where
  skipLines : Nat
  result : List LogLine
  samples : List (PostgresQuerySample F)

/-- The loop over one backend's list (source lines 152 to 199).  The list is
the part of the group from the current index on, so the lookahead slice
`logLines[min(len, idx+1) : min(len, idx+3)]` is `future.take 2`. -/
def scanGroup {F : Type} (parseFloat : GoString → F) :
    ScanState F → List LogLine → ScanState F
  | st, [] => st
  | st, logLine :: future =>
    if st.skipLines > 0 then
      scanGroup parseFloat { st with skipLines := st.skipLines - 1 } future
    else
      let a := attachFuture logLine st.skipLines (future.take 2)
      let d := extractDuration parseFloat a.1 st.samples
      scanGroup parseFloat
        { skipLines := a.2, result := st.result ++ [d.1], samples := d.2 } future

/-- The loop over the groups in the order of the map iteration (source line
151). -/
def scanGroups {F : Type} (parseFloat : GoString → F) :
    ScanState F → List (List LogLine) → ScanState F
  | st, [] => st
  | st, g :: gs => scanGroups parseFloat (scanGroup parseFloat st g) gs

/-- The processing of one retrieved chunk (source lines 70 to 199) from the
results of `ReadLine` over it: the updated `result` and `samples`, or `none`
when the code panics.  The parameter `rangeOrder` is the order in which the
map iteration visits the entries. -/
def processChunk {F : Type} (parseTime : GoString → Option Time)
    (parseFloat : GoString → F) (linesNewerThan : Time)
    (rangeOrder : BackendMap → BackendMap) (reads : List (GoString × Bool))
    (result : List LogLine) (samples : List (PostgresQuerySample F)) :
    Option (List LogLine × List (PostgresQuerySample F)) :=
  match parseReads parseTime ParseState.init reads with
  | none => none
  | some st =>
    let groups := rangeOrder (groupByBackend linesNewerThan [] st.logLines)
    let out := scanGroups parseFloat
      { skipLines := 0, result := result, samples := samples } (groups.map Prod.snd)
    some (out.result, out.samples)

/-! ## Concrete library instances used in the examples -/

/-- Read two decimal digits. -/
def twoDigits : GoString → Option (Nat × GoString)
  | a :: b :: rest =>
    if isDigit a && isDigit b then some (digitVal a * 10 + digitVal b, rest) else none
  | _ => none

/-- Read one given byte. -/
def expectChar (c : Char) : GoString → Option GoString
  | [] => none
  | x :: xs => if x = c then some xs else none

/-- Days between 1970-01-01 and the given civil date (proleptic Gregorian). -/
def daysFromCivil (y m d : Nat) : Int :=
  let y' : Int := if m ≤ 2 then (y : Int) - 1 else y
  let era : Int := y' / 400
  let yoe : Int := y' - era * 400
  let mp : Int := if m > 2 then (m : Int) - 3 else (m : Int) + 9
  let doy : Int := (153 * mp + 2) / 5 + (d : Int) - 1
  let doe : Int := yoe * 365 + yoe / 4 - yoe / 100 + doy
  era * 146097 + doe - 719468

/-- Number of days of a month. -/
def daysIn (y m : Nat) : Nat :=
  if m = 2 then (if (y % 4 = 0 ∧ y % 100 ≠ 0) ∨ y % 400 = 0 then 29 else 28)
  else if m = 4 ∨ m = 6 ∨ m = 9 ∨ m = 11 then 30 else 31

/-- Whether a byte is an upper-case ASCII letter. -/
def isUpper (c : Char) : Bool := decide (65 ≤ c.toNat) && decide (c.toNat ≤ 90)

/-- An executable reading of `time.Parse("2006-01-02 15:04:05 MST", s)` used to
instantiate `parseTime` in the examples: `YYYY-MM-DD HH:MM:SS ZZZ` with a zone
abbreviation of three upper-case letters, the instant being the number of
seconds since 1970-01-01 00:00:00 at offset zero. -/
def parseTimestamp (s : GoString) : Option Time :=
  match twoDigits s with
  | none => none
  | some (c, s) =>
  match twoDigits s with
  | none => none
  | some (yy, s) =>
  match expectChar '-' s with
  | none => none
  | some s =>
  match twoDigits s with
  | none => none
  | some (mo, s) =>
  match expectChar '-' s with
  | none => none
  | some s =>
  match twoDigits s with
  | none => none
  | some (dd, s) =>
  match expectChar ' ' s with
  | none => none
  | some s =>
  match twoDigits s with
  | none => none
  | some (hh, s) =>
  match expectChar ':' s with
  | none => none
  | some s =>
  match twoDigits s with
  | none => none
  | some (mi, s) =>
  match expectChar ':' s with
  | none => none
  | some s =>
  match twoDigits s with
  | none => none
  | some (ss, s) =>
  match expectChar ' ' s with
  | none => none
  | some zone =>
    let y := c * 100 + yy
    if 1 ≤ mo ∧ mo ≤ 12 ∧ 1 ≤ dd ∧ dd ≤ daysIn y mo ∧ hh < 24 ∧ mi < 60 ∧ ss < 60
        ∧ zone.length = 3 ∧ zone.all isUpper = true then
      some (((daysFromCivil y mo dd * 24 + hh) * 60 + mi) * 60 + ss)
    else none

/-- The value of a string of decimal digits. -/
def digitsValue (ds : GoString) : Nat := ds.foldl (fun n c => n * 10 + digitVal c) 0

/-- The exact value, as a rational, of a token made of digits and dots, and 0
for a token that is not a decimal number: `strconv.ParseFloat(s, 64)` without
the rounding to `float64`.  It stands for `parseFloat` in the examples in which
the value of RuntimeMs plays no role. -/
def parseDecimal (s : GoString) : ℚ :=
  let ip := s.takeWhile isDigit
  match s.dropWhile isDigit with
  | [] => if ip.isEmpty then 0 else (digitsValue ip : ℚ)
  | c :: fp =>
    if c = '.' ∧ fp.all isDigit = true ∧ ¬ (ip.isEmpty ∧ fp.isEmpty) then
      (digitsValue ip : ℚ) + (digitsValue fp : ℚ) / (10 ^ fp.length : ℚ)
    else 0

/-- The map iteration that happens to visit the entries in insertion order. -/
def insertionOrder : BackendMap → BackendMap := id

/-! ## Decimal numerals -/

/-- Split off the sign of a numeral: whether it is negative, and the rest. -/
def signOf : GoString → Bool × GoString
  | [] => (false, [])
  | c :: cs => if c = '+' then (false, cs) else if c = '-' then (true, cs) else (false, c :: cs)

/-- A decimal integer numeral: an optional sign and at least one decimal
digit. -/
def isDecimalInt (s : GoString) : Bool :=
  !(signOf s).2.isEmpty && (signOf s).2.all isDigit

/-- The integer that a decimal numeral denotes. -/
def decimalIntValue (s : GoString) : Int :=
  if (signOf s).1 then -(digitsValue (signOf s).2 : Int) else (digitsValue (signOf s).2 : Int)

/-! ## The shape of a prefixed log line -/

/-- Eight fields joined by colons. -/
def joinFields (p0 p1 p2 p3 p4 p5 p6 p7 : GoString) : GoString :=
  p0 ++ ':' :: (p1 ++ ':' :: (p2 ++ ':' :: (p3 ++ ':' :: (p4 ++ ':' :: (p5 ++ ':' ::
    (p6 ++ ':' :: p7))))))

/-- The text `TS:HOST(PORT):USER@DB:[PID]:LEVEL:MSG`, the timestamp `TS` being
given by its three colon-free parts `t0:t1:t2`. -/
def prefixedLine (t0 t1 t2 host port user db pid level msg : GoString) : GoString :=
  joinFields t0 t1 t2 (host ++ '(' :: (port ++ [')'])) (user ++ '@' :: db)
    ('[' :: (pid ++ [']'])) level msg

/-! ## Notions used to state the properties of the grouping and of the scan -/

/-- An event with its `Query` and `AdditionalLines` erased: the fields that the
parser sets. -/
def LogLine.core (e : LogLine) : LogLine := { e with Query := [], AdditionalLines := [] }

/-- A top-level event followed by its attached lines, all reduced to their
parsed fields. -/
def LogLine.flat (o : LogLine) : List LogLine := o.core :: o.AdditionalLines.map LogLine.core

/-- The time-window test (source line 142): the event is not before
`linesNewerThan`. -/
def inWindow (linesNewerThan : Time) (e : LogLine) : Bool :=
  !decide (e.OccurredAt < linesNewerThan)

/-- Whether the event belongs to backend `p`. -/
def ofBackend (p : Int) (e : LogLine) : Bool := decide (e.BackendPid = p)

/-- The lookahead test on a line. -/
def isContextLine (e : LogLine) : Bool := isContextLevel e.LogLevel

/-- The keys of the map. -/
def BackendMap.keys (m : BackendMap) : List Int := m.map Prod.fst

/-- The events of one chunk as the read loop leaves them, when it does not
panic. -/
def parsedEvents (parseTime : GoString → Option Time) (reads : List (GoString × Bool)) :
    Option (List LogLine) :=
  (parseReads parseTime ParseState.init reads).map (fun st => st.logLines)

/-- The top-level events and the samples that the scan of one group adds,
starting with the counter at `skipLines`. -/
def groupOutput {F : Type} (parseFloat : GoString → F) (skipLines : Nat) (g : List LogLine) :
    ScanState F :=
  scanGroup parseFloat { skipLines := skipLines, result := [], samples := [] } g

/-- The top-level event that the scan makes of the anchor `l` followed, in its
group, by the lines `future`. -/
def anchorOf {F : Type} (parseFloat : GoString → F) (l : LogLine) (future : List LogLine) :
    LogLine :=
  (extractDuration parseFloat (attachFuture l 0 (future.take 2)).1 []).1

/-- The lines attached to an anchor followed by `future` in its group: the
longest run of context lines among the two lines that follow. -/
def attachedOf (future : List LogLine) : List LogLine :=
  (future.take 2).takeWhile isContextLine

/-- The top-level events that the scan of the groups `gs` adds. -/
def chunkResult {F : Type} (parseFloat : GoString → F) (gs : List (List LogLine)) :
    List LogLine :=
  gs.flatMap (fun g => (groupOutput parseFloat 0 g).result)

/-- The samples that the scan of the groups `gs` adds. -/
def chunkSamples {F : Type} (parseFloat : GoString → F) (gs : List (List LogLine)) :
    List (PostgresQuerySample F) :=
  gs.flatMap (fun g => (groupOutput parseFloat 0 g).samples)

/-- The backend identifiers of a list in the order in which each is first
seen. -/
def firstSeen (pids : List Int) : List Int :=
  pids.foldl (fun seen k => if k ∈ seen then seen else seen ++ [k]) []

/-- The reads of an example chunk: an error report of backend 12 with its
statement, between them a line of backend 13. -/
def exampleReads : List (GoString × Bool) :=
  [("2016-05-01 12:00:00 UTC:1.2.3.4(5):u@d:[12]:ERROR:  division by zero".toList, false),
   ("2016-05-01 12:00:01 UTC:1.2.3.4(6):v@d:[13]:LOG:  connection received".toList, false),
   ("2016-05-01 12:00:02 UTC:1.2.3.4(5):u@d:[12]:STATEMENT:  SELECT 1/0".toList, false)]

/-- The events that the read loop makes of `exampleReads`. -/
def exampleEvents : List LogLine :=
  [{ OccurredAt := 1462104000, Username := "u".toList, Database := "d".toList,
     ClientHostname := "1.2.3.4".toList, ClientPort := 5, BackendPid := 12,
     LogLevel := "ERROR".toList, Content := "division by zero".toList, Query := [],
     AdditionalLines := [] },
   { OccurredAt := 1462104001, Username := "v".toList, Database := "d".toList,
     ClientHostname := "1.2.3.4".toList, ClientPort := 6, BackendPid := 13,
     LogLevel := "LOG".toList, Content := "connection received".toList, Query := [],
     AdditionalLines := [] },
   { OccurredAt := 1462104002, Username := "u".toList, Database := "d".toList,
     ClientHostname := "1.2.3.4".toList, ClientPort := 5, BackendPid := 12,
     LogLevel := "STATEMENT".toList, Content := "SELECT 1/0".toList, Query := [],
     AdditionalLines := [] }]

/-- An example duration report of backend 12. -/
def exampleDuration : LogLine :=
  { OccurredAt := 1462104000, Username := "u".toList, Database := "d".toList,
    ClientHostname := "1.2.3.4".toList, ClientPort := 5, BackendPid := 12,
    LogLevel := "LOG".toList, Content := "duration: 12.345 ms  statement: SELECT 1".toList,
    Query := [], AdditionalLines := [] }

/-- An example report of the duration of a parse phase. -/
def exampleParseTiming : LogLine :=
  { exampleDuration with Content := "duration: 1.0 ms  parse <unnamed>: SELECT 1".toList }

/-- An example duration report whose query text mentions `parse` and `bind`. -/
def exampleQueryMention : LogLine :=
  { exampleDuration with
      Content := "duration: 1.0 ms  statement: SELECT parse FROM bind".toList }

/-- The reads of an example chunk made of one duration report. -/
def exampleDurationReads : List (GoString × Bool) :=
  [("2016-05-01 12:00:00 UTC:1.2.3.4(5):u@d:[12]:LOG:  duration: 12.345 ms  statement: SELECT 1".toList,
    false)]

/-- An example STATEMENT line of backend 12 with the given Content. -/
def exampleStatement (content : GoString) : LogLine :=
  { exampleDuration with LogLevel := "STATEMENT".toList, Content := content }

/-- An example error report of backend 12. -/
def exampleError : LogLine :=
  { exampleDuration with LogLevel := "ERROR".toList, Content := "division by zero".toList }

/-- An example duration report with the malformed number `1.2.3`. -/
def exampleMalformed : LogLine :=
  { exampleDuration with Content := "duration: 1.2.3 ms  statement: SELECT 1".toList }

/-- An example duration report with the malformed number `.`. -/
def exampleLoneDot : LogLine :=
  { exampleDuration with Content := "duration: . ms  statement: SELECT 1".toList }

/-! ## The retrieval loops of `GetLogLines` (source lines 22 to 68 and 202 to 209) -/

/-- The successive responses of `DownloadDBLogFilePortion` for one log file, as
the loop of source lines 53 to 206 meets them: a retrieval error, a chunk with
`AdditionalDataPending` false, or a chunk with `AdditionalDataPending` true
followed by the response to the next request.  A chunk is given by the results
of `ReadLine` over its `LogFileData`. -/
inductive ChunkStream where
  | failure : ChunkStream
  | last (reads : List (GoString × Bool)) : ChunkStream
  | more (reads : List (GoString × Bool)) (next : ChunkStream) : ChunkStream

/-- The duration `time.Minute`, instants being counted in nanoseconds. -/
def minute : Int := 60 * 1000000000

/-- The threshold `linesNewerThan` of source line 35 for the collection-start
time `now`. -/
def linesNewerThanAt (now : Time) : Time := now + (-10) * minute

/-- The loop over the chunks of one file (source lines 53 to 206).  The result
is `none` when the code panics; otherwise the accumulated `result` and
`samples`, and whether the function has returned on a retrieval error. -/
def downloadFile {F : Type} (parseTime : GoString → Option Time)
    (parseFloat : GoString → F) (linesNewerThan : Time)
    (rangeOrder : BackendMap → BackendMap) :
    ChunkStream → List LogLine × List (PostgresQuerySample F) →
      Option ((List LogLine × List (PostgresQuerySample F)) × Bool)
  | .failure, acc => some (acc, true)
  | .last reads, acc =>
    match processChunk parseTime parseFloat linesNewerThan rangeOrder reads acc.1 acc.2 with
    | none => none
    | some acc' => some (acc', false)
  | .more reads next, acc =>
    match processChunk parseTime parseFloat linesNewerThan rangeOrder reads acc.1 acc.2 with
    | none => none
    | some acc' => downloadFile parseTime parseFloat linesNewerThan rangeOrder next acc'

/-- The loop over the log files (source lines 50 to 207). -/
def filesLoop {F : Type} (parseTime : GoString → Option Time)
    (parseFloat : GoString → F) (linesNewerThan : Time)
    (rangeOrder : BackendMap → BackendMap) :
    List ChunkStream → List LogLine × List (PostgresQuerySample F) →
      Option (List LogLine × List (PostgresQuerySample F))
  | [], acc => some acc
  | f :: fs, acc =>
    match downloadFile parseTime parseFloat linesNewerThan rangeOrder f acc with
    | none => none
    | some (acc', true) => some acc'
    | some (acc', false) => filesLoop parseTime parseFloat linesNewerThan rangeOrder fs acc'

/-- The function `GetLogLines`, called at the instant `now`.  The argument
`logFiles` is `none` when the lookup of the instance or the listing of the log
files fails (source lines 26 to 48), and otherwise the log files listed, each
with its responses.  The result is `none` when the code panics. -/
def GetLogLines {F : Type} (parseTime : GoString → Option Time)
    (parseFloat : GoString → F) (rangeOrder : BackendMap → BackendMap) (now : Time)
    (logFiles : Option (List ChunkStream)) :
    Option (List LogLine × List (PostgresQuerySample F)) :=
  match logFiles with
  | none => some ([], [])
  | some files =>
    filesLoop parseTime parseFloat (linesNewerThanAt now) rangeOrder files ([], [])

/-! ## The statistics helper `GetBuffercache` (`input/postgres/buffercache.go`) -/

/-- An error value returned by a call on the database handle: an error of the
provider, of dynamic type `*pq.Error`, with its code, or an error of any other
dynamic type (connection, driver, context). -/
inductive DbError where
  | pq (code : GoString) (message : GoString)
  | other (message : GoString)
  deriving DecidableEq

/-- The text of an error (`err.Error()`). -/
def DbError.message : DbError → GoString
  | .pq _ message => message
  | .other message => message

/-- The calls that the helper makes on the handle: `db.Query` of the statistics
query and `db.Exec` of `CREATE EXTENSION IF NOT EXISTS pg_buffercache`. -/
inductive DbCall where
  | query
  | createExtension
  deriving DecidableEq

/-- The result of one call on the handle: the rows, each of which scans into an
entry or fails to, or an error.  For `db.Exec` only the error matters. -/
inductive DbResult (Entry : Type) where
  | rows (rs : List (Except DbError Entry))
  | failed (err : DbError)

/-- What a run of the helper does: the calls it makes, in order, and what it
returns, the entries of the report with the error, or `none` when it
panics. -/
structure BuffercacheOutcome (Entry : Type) where
  calls : List DbCall
  returned : Option (List Entry × Option DbError)

/-- The loop over the rows (source lines 51 to 64): a row that fails to scan
ends it with the wrapped error and the entries read so far. -/
def scanRows {Entry : Type} : List (Except DbError Entry) → List Entry →
    List Entry × Option DbError
  | [], entries => (entries, none)
  | .error err :: _, entries =>
    (entries, some (.other ("Buffercache/Scan: ".toList ++ err.message)))
  | .ok row :: rest, entries => scanRows rest (entries ++ [row])

/-- The function `GetBuffercache` over a database given by the results of its
successive calls, `db n` being the result of the call number `n`.  The type
assertion `err.(*pq.Error)` of source line 27 panics on an error of another
dynamic type. -/
def GetBuffercache {Entry : Type} (db : Nat → DbResult Entry) : BuffercacheOutcome Entry :=
  match db 0 with
  | .rows rs => { calls := [.query], returned := some (scanRows rs []) }
  | .failed (.other _) => { calls := [.query], returned := none }
  | .failed (.pq code message) =>
    if code = "42P01".toList then
      match db 1 with
      | .failed err =>
        { calls := [.query, .createExtension], returned := some ([], some err) }
      | .rows _ =>
        match db 2 with
        | .failed err =>
          { calls := [.query, .createExtension, .query], returned := some ([], some err) }
        | .rows rs =>
          { calls := [.query, .createExtension, .query], returned := some (scanRows rs []) }
    else { calls := [.query], returned := some ([], some (.pq code message)) }

/-! ## Notions used to state the properties of the retrieval loops -/

/-- The chunks that a file's responses carry, up to its end or to its
retrieval error. -/
def ChunkStream.chunks : ChunkStream → List (List (GoString × Bool))
  | .failure => []
  | .last reads => [reads]
  | .more reads next => reads :: next.chunks

/-- Whether the retrieval of some chunk of the file fails. -/
def ChunkStream.fails : ChunkStream → Bool
  | .failure => true
  | .last _ => false
  | .more _ next => next.fails

/-- The processing of a list of chunks, one after the other. -/
def processChunks {F : Type} (parseTime : GoString → Option Time)
    (parseFloat : GoString → F) (linesNewerThan : Time)
    (rangeOrder : BackendMap → BackendMap) :
    List (List (GoString × Bool)) → List LogLine × List (PostgresQuerySample F) →
      Option (List LogLine × List (PostgresQuerySample F))
  | [], acc => some acc
  | reads :: rest, acc =>
    match processChunk parseTime parseFloat linesNewerThan rangeOrder reads acc.1 acc.2 with
    | none => none
    | some acc' => processChunks parseTime parseFloat linesNewerThan rangeOrder rest acc'

/-- The example timestamp reader with instants in nanoseconds. -/
def parseTimestampNanos (s : GoString) : Option Time :=
  (parseTimestamp s).map (fun t => t * 1000000000)

/-! ## Notions used to state the properties of the samples and of the query text -/

/-- The samples that the duration extractor makes of one event. -/
def samplesOf {F : Type} (parseFloat : GoString → F) (o : LogLine) :
    List (PostgresQuerySample F) :=
  (extractDuration parseFloat o []).2

/-- Whether the duration extractor applies to the event: its Content begins
with `duration: ` and does not end with the truncation marker. -/
def isApplicable (o : LogLine) : Bool :=
  hasPrefix o.Content "duration: ".toList && !hasSuffix o.Content truncationMarker

/-- Whether a line is a STATEMENT line whose Content does not end with the
truncation marker. -/
def isFullStatement (f : LogLine) : Bool :=
  decide (f.LogLevel = "STATEMENT".toList) && !hasSuffix f.Content truncationMarker

/-- The Content of the last untruncated STATEMENT line among `attached`, or
`q0` when there is none. -/
def statementQuery (q0 : GoString) (attached : List LogLine) : GoString :=
  match (attached.filter isFullStatement).getLast? with
  | some f => f.Content
  | none => q0

/-- The query text of the duration pattern, when the extractor applies to the
event and the pattern matches. -/
def durationQuery (l : LogLine) : Option GoString :=
  if isApplicable l then (findStringSubmatch l.Content).map (fun m => m.2.2) else none

/-- One iteration of the loop over a backend's list (source lines 153 to 198),
on the line `logLine` followed in the list by `future`. -/
def scanStep {F : Type} (parseFloat : GoString → F) (st : ScanState F) (logLine : LogLine)
    (future : List LogLine) : ScanState F :=
  if st.skipLines > 0 then { st with skipLines := st.skipLines - 1 }
  else
    let a := attachFuture logLine st.skipLines (future.take 2)
    let d := extractDuration parseFloat a.1 st.samples
    { skipLines := a.2, result := st.result ++ [d.1], samples := d.2 }

/-- The value of `skipLines` at the start of every iteration of the loop over a
backend's list and at its end, each with the number of lines of the list that
are still to be visited. -/
def skipTrace {F : Type} (parseFloat : GoString → F) :
    ScanState F → List LogLine → List (Nat × Nat)
  | st, [] => [(st.skipLines, 0)]
  | st, logLine :: future =>
    (st.skipLines, future.length + 1)
      :: skipTrace parseFloat (scanStep parseFloat st logLine future) future

/-- Whether a token of digits and dots is a decimal number for
`strconv.ParseFloat`: at least one digit and at most one dot. -/
def isDecimalNumber (s : GoString) : Bool :=
  match s.dropWhile isDigit with
  | [] => !(s.takeWhile isDigit).isEmpty
  | c :: fp =>
    decide (c = '.') && fp.all isDigit && !((s.takeWhile isDigit).isEmpty && fp.isEmpty)

/-! ## Notions used to state the property of the text before the first event -/

/-- Whether a line fails the prefix test of source lines 99 to 113: it does not
split into eight fields, or its timestamp does not parse. -/
def failsPrefixTest (parseTime : GoString → Option Time) (line : GoString) : Bool :=
  match splitN ':' 8 line with
  | [p0, p1, p2, _, _, _, _, _] => (parseTime (p0 ++ [':'] ++ p1 ++ [':'] ++ p2)).isNone
  | _ => true

/-- Whether each of the reads, the first one met with the flag `incompleteLine`
at `inc`, is the continuation of a fragment or a line that fails the prefix
test. -/
def leavesNoEvent (parseTime : GoString → Option Time) : Bool → List (GoString × Bool) → Bool
  | _, [] => true
  | inc, (line, isPrefix) :: rest =>
    (inc || failsPrefixTest parseTime line) && leavesNoEvent parseTime isPrefix rest

/-- The flag `incompleteLine` after the reads, when it is `inc` before them. -/
def endFlag : Bool → List (GoString × Bool) → Bool
  | inc, [] => inc
  | _, (_, isPrefix) :: rest => endFlag isPrefix rest

/-- Leading reads of an example chunk that yield no event: a line without
prefix, then a fragment cut inside the prefix and its remainder. -/
def exampleLeadingReads : List (GoString × Bool) :=
  [("    FROM t WHERE x = 1".toList, false),
   ("2016-05-01 11:59:59 UTC:1.2.3.4(5)".toList, true),
   (":u@d:[12]:LOG:  lost".toList, false)]

/-! ## The conversion `strconv.ParseFloat` (source line 181) -/

/-- A `float64` value that is neither negative nor a NaN, which is all that
`strconv.ParseFloat` returns on a text without sign: the finite value
`mant * 2 ^ exp`, with `mant < 2 ^ 53` and `-1074 ≤ exp ≤ 971`, or +Inf. -/
inductive Float64 where
  | finite (mant : Nat) (exp : Int)
  | inf
  deriving DecidableEq

/-- The `float64` value 0. -/
def Float64.zero : Float64 := .finite 0 (-1074)

/-- The fraction `n / (d * 2 ^ e)` as a numerator and a denominator. -/
def scaleBy (n d : Nat) (e : Int) : Nat × Nat :=
  if 0 ≤ e then (n, d * 2 ^ e.toNat) else (n * 2 ^ (-e).toNat, d)

/-- The integer nearest to `num / den`, the even one of the two when `num / den`
lies halfway between them (IEEE 754 unbiased rounding). -/
def roundHalfEven (num den : Nat) : Nat :=
  if 2 * (num % den) < den then num / den
  else if 2 * (num % den) = den then (if (num / den) % 2 = 0 then num / den else num / den + 1)
  else num / den + 1

/-- The number of binary digits of `n`, with `fuel` at least `n`. -/
def bitLen : Nat → Nat → Nat
  | 0, _ => 0
  | fuel + 1, n => if n = 0 then 0 else bitLen fuel (n / 2) + 1

/-- The number of binary digits of `n`. -/
def bitLength (n : Nat) : Nat := bitLen n n

/-- The exponent of the `float64` values around the positive fraction `n / d`:
the `e` with `2 ^ 52 ≤ n / (d * 2 ^ e) < 2 ^ 53`, and -1074, the exponent of the
subnormal values, when that `e` is smaller. -/
def binade (n d : Nat) : Int :=
  let e0 : Int := (bitLength n : Int) - (bitLength d : Int) - 53
  let e1 : Int := if 2 ^ 53 ≤ (scaleBy n d e0).1 / (scaleBy n d e0).2 then e0 + 1 else e0
  max e1 (-1074)

/-- The `float64` nearest to the fraction `n / d`, for `d > 0`, as
`strconv.ParseFloat` returns it with its error: the fraction is rounded to a
multiple of `2 ^ e`, `e` being its binade, and a result beyond the largest
finite value is +Inf with the range error. -/
def roundFloat64 (n d : Nat) : Float64 × Option NumError :=
  if n = 0 then (Float64.zero, none)
  else
    let e := binade n d
    let m := roundHalfEven (scaleBy n d e).1 (scaleBy n d e).2
    let me : Nat × Int := if m = 2 ^ 53 then (2 ^ 52, e + 1) else (m, e)
    if me.2 > 971 then (.inf, some .errRange) else (.finite me.1 me.2, none)

/-- The function `strconv.ParseFloat(s, 64)` on a text made of digits and dots,
which is all that the group `[\d\.]+` of the duration pattern captures: the
returned value and the returned error (`none` is `nil`).  A decimal number, its
digits read as an integer over the power of ten that its fraction digits
call for, gives the nearest `float64`; any other text gives 0 and the syntax
error.  The signed, exponent, hexadecimal, infinity and NaN syntaxes of
`ParseFloat` all need a byte that is neither a digit nor a dot. -/
def ParseFloat (s : GoString) : Float64 × Option NumError :=
  if isDecimalNumber s then
    roundFloat64 (digitsValue (s.filter isDigit)) (10 ^ ((s.dropWhile isDigit).drop 1).length)
  else (Float64.zero, some .errSyntax)

/-- The value `runtime` of `runtime, _ := strconv.ParseFloat(parts[1], 64)`
(source line 181): the error is dropped. -/
def runtime (s : GoString) : Float64 := (ParseFloat s).1

/-- The rational number that a finite `float64` value denotes. -/
def floatValue (m : Nat) (e : Int) : ℚ := (m : ℚ) * 2 ^ e

/-! ## Notions used to state the properties of whole chunks and collections -/

/-- The chunks that `GetLogLines` retrieves from the listed files: those of the
files up to the first one with a retrieval that fails, and of that file the
chunks before the failure. -/
def retrievedChunks : List ChunkStream → List (List (GoString × Bool))
  | [] => []
  | f :: fs => if f.fails then f.chunks else f.chunks ++ retrievedChunks fs

/-- The reads of an example chunk made of the report of a parse phase and of a
duration report whose query text mentions `parse` and `bind`. -/
def exampleExclusionReads : List (GoString × Bool) :=
  [("2016-05-01 12:00:00 UTC:1.2.3.4(5):u@d:[12]:LOG:  duration: 1.0 ms  parse <unnamed>: SELECT 1".toList,
    false),
   ("2016-05-01 12:00:00 UTC:1.2.3.4(5):u@d:[12]:LOG:  duration: 1.0 ms  statement: SELECT parse FROM bind".toList,
    false)]

/-- The reads of an example chunk made of two duration reports with the
malformed numbers `1.2.3` and `.`. -/
def exampleMalformedReads : List (GoString × Bool) :=
  [("2016-05-01 12:00:00 UTC:1.2.3.4(5):u@d:[12]:LOG:  duration: 1.2.3 ms  statement: SELECT 1".toList,
    false),
   ("2016-05-01 12:00:00 UTC:1.2.3.4(5):u@d:[12]:LOG:  duration: . ms  statement: SELECT 1".toList,
    false)]

/-- The decimal number 1 followed by 309 zeros. -/
def exampleHugeNumber : GoString := '1' :: List.replicate 309 '0'

/-- The reads of an example chunk made of one duration report with the number
`exampleHugeNumber`. -/
def exampleHugeReads : List (GoString × Bool) :=
  [("2016-05-01 12:00:00 UTC:1.2.3.4(5):u@d:[12]:LOG:  duration: ".toList ++ exampleHugeNumber
      ++ " ms  statement: SELECT 1".toList, false)]

/-- The reads of an example chunk with events of 11:59:59, 12:00:00 and
12:00:01. -/
def exampleBoundaryReads : List (GoString × Bool) :=
  [("2016-05-01 11:59:59 UTC:1.2.3.4(5):u@d:[12]:LOG:  checkpoint starting".toList, false),
   ("2016-05-01 12:00:00 UTC:1.2.3.4(5):u@d:[12]:LOG:  checkpoint complete".toList, false),
   ("2016-05-01 12:00:01 UTC:1.2.3.4(6):v@d:[13]:LOG:  connection received".toList, false)]

/-- The result of `GetLogLines` at 12:10:00 on one file made of the chunk
`exampleBoundaryReads`, whose second event is timestamped exactly at the
threshold. -/
def exampleBoundaryCollection : Option (List LogLine × List (PostgresQuerySample Float64)) :=
  GetLogLines parseTimestampNanos runtime insertionOrder 1462104600000000000
    (some [ChunkStream.last exampleBoundaryReads])

/-! ## Lemmas on the library functions -/

theorem cutAt_append (sep : Char) (a b : GoString) (h : sep ∉ a) :
    cutAt sep (a ++ sep :: b) = some (a, b) := by
  induction a with
  | nil => simp [cutAt]
  | cons c cs ih =>
    have hc : c ≠ sep := fun e => h (by simp [e])
    have hcs : sep ∉ cs := fun e => h (by simp [e])
    simp [cutAt, hc, ih hcs]

theorem cutAt_of_not_mem (sep : Char) (s : GoString) (h : sep ∉ s) :
    cutAt sep s = none := by
  induction s with
  | nil => rfl
  | cons c cs ih =>
    have hc : c ≠ sep := fun e => h (by simp [e])
    have hcs : sep ∉ cs := fun e => h (by simp [e])
    simp [cutAt, hc, ih hcs]

theorem cutAt_eq_some (sep : Char) (s a b : GoString) (h : cutAt sep s = some (a, b)) :
    s = a ++ sep :: b ∧ sep ∉ a := by
  induction s generalizing a with
  | nil => simp [cutAt] at h
  | cons c cs ih =>
    by_cases hc : c = sep
    · simp [cutAt, hc] at h
      obtain ⟨rfl, rfl⟩ := h
      simp [hc]
    · simp only [cutAt, hc, if_false] at h
      cases hcut : cutAt sep cs with
      | none => simp [hcut] at h
      | some p =>
        obtain ⟨a', b'⟩ := p
        simp only [hcut, Option.some.injEq, Prod.mk.injEq] at h
        obtain ⟨rfl, rfl⟩ := h
        obtain ⟨h1, h2⟩ := ih a' hcut
        refine ⟨by simp [h1], ?_⟩
        intro hm
        rcases List.mem_cons.1 hm with e | e
        · exact hc e.symm
        · exact h2 e

theorem cutAt_eq_none (sep : Char) (s : GoString) (h : cutAt sep s = none) : sep ∉ s := by
  induction s with
  | nil => simp
  | cons c cs ih =>
    by_cases hc : c = sep
    · simp [cutAt, hc] at h
    · simp only [cutAt, hc, if_false] at h
      cases hcut : cutAt sep cs with
      | none =>
        intro hm
        rcases List.mem_cons.1 hm with e | e
        · exact hc e.symm
        · exact ih hcut e
      | some p => simp [hcut] at h

theorem splitN_append (sep : Char) (n : Nat) (a b : GoString) (h : sep ∉ a) :
    splitN sep (n + 2) (a ++ sep :: b) = a :: splitN sep (n + 1) b := by
  simp [splitN, cutAt_append sep a b h]

theorem splitN_of_not_mem (sep : Char) (n : Nat) (s : GoString) (h : sep ∉ s) :
    splitN sep (n + 1) s = [s] := by
  cases n with
  | zero => rfl
  | succ n => simp [splitN, cutAt_of_not_mem sep s h]

/-- The number of fields of `strings.SplitN(s, sep, n+1)` is one more than the
number of separators in `s`, capped at `n + 1`. -/
theorem splitN_length (sep : Char) (n : Nat) (s : GoString) :
    (splitN sep (n + 1) s).length = min (s.count sep) n + 1 := by
  induction n generalizing s with
  | zero => simp [splitN]
  | succ n ih =>
    cases hcut : cutAt sep s with
    | none =>
      have hm := cutAt_eq_none sep s hcut
      simp [splitN, hcut, List.count_eq_zero_of_not_mem hm]
    | some p =>
      obtain ⟨a, b⟩ := p
      obtain ⟨hs, ha⟩ := cutAt_eq_some sep s a b hcut
      simp only [splitN, hcut, List.length_cons, ih b]
      subst hs
      simp [List.count_append, List.count_eq_zero_of_not_mem ha]
      omega

/-- A line splits into eight fields exactly when it holds at least seven
colons. -/
theorem splitN_length_eq_eight_iff (line : GoString) :
    (splitN ':' 8 line).length = 8 ↔ 7 ≤ line.count ':' := by
  rw [splitN_length ':' 7 line]
  omega

/-- Text added after a line that already splits into `n + 1` fields goes to
the last field. -/
theorem splitN_append_right (sep : Char) (n : Nat) (s r : GoString)
    (init : List GoString) (last : GoString)
    (h : splitN sep (n + 1) s = init ++ [last]) (hlen : init.length = n) :
    splitN sep (n + 1) (s ++ r) = init ++ [last ++ r] := by
  induction n generalizing s init with
  | zero =>
    have hinit : init = [] := List.length_eq_zero.1 hlen
    subst hinit
    simp only [splitN, List.nil_append, List.cons.injEq, and_true] at h ⊢
    rw [h]
  | succ n ih =>
    cases hcut : cutAt sep s with
    | none =>
      simp only [splitN, hcut] at h
      have := congrArg List.length h
      simp only [List.length_cons, List.length_nil, List.length_append,
        List.length_singleton] at this
      omega
    | some p =>
      obtain ⟨a, b⟩ := p
      obtain ⟨hs, ha⟩ := cutAt_eq_some sep s a b hcut
      simp only [splitN, hcut] at h
      cases init with
      | nil => simp at hlen
      | cons x xs =>
        simp only [List.cons_append, List.cons.injEq] at h
        obtain ⟨hx, hrest⟩ := h
        subst hx
        have hxs : xs.length = n := by simpa using hlen
        have := ih b xs hrest hxs
        rw [hs, List.append_assoc, List.cons_append, splitN_append sep n a (b ++ r) ha, this]
        rfl

theorem splitN_eight_append (line r p0 p1 p2 p3 p4 p5 p6 p7 : GoString)
    (h : splitN ':' 8 line = [p0, p1, p2, p3, p4, p5, p6, p7]) :
    splitN ':' 8 (line ++ r) = [p0, p1, p2, p3, p4, p5, p6, p7 ++ r] :=
  splitN_append_right ':' 7 line r [p0, p1, p2, p3, p4, p5, p6] p7 h rfl

theorem splitN_subset (sep : Char) (n : Nat) (s part : GoString)
    (h : part ∈ splitN sep n s) : ∀ c ∈ part, c ∈ s := by
  induction n generalizing s with
  | zero => simp [splitN] at h
  | succ n ih =>
    cases n with
    | zero =>
      simp only [splitN, List.mem_singleton] at h
      rw [h]
      exact fun c hc => hc
    | succ n =>
      cases hcut : cutAt sep s with
      | none =>
        simp only [splitN, hcut, List.mem_singleton] at h
        rw [h]
        exact fun c hc => hc
      | some p =>
        obtain ⟨a, b⟩ := p
        obtain ⟨hs, _⟩ := cutAt_eq_some sep s a b hcut
        simp only [splitN, hcut, List.mem_cons] at h
        intro c hc
        rw [hs]
        rcases h with h | h
        · rw [h] at hc
          simp [hc]
        · have := ih b h c hc
          simp [this]

theorem splitN_joinFields (p0 p1 p2 p3 p4 p5 p6 p7 : GoString)
    (h0 : ':' ∉ p0) (h1 : ':' ∉ p1) (h2 : ':' ∉ p2) (h3 : ':' ∉ p3) (h4 : ':' ∉ p4)
    (h5 : ':' ∉ p5) (h6 : ':' ∉ p6) :
    splitN ':' 8 (joinFields p0 p1 p2 p3 p4 p5 p6 p7) = [p0, p1, p2, p3, p4, p5, p6, p7] := by
  unfold joinFields
  rw [splitN_append _ _ _ _ h0, splitN_append _ _ _ _ h1, splitN_append _ _ _ _ h2,
    splitN_append _ _ _ _ h3, splitN_append _ _ _ _ h4, splitN_append _ _ _ _ h5,
    splitN_append _ _ _ _ h6]
  rfl

theorem trimLeft_eq_dropWhile (c : Char) (s : GoString) :
    trimLeft c s = s.dropWhile (fun x => x == c) := by
  induction s with
  | nil => rfl
  | cons x xs ih =>
    by_cases h : x = c
    · simp [trimLeft, List.dropWhile, h, ih]
    · have hb : (x == c) = false := by simpa using h
      simp [trimLeft, List.dropWhile, h, hb]

theorem trimLeft_of_not_mem (c : Char) (s : GoString) (h : c ∉ s) : trimLeft c s = s := by
  cases s with
  | nil => rfl
  | cons x xs =>
    have hx : x ≠ c := fun e => h (by simp [e])
    simp [trimLeft, hx]

theorem trimLeft_append (c : Char) (s r : GoString) (h : ∃ x ∈ s, x ≠ c) :
    trimLeft c (s ++ r) = trimLeft c s ++ r := by
  induction s with
  | nil => simp at h
  | cons y ys ih =>
    by_cases hy : y = c
    · obtain ⟨x, hx, hxc⟩ := h
      have hx' : x ∈ ys := by
        rcases List.mem_cons.1 hx with e | e
        · exact absurd (e.trans hy) hxc
        · exact e
      simp only [List.cons_append, trimLeft, hy, if_true]
      exact ih ⟨x, hx', hxc⟩
    · simp [trimLeft, hy]

theorem trimLeft_subset (x : Char) (s : GoString) : ∀ c ∈ trimLeft x s, c ∈ s := by
  intro c hc
  rw [trimLeft_eq_dropWhile] at hc
  exact (List.dropWhile_suffix _).subset hc

theorem trimRight_concat (c : Char) (s : GoString) :
    trimRight c (s ++ [c]) = trimRight c s := by
  simp [trimRight, trimLeft]

theorem trimRight_of_not_mem (c : Char) (s : GoString) (h : c ∉ s) : trimRight c s = s := by
  unfold trimRight
  rw [trimLeft_of_not_mem c s.reverse (by simpa using h)]
  simp

theorem stripEnds_brackets (a b : Char) (s : GoString) :
    stripEnds (a :: (s ++ [b])) = some s := by
  unfold stripEnds
  have h : ¬ ((a :: (s ++ [b])).length < 2) := by simp
  rw [if_neg h]
  simp

theorem digitsValue_foldl_ge (ds : GoString) (n : Nat) :
    n ≤ ds.foldl (fun n c => n * 10 + digitVal c) n := by
  induction ds generalizing n with
  | nil => simp
  | cons c cs ih =>
    simp only [List.foldl_cons]
    exact le_trans (by omega) (ih _)

theorem parseUintLoop_ok (ds : GoString) (n : Nat)
    (hd : ∀ c ∈ ds, isDigit c = true)
    (hv : ds.foldl (fun n c => n * 10 + digitVal c) n ≤ maxUint64) :
    parseUintLoop n ds = .ok (ds.foldl (fun n c => n * 10 + digitVal c) n) := by
  induction ds generalizing n with
  | nil => rfl
  | cons c cs ih =>
    have hc : isDigit c = true := hd c (by simp)
    simp only [List.foldl_cons] at hv ⊢
    have hge := digitsValue_foldl_ge cs (n * 10 + digitVal c)
    have hmax : maxUint64 = 18446744073709551615 := by decide
    have h1 : ¬ (n ≥ maxUint64 / 10 + 1) := by omega
    have h2 : ¬ (n * 10 + digitVal c > maxUint64) := by omega
    simp only [parseUintLoop, hc, Bool.not_true, Bool.false_eq_true, if_false, h1, h2]
    exact ih _ (fun x hx => hd x (by simp [hx])) hv

theorem parseIntSigned_ok (neg : Bool) (ds : GoString) (hne : ds ≠ [])
    (hd : ∀ c ∈ ds, isDigit c = true)
    (hlo : neg = true → digitsValue ds ≤ 2 ^ 63)
    (hhi : neg = false → digitsValue ds < 2 ^ 63) :
    parseIntSigned neg ds
      = (if neg then -(digitsValue ds : Int) else (digitsValue ds : Int), none) := by
  have hmax : maxUint64 = 18446744073709551615 := by decide
  have hv : ds.foldl (fun n c => n * 10 + digitVal c) 0 ≤ maxUint64 := by
    have : digitsValue ds ≤ 2 ^ 63 := by
      cases neg with
      | true => exact hlo rfl
      | false => exact le_of_lt (hhi rfl)
    unfold digitsValue at this
    omega
  have hemp : ds.isEmpty = false := by
    cases ds with
    | nil => exact absurd rfl hne
    | cons _ _ => rfl
  have hp : parseUint ds = .ok (digitsValue ds) := by
    simp only [parseUint, hemp, Bool.false_eq_true, if_false]
    exact parseUintLoop_ok ds 0 hd hv
  unfold parseIntSigned
  rw [hp]
  cases neg with
  | true =>
    have := hlo rfl
    have h2 : ¬ (digitsValue ds > 2 ^ 63) := by omega
    simp only [Bool.not_true, Bool.false_and, Bool.false_eq_true, if_false, Bool.true_and,
      decide_eq_true_eq, h2, if_true]
  | false =>
    have := hhi rfl
    have h2 : ¬ (digitsValue ds ≥ 2 ^ 63) := by omega
    simp only [Bool.not_false, Bool.true_and, decide_eq_true_eq, h2, if_false, Bool.false_and,
      Bool.false_eq_true]

/-- The function `strconv.Atoi` returns the value of a decimal numeral that fits
in 64 bits, with no error. -/
theorem atoi_of_decimal (s : GoString) (h : isDecimalInt s = true)
    (hlo : -(2 ^ 63 : Int) ≤ decimalIntValue s) (hhi : decimalIntValue s < 2 ^ 63) :
    atoi s = (decimalIntValue s, none) := by
  cases s with
  | nil => simp [isDecimalInt, signOf] at h
  | cons c cs =>
    simp only [isDecimalInt, decimalIntValue] at h hlo hhi ⊢
    by_cases hp : c = '+'
    · simp only [signOf, hp, if_true, Bool.and_eq_true, Bool.not_eq_true', List.all_eq_true,
        Bool.false_eq_true, if_false] at h hlo hhi ⊢
      simp only [atoi, if_true]
      rw [parseIntSigned_ok false cs (by intro e; simp [e] at h) h.2 (by simp)
        (by intro _; exact_mod_cast hhi)]
      simp
    · by_cases hm : c = '-'
      · have hpm : ('-' : Char) ≠ '+' := by decide
        simp only [signOf, hm, hpm, if_true, if_false, Bool.and_eq_true, Bool.not_eq_true',
          List.all_eq_true] at h hlo hhi ⊢
        simp only [atoi, hpm, if_true, if_false]
        rw [parseIntSigned_ok true cs (by intro e; simp [e] at h) h.2
          (by intro _; have := hlo; omega) (by simp)]
        simp
      · simp only [signOf, hp, hm, if_false, Bool.and_eq_true, Bool.not_eq_true',
          List.all_eq_true, Bool.false_eq_true] at h hlo hhi ⊢
        simp only [atoi, hp, hm, if_false]
        rw [parseIntSigned_ok false (c :: cs) (by simp) h.2 (by simp)
          (by intro _; exact_mod_cast hhi)]
        simp

theorem atoi_syntax_zero (s : GoString) (h : (atoi s).2 = some NumError.errSyntax) :
    (atoi s).1 = 0 := by
  have key : ∀ (neg : Bool) (ds : GoString),
      (parseIntSigned neg ds).2 = some NumError.errSyntax → (parseIntSigned neg ds).1 = 0 := by
    intro neg ds
    unfold parseIntSigned
    split
    · intro _; rfl
    · split <;> simp
    · split
      · simp
      · split <;> simp
  cases s with
  | nil => rfl
  | cons c cs =>
    by_cases hc : c = '+'
    · simp only [atoi, hc, if_true] at h ⊢
      exact key _ _ h
    · by_cases hm : c = '-'
      · simp only [atoi, hc, hm, if_true, if_false] at h ⊢
        exact key _ _ h
      · simp only [atoi, hc, hm, if_false] at h ⊢
        exact key _ _ h

theorem toInt32_of_range (v : Int) (hlo : -(2 ^ 31 : Int) ≤ v) (hhi : v < 2 ^ 31) :
    toInt32 v = v := by
  unfold toInt32
  omega

/-- Every byte of a decimal numeral is a digit or a sign. -/
theorem isDecimalInt_bytes (s : GoString) (h : isDecimalInt s = true) :
    ∀ c ∈ s, isDigit c = true ∨ c = '+' ∨ c = '-' := by
  cases s with
  | nil => simp
  | cons c cs =>
    simp only [isDecimalInt] at h
    by_cases hp : c = '+'
    · simp only [signOf, hp, if_true, Bool.and_eq_true, List.all_eq_true] at h
      intro x hx
      rcases List.mem_cons.1 hx with e | e
      · exact Or.inr (Or.inl (e.trans hp))
      · exact Or.inl (h.2 x e)
    · by_cases hm : c = '-'
      · have hpm : ('-' : Char) ≠ '+' := by decide
        simp only [signOf, hm, hpm, if_true, if_false, Bool.and_eq_true, List.all_eq_true] at h
        intro x hx
        rcases List.mem_cons.1 hx with e | e
        · exact Or.inr (Or.inr (e.trans hm))
        · exact Or.inl (h.2 x e)
      · simp only [signOf, hp, hm, if_false, Bool.and_eq_true, List.all_eq_true] at h
        intro x hx
        exact Or.inl (h.2 x hx)

theorem not_mem_of_isDecimalInt (s : GoString) (h : isDecimalInt s = true) (x : Char)
    (hx : isDigit x = false) (hp : x ≠ '+') (hm : x ≠ '-') : x ∉ s := by
  intro hmem
  rcases isDecimalInt_bytes s h x hmem with e | e | e
  · rw [hx] at e; exact Bool.noConfusion e
  · exact hp e
  · exact hm e

theorem contains_spec (s sub : GoString) : contains s sub = true ↔ sub <:+: s := by
  induction s with
  | nil =>
    cases sub <;> simp [contains]
  | cons c cs ih =>
    simp only [contains, Bool.or_eq_true, ih, List.infix_cons_iff, List.isPrefixOf_iff_prefix]

theorem hasSuffix_spec (s p : GoString) : hasSuffix s p = true ↔ p <:+ s := by
  simp [hasSuffix, List.isPrefixOf_iff_prefix, List.reverse_prefix]

theorem dropLiteral_append (lit rest : GoString) : dropLiteral lit (lit ++ rest) = some rest := by
  induction lit with
  | nil => cases rest <;> rfl
  | cons a as ih => simp [dropLiteral, ih]

theorem takeWhile_append_stop (p : Char → Bool) (d : GoString) (x : Char) (rest : GoString)
    (hd : ∀ c ∈ d, p c = true) (hx : p x = false) :
    (d ++ x :: rest).takeWhile p = d ∧ (d ++ x :: rest).dropWhile p = x :: rest := by
  induction d with
  | nil => simp [List.takeWhile_cons, List.dropWhile_cons, hx]
  | cons c cs ih =>
    have hc : p c = true := hd c (by simp)
    obtain ⟨h1, h2⟩ := ih (fun y hy => hd y (by simp [hy]))
    simp [List.takeWhile_cons, List.dropWhile_cons, hc, h1, h2]

theorem takeWhile_all (p : Char → Bool) (q : GoString) (hq : ∀ c ∈ q, p c = true) :
    q.takeWhile p = q := by
  induction q with
  | nil => rfl
  | cons c cs ih =>
    have hc : p c = true := hq c (by simp)
    simp [List.takeWhile_cons, hc, ih (fun y hy => hq y (by simp [hy]))]

/-! ## Lemmas on the prefix parser -/

theorem appendToLast_concat (evs : List LogLine) (e : LogLine) (line : GoString) :
    appendToLast (evs ++ [e]) line = evs ++ [{ e with Content := e.Content ++ line }] := by
  induction evs with
  | nil => rfl
  | cons x xs ih =>
    cases xs with
    | nil => simp [appendToLast]
    | cons y ys =>
      show x :: appendToLast ((y :: ys) ++ [e]) line = x :: ((y :: ys) ++ [_])
      rw [ih]

theorem appendToLast_appendToLast (evs : List LogLine) (a b : GoString) :
    appendToLast (appendToLast evs a) b = appendToLast evs (a ++ b) := by
  rcases List.eq_nil_or_concat evs with rfl | ⟨xs, e, rfl⟩
  · rfl
  · simp [appendToLast_concat]

theorem appendToLast_additional (evs : List LogLine) (line : GoString)
    (h : ∀ e ∈ evs, e.AdditionalLines = []) :
    ∀ e ∈ appendToLast evs line, e.AdditionalLines = [] := by
  rcases List.eq_nil_or_concat evs with rfl | ⟨xs, x, rfl⟩
  · simp [appendToLast]
  · rw [List.concat_eq_append] at h ⊢
    rw [appendToLast_concat]
    intro e he
    rcases List.mem_append.1 he with h1 | h1
    · exact h e (by simp [h1])
    · simp only [List.mem_singleton] at h1
      rw [h1]
      exact h x (by simp)

theorem appendToLast_no_newline (evs : List LogLine) (line : GoString)
    (h : ∀ e ∈ evs, '\n' ∉ e.Content) (hl : '\n' ∉ line) :
    ∀ e ∈ appendToLast evs line, '\n' ∉ e.Content := by
  rcases List.eq_nil_or_concat evs with rfl | ⟨xs, x, rfl⟩
  · simp [appendToLast]
  · rw [List.concat_eq_append] at h ⊢
    rw [appendToLast_concat]
    intro e he
    rcases List.mem_append.1 he with h1 | h1
    · exact h e (by simp [h1])
    · simp only [List.mem_singleton] at h1
      rw [h1]
      have hx := h x (by simp)
      simp [hx, hl]

/-- A line that does not split into eight fields is folded by the prefix
parser. -/
theorem parsePrefix_of_length_ne (parseTime : GoString → Option Time)
    (logLines : List LogLine) (line : GoString)
    (h : (splitN ':' 8 line).length ≠ 8) :
    parsePrefix parseTime logLines line = some (appendToLast logLines line) := by
  unfold parsePrefix
  split
  · rename_i heq
    rw [heq] at h
    simp at h
  · rfl

/-- The prefix parser on a line of eight fields with a valid timestamp and a
pid field of at least two bytes. -/
theorem parsePrefix_of_fields (parseTime : GoString → Option Time) (logLines : List LogLine)
    (line p0 p1 p2 p3 p4 p5 p6 p7 pid : GoString) (ts : Time)
    (hs : splitN ':' 8 line = [p0, p1, p2, p3, p4, p5, p6, p7])
    (ht : parseTime (p0 ++ [':'] ++ p1 ++ [':'] ++ p2) = some ts)
    (hp : stripEnds p5 = some pid) :
    parsePrefix parseTime logLines line
      = some (logLines ++
          [{ setHostPort (setUserDb LogLine.zero p4) p3 with
              OccurredAt := ts, BackendPid := toInt32 (atoi pid).1, LogLevel := p6,
              Content := trimLeft ' ' p7 }]) := by
  unfold parsePrefix
  rw [hs]
  simp only [ht, hp]

/-- The prefix parser panics on a line of eight fields with a valid timestamp
and a pid field shorter than two bytes. -/
theorem parsePrefix_panics (parseTime : GoString → Option Time) (logLines : List LogLine)
    (line p0 p1 p2 p3 p4 p5 p6 p7 : GoString) (ts : Time)
    (hs : splitN ':' 8 line = [p0, p1, p2, p3, p4, p5, p6, p7])
    (ht : parseTime (p0 ++ [':'] ++ p1 ++ [':'] ++ p2) = some ts)
    (hp : p5.length < 2) :
    parsePrefix parseTime logLines line = none := by
  unfold parsePrefix
  rw [hs]
  simp only [ht, stripEnds, hp, if_true]

/-- A line whose first eight fields are not recognised as a new event is folded
by the prefix parser. -/
theorem parsePrefix_of_unrecognised (parseTime : GoString → Option Time)
    (logLines : List LogLine) (line : GoString)
    (h : ∀ p0 p1 p2 p3 p4 p5 p6 p7 : GoString,
      splitN ':' 8 line = [p0, p1, p2, p3, p4, p5, p6, p7] →
      parseTime (p0 ++ [':'] ++ p1 ++ [':'] ++ p2) = none) :
    parsePrefix parseTime logLines line = some (appendToLast logLines line) := by
  unfold parsePrefix
  split
  · rename_i p0 p1 p2 p3 p4 p5 p6 p7 heq
    rw [h p0 p1 p2 p3 p4 p5 p6 p7 heq]
  · rfl

theorem setUserDb_of (logLine : LogLine) (user db : GoString) (h : '@' ∉ user) :
    setUserDb logLine (user ++ '@' :: db) = { logLine with Username := user, Database := db } := by
  unfold setUserDb
  rw [splitN_append _ _ _ _ h]
  rfl

theorem setHostPort_of (logLine : LogLine) (host rest : GoString) (h : '(' ∉ host) :
    setHostPort logLine (host ++ '(' :: rest)
      = { logLine with ClientHostname := host,
                       ClientPort := toInt32 (atoi (trimRight ')' rest)).1 } := by
  unfold setHostPort
  rw [splitN_append _ _ _ _ h]
  rfl

theorem setUserDb_additional (l : LogLine) (field : GoString) :
    (setUserDb l field).AdditionalLines = l.AdditionalLines := by
  unfold setUserDb
  split <;> rfl

theorem setHostPort_additional (l : LogLine) (field : GoString) :
    (setHostPort l field).AdditionalLines = l.AdditionalLines := by
  unfold setHostPort
  split <;> rfl

theorem parsePrefix_additional (parseTime : GoString → Option Time) (evs evs' : List LogLine)
    (line : GoString) (h : ∀ e ∈ evs, e.AdditionalLines = [])
    (hp : parsePrefix parseTime evs line = some evs') :
    ∀ e ∈ evs', e.AdditionalLines = [] := by
  unfold parsePrefix at hp
  split at hp
  · split at hp
    · simp only [Option.some.injEq] at hp
      rw [← hp]
      exact appendToLast_additional evs line h
    · split at hp
      · simp at hp
      · simp only [Option.some.injEq] at hp
        rw [← hp]
        intro e he
        rcases List.mem_append.1 he with h1 | h1
        · exact h e h1
        · simp only [List.mem_singleton] at h1
          rw [h1]
          show (setHostPort (setUserDb LogLine.zero _) _).AdditionalLines = []
          rw [setHostPort_additional, setUserDb_additional]
          rfl
  · simp only [Option.some.injEq] at hp
    rw [← hp]
    exact appendToLast_additional evs line h

theorem parseReads_additional (parseTime : GoString → Option Time)
    (reads : List (GoString × Bool)) (st st' : ParseState)
    (h : ∀ e ∈ st.logLines, e.AdditionalLines = [])
    (hp : parseReads parseTime st reads = some st') :
    ∀ e ∈ st'.logLines, e.AdditionalLines = [] := by
  induction reads generalizing st with
  | nil =>
    simp only [parseReads, Option.some.injEq] at hp
    rw [← hp]
    exact h
  | cons rd rest ih =>
    obtain ⟨line, isPrefix⟩ := rd
    simp only [parseReads] at hp
    cases hpl : processLine parseTime st line isPrefix with
    | none => simp [hpl] at hp
    | some st1 =>
      simp only [hpl] at hp
      refine ih st1 ?_ hp
      unfold processLine at hpl
      split at hpl
      · simp only [Option.some.injEq] at hpl
        rw [← hpl]
        exact appendToLast_additional _ _ h
      · cases hpp : parsePrefix parseTime st.logLines line with
        | none => simp [hpp] at hpl
        | some ls =>
          simp only [hpp, Option.some.injEq] at hpl
          rw [← hpl]
          exact parsePrefix_additional parseTime _ _ line h hpp

/-- The events that the read loop of a chunk leaves carry no attached line. -/
theorem parsedEvents_additional (parseTime : GoString → Option Time)
    (reads : List (GoString × Bool)) (evs : List LogLine)
    (h : parsedEvents parseTime reads = some evs) : ∀ e ∈ evs, e.AdditionalLines = [] := by
  unfold parsedEvents at h
  cases hp : parseReads parseTime ParseState.init reads with
  | none => simp [hp] at h
  | some st =>
    simp only [hp, Option.map_some', Option.some.injEq] at h
    rw [← h]
    exact parseReads_additional parseTime reads ParseState.init st (by simp [ParseState.init]) hp

theorem parsePrefix_no_newline (parseTime : GoString → Option Time) (evs evs' : List LogLine)
    (line : GoString) (h : ∀ e ∈ evs, '\n' ∉ e.Content) (hl : '\n' ∉ line)
    (hp : parsePrefix parseTime evs line = some evs') :
    ∀ e ∈ evs', '\n' ∉ e.Content := by
  unfold parsePrefix at hp
  split at hp
  · rename_i p0 p1 p2 p3 p4 p5 p6 p7 hs
    split at hp
    · simp only [Option.some.injEq] at hp
      rw [← hp]
      exact appendToLast_no_newline evs line h hl
    · split at hp
      · simp at hp
      · simp only [Option.some.injEq] at hp
        rw [← hp]
        intro e he
        rcases List.mem_append.1 he with h1 | h1
        · exact h e h1
        · simp only [List.mem_singleton] at h1
          rw [h1]
          show '\n' ∉ trimLeft ' ' p7
          intro hc
          exact hl (splitN_subset ':' 8 line p7 (by rw [hs]; simp) _
            (trimLeft_subset ' ' p7 _ hc))
  · simp only [Option.some.injEq] at hp
    rw [← hp]
    exact appendToLast_no_newline evs line h hl

theorem parseReads_no_newline (parseTime : GoString → Option Time)
    (reads : List (GoString × Bool)) (st st' : ParseState)
    (h : ∀ e ∈ st.logLines, '\n' ∉ e.Content) (hr : ∀ rd ∈ reads, '\n' ∉ rd.1)
    (hp : parseReads parseTime st reads = some st') :
    ∀ e ∈ st'.logLines, '\n' ∉ e.Content := by
  induction reads generalizing st with
  | nil =>
    simp only [parseReads, Option.some.injEq] at hp
    rw [← hp]
    exact h
  | cons rd rest ih =>
    obtain ⟨line, isPrefix⟩ := rd
    have hl : '\n' ∉ line := hr (line, isPrefix) (by simp)
    simp only [parseReads] at hp
    cases hpl : processLine parseTime st line isPrefix with
    | none => simp [hpl] at hp
    | some st1 =>
      simp only [hpl] at hp
      refine ih st1 ?_ (fun rd hrd => hr rd (by simp [hrd])) hp
      unfold processLine at hpl
      split at hpl
      · simp only [Option.some.injEq] at hpl
        rw [← hpl]
        exact appendToLast_no_newline _ _ h hl
      · cases hpp : parsePrefix parseTime st.logLines line with
        | none => simp [hpp] at hpl
        | some ls =>
          simp only [hpp, Option.some.injEq] at hpl
          rw [← hpl]
          exact parsePrefix_no_newline parseTime _ _ line h hl hpp

/-- The lines that `ReadLine` returns hold no line feed, and then neither does
the Content of any event that the read loop of a chunk leaves. -/
theorem parsedEvents_no_newline (parseTime : GoString → Option Time)
    (reads : List (GoString × Bool)) (evs : List LogLine)
    (hr : ∀ rd ∈ reads, '\n' ∉ rd.1)
    (h : parsedEvents parseTime reads = some evs) : ∀ e ∈ evs, '\n' ∉ e.Content := by
  unfold parsedEvents at h
  cases hp : parseReads parseTime ParseState.init reads with
  | none => simp [hp] at h
  | some st =>
    simp only [hp, Option.map_some', Option.some.injEq] at h
    rw [← h]
    exact parseReads_no_newline parseTime reads ParseState.init st
      (by simp [ParseState.init]) hr hp

/-! ## Properties of the per-read parse step -/

/-- C1: a line that does not split on the colon into exactly eight fields (one
with fewer than seven colons) leaves the number of events and every event but
the last unchanged, and the last event's Content becomes its old Content
followed by the whole line. -/
theorem field_count_rule (parseTime : GoString → Option Time)
    (evs : List LogLine) (e : LogLine) (incompleteLine : Bool)
    (line : GoString) (isPrefix : Bool)
    (h : (splitN ':' 8 line).length ≠ 8 ∨ line.count ':' < 7) :
    processLine parseTime { logLines := evs ++ [e], incompleteLine := incompleteLine }
        line isPrefix
      = some { logLines := evs ++ [{ e with Content := e.Content ++ line }],
               incompleteLine := isPrefix } := by
  have hlen : (splitN ':' 8 line).length ≠ 8 := by
    rcases h with h | h
    · exact h
    · rw [Ne, splitN_length_eq_eight_iff]
      omega
  cases incompleteLine with
  | true => simp [processLine, appendToLast_concat]
  | false =>
    simp [processLine, parsePrefix_of_length_ne parseTime _ line hlen, appendToLast_concat]

/-- C1, at the line `  more text` with one earlier event. -/
theorem field_count_rule_witness :
    ((splitN ':' 8 "  more text".toList).length ≠ 8 ∨ "  more text".toList.count ':' < 7) ∧
    processLine parseTimestamp { logLines := [] ++ [LogLine.zero], incompleteLine := false }
        "  more text".toList false
      = some { logLines := [] ++ [{ LogLine.zero with
                                    Content := LogLine.zero.Content ++ "  more text".toList }],
               incompleteLine := false } :=
  ⟨Or.inr (by decide),
   field_count_rule parseTimestamp [] LogLine.zero false "  more text".toList false
     (Or.inr (by decide))⟩

/-- C2 fails at the line `2016-05-01 12:00:00 UTC:1.2.3.4(PORT):u@d:[12]:LOG:msg`
with a PORT that is not a valid integer, twenty nines with or without a
trailing `x`: it still yields one event, but its ClientPort is -1 and not 0: `Atoi` returns the largest `int` together with its range error, the error is
dropped and `int32` truncates the value. -/
theorem port_overflow_client_port :
    (processLine parseTimestamp ParseState.init
        "2016-05-01 12:00:00 UTC:1.2.3.4(99999999999999999999):u@d:[12]:LOG:msg".toList
        false).map (fun st => st.logLines.map (fun e => e.ClientPort)) = some [-1]
    ∧ (processLine parseTimestamp ParseState.init
        "2016-05-01 12:00:00 UTC:1.2.3.4(99999999999999999999x):u@d:[12]:LOG:msg".toList
        false).map (fun st => st.logLines.map (fun e => e.ClientPort)) = some [-1]
    ∧ atoi "99999999999999999999".toList = (2 ^ 63 - 1, some NumError.errRange)
    ∧ atoi "99999999999999999999x".toList = (2 ^ 63 - 1, some NumError.errRange) := by
  decide

/-- C2, as amended: a line `TS:HOST(PORT):USER@DB:[PID]:LEVEL:MSG` read at the
start of a physical line, whose timestamp `t0:t1:t2` parses, whose HOST, USER,
DB, LEVEL and PORT hold no colon, whose USER holds no `@` and HOST no `(`, and
whose PID is a decimal integer in the int32 range, appends exactly one event
with OccurredAt the parsed timestamp, Username USER, Database DB,
ClientHostname HOST, BackendPid PID, LogLevel LEVEL and Content MSG without its
leading spaces (MSG is not split again).  Its ClientPort is the `int32` of the
value that `strconv.Atoi` returns for PORT without its trailing `)`: the value
of PORT when PORT is a decimal integer in the int32 range, and 0 when `Atoi`
reports a syntax error. -/
theorem prefix_fields_extracted (parseTime : GoString → Option Time)
    (evs : List LogLine) (isPrefix : Bool)
    (t0 t1 t2 host port user db pid level msg : GoString) (ts : Time)
    (h0 : ':' ∉ t0) (h1 : ':' ∉ t1) (h2 : ':' ∉ t2)
    (ht : parseTime (t0 ++ [':'] ++ t1 ++ [':'] ++ t2) = some ts)
    (hhost : ':' ∉ host ∧ '(' ∉ host) (huser : ':' ∉ user ∧ '@' ∉ user)
    (hdb : ':' ∉ db) (hlevel : ':' ∉ level) (hport : ':' ∉ port)
    (hpid : isDecimalInt pid = true)
    (hpidr : -(2 ^ 31 : Int) ≤ decimalIntValue pid ∧ decimalIntValue pid < 2 ^ 31) :
    processLine parseTime { logLines := evs, incompleteLine := false }
        (prefixedLine t0 t1 t2 host port user db pid level msg) isPrefix
      = some { logLines := evs ++
                [{ OccurredAt := ts, Username := user, Database := db,
                   ClientHostname := host,
                   ClientPort := toInt32 (atoi (trimRight ')' port)).1,
                   BackendPid := decimalIntValue pid, LogLevel := level,
                   Content := msg.dropWhile (fun c => c == ' '), Query := [],
                   AdditionalLines := [] }],
               incompleteLine := isPrefix }
    ∧ (isDecimalInt port = true → -(2 ^ 31 : Int) ≤ decimalIntValue port →
        decimalIntValue port < 2 ^ 31 →
        toInt32 (atoi (trimRight ')' port)).1 = decimalIntValue port)
    ∧ ((atoi (trimRight ')' port)).2 = some NumError.errSyntax →
        toInt32 (atoi (trimRight ')' port)).1 = 0) := by
  have hc : isDigit ':' = false := by decide
  have hb : isDigit ')' = false := by decide
  have hpidc : ':' ∉ pid := not_mem_of_isDecimalInt pid hpid _ hc (by decide) (by decide)
  have h3 : ':' ∉ host ++ '(' :: (port ++ [')']) := by
    simp [hhost.1, hport]
  have h4 : ':' ∉ user ++ '@' :: db := by
    simp [huser.1, hdb]
  have h5 : ':' ∉ '[' :: (pid ++ [']']) := by
    simp [hpidc]
  have hs := splitN_joinFields t0 t1 t2 (host ++ '(' :: (port ++ [')'])) (user ++ '@' :: db)
    ('[' :: (pid ++ [']'])) level msg h0 h1 h2 h3 h4 h5 hlevel
  have hpp := parsePrefix_of_fields parseTime evs _ _ _ _ _ _ _ _ _ pid ts hs ht
    (stripEnds_brackets '[' ']' pid)
  have hpid64 := atoi_of_decimal pid hpid (by have := hpidr.1; omega)
    (by have := hpidr.2; omega)
  refine ⟨?_, ?_, ?_⟩
  · simp only [processLine, prefixedLine, Bool.false_eq_true, if_false, hpp]
    rw [setUserDb_of _ _ _ huser.2, setHostPort_of _ _ _ hhost.2, trimRight_concat, hpid64,
      toInt32_of_range _ hpidr.1 hpidr.2, trimLeft_eq_dropWhile]
    rfl
  · intro hdec hlo hhi
    have hportb : ')' ∉ port := not_mem_of_isDecimalInt port hdec _ hb (by decide) (by decide)
    rw [trimRight_of_not_mem _ _ hportb,
      atoi_of_decimal port hdec (by omega) (by omega), toInt32_of_range _ hlo hhi]
  · intro he
    rw [atoi_syntax_zero _ he]
    rfl

/-- C2 as amended, at the line
`2016-05-01 12:00:00 UTC:1.2.3.4(5432):u@d:[12]:LOG:  duration: 1 ms`. -/
theorem prefix_fields_extracted_witness :
    ((':' ∉ "2016-05-01 12".toList ∧ ':' ∉ "00".toList ∧ ':' ∉ "00 UTC".toList)
      ∧ parseTimestamp ("2016-05-01 12".toList ++ [':'] ++ "00".toList ++ [':']
          ++ "00 UTC".toList) = some 1462104000
      ∧ (':' ∉ "1.2.3.4".toList ∧ '(' ∉ "1.2.3.4".toList)
      ∧ (':' ∉ "u".toList ∧ '@' ∉ "u".toList)
      ∧ ':' ∉ "d".toList ∧ ':' ∉ "LOG".toList ∧ ':' ∉ "5432".toList
      ∧ isDecimalInt "12".toList = true
      ∧ (-(2 ^ 31 : Int) ≤ decimalIntValue "12".toList
          ∧ decimalIntValue "12".toList < 2 ^ 31))
    ∧ (processLine parseTimestamp { logLines := [], incompleteLine := false }
        (prefixedLine "2016-05-01 12".toList "00".toList "00 UTC".toList "1.2.3.4".toList
          "5432".toList "u".toList "d".toList "12".toList "LOG".toList
          "  duration: 1 ms".toList) false
      = some { logLines := [] ++
                [{ OccurredAt := 1462104000, Username := "u".toList, Database := "d".toList,
                   ClientHostname := "1.2.3.4".toList,
                   ClientPort := toInt32 (atoi (trimRight ')' "5432".toList)).1,
                   BackendPid := decimalIntValue "12".toList, LogLevel := "LOG".toList,
                   Content := "  duration: 1 ms".toList.dropWhile (fun c => c == ' '),
                   Query := [], AdditionalLines := [] }],
               incompleteLine := false }
      ∧ (isDecimalInt "5432".toList = true → -(2 ^ 31 : Int) ≤ decimalIntValue "5432".toList →
          decimalIntValue "5432".toList < 2 ^ 31 →
          toInt32 (atoi (trimRight ')' "5432".toList)).1 = decimalIntValue "5432".toList)
      ∧ ((atoi (trimRight ')' "5432".toList)).2 = some NumError.errSyntax →
          toInt32 (atoi (trimRight ')' "5432".toList)).1 = 0)) :=
  ⟨⟨⟨by decide, by decide, by decide⟩, by decide, ⟨by decide, by decide⟩,
     ⟨by decide, by decide⟩, by decide, by decide, by decide, by decide,
     ⟨by decide, by decide⟩⟩,
   prefix_fields_extracted parseTimestamp [] false "2016-05-01 12".toList "00".toList
     "00 UTC".toList "1.2.3.4".toList "5432".toList "u".toList "d".toList "12".toList
     "LOG".toList "  duration: 1 ms".toList 1462104000
     (by decide) (by decide) (by decide) (by decide) ⟨by decide, by decide⟩
     ⟨by decide, by decide⟩ (by decide) (by decide) (by decide) (by decide)
     ⟨by decide, by decide⟩⟩

/-- C3: a line of eight fields with a valid timestamp whose pid field is empty,
or a single byte, makes the parse step panic on `parts[5][1 : len(parts[5])-1]`,
whatever the events parsed so far. -/
theorem short_pid_field_panics :
    (processLine parseTimestamp ParseState.init
        "2016-05-01 12:00:00 UTC:1.2.3.4(5):u@d::LOG:msg".toList false).isNone = true
    ∧ (processLine parseTimestamp ParseState.init
        "2016-05-01 12:00:00 UTC:1.2.3.4(5):u@d:[:LOG:msg".toList false).isNone = true
    ∧ (processLine parseTimestamp
        { logLines := [{ LogLine.zero with Content := "first".toList }],
          incompleteLine := false }
        "2016-05-01 12:00:00 UTC:1.2.3.4(5):u@d::LOG:msg".toList true).isNone = true := by
  decide

/-- C4 fails at the line `2016-05-01 12:00:00 UTC:1.2.3.4(5):u@d:[abc]:LOG:msg`
read after one event of Content `first`: the line is not folded into that
event; a second event is created, with BackendPid 0 and Content `msg`. -/
theorem unparsable_pid_not_folded :
    processLine parseTimestamp
        { logLines := [{ LogLine.zero with Content := "first".toList }],
          incompleteLine := false }
        "2016-05-01 12:00:00 UTC:1.2.3.4(5):u@d:[abc]:LOG:msg".toList false
      ≠ some { logLines := [{ LogLine.zero with Content := "first".toList ++
                  "2016-05-01 12:00:00 UTC:1.2.3.4(5):u@d:[abc]:LOG:msg".toList }],
               incompleteLine := false }
    ∧ (processLine parseTimestamp
        { logLines := [{ LogLine.zero with Content := "first".toList }],
          incompleteLine := false }
        "2016-05-01 12:00:00 UTC:1.2.3.4(5):u@d:[abc]:LOG:msg".toList false).map
        (fun st => st.logLines.map (fun e => (e.BackendPid, e.Content)))
      = some [(0, "first".toList), (0, "msg".toList)] := by
  refine ⟨?_, by decide⟩
  intro h
  have h2 := congrArg (fun o => Option.map (fun st => st.logLines.length) o) h
  revert h2
  decide

/-- C4, as amended: a line of eight fields with a valid timestamp and a pid
field of at least two bytes always appends one new event and leaves the earlier
events unchanged, whether or not the stripped pid field is an integer; the new
event's BackendPid is the `int32` of the value `strconv.Atoi` returns, which is
0 when `Atoi` reports a syntax error. -/
theorem unparsable_pid_creates_event (parseTime : GoString → Option Time)
    (evs : List LogLine) (isPrefix : Bool)
    (line p0 p1 p2 p3 p4 p5 p6 p7 pid : GoString) (ts : Time)
    (hs : splitN ':' 8 line = [p0, p1, p2, p3, p4, p5, p6, p7])
    (ht : parseTime (p0 ++ [':'] ++ p1 ++ [':'] ++ p2) = some ts)
    (hp : 2 ≤ p5.length ∧ pid = (p5.drop 1).take (p5.length - 2)) :
    ∃ ev : LogLine,
      processLine parseTime { logLines := evs, incompleteLine := false } line isPrefix
        = some { logLines := evs ++ [ev], incompleteLine := isPrefix }
      ∧ ev.OccurredAt = ts ∧ ev.LogLevel = p6 ∧ ev.Content = p7.dropWhile (fun c => c == ' ')
      ∧ ev.BackendPid = toInt32 (atoi pid).1
      ∧ ((atoi pid).2 = some NumError.errSyntax → ev.BackendPid = 0) := by
  have hstrip : stripEnds p5 = some pid := by
    unfold stripEnds
    rw [if_neg (by omega), hp.2]
  refine ⟨{ setHostPort (setUserDb LogLine.zero p4) p3 with
              OccurredAt := ts, BackendPid := toInt32 (atoi pid).1, LogLevel := p6,
              Content := trimLeft ' ' p7 }, ?_, rfl, rfl, ?_, rfl, ?_⟩
  · simp only [processLine, Bool.false_eq_true, if_false,
      parsePrefix_of_fields parseTime evs line _ _ _ _ _ _ _ _ pid ts hs ht hstrip]
  · exact trimLeft_eq_dropWhile ' ' p7
  · intro he
    show toInt32 (atoi pid).1 = 0
    rw [atoi_syntax_zero pid he]
    rfl

/-- C4 as amended, at the line
`2016-05-01 12:00:00 UTC:1.2.3.4(5):u@d:[abc]:LOG:msg`. -/
theorem unparsable_pid_creates_event_witness :
    (splitN ':' 8 "2016-05-01 12:00:00 UTC:1.2.3.4(5):u@d:[abc]:LOG:msg".toList
        = ["2016-05-01 12".toList, "00".toList, "00 UTC".toList, "1.2.3.4(5)".toList,
           "u@d".toList, "[abc]".toList, "LOG".toList, "msg".toList]
      ∧ parseTimestamp ("2016-05-01 12".toList ++ [':'] ++ "00".toList ++ [':']
          ++ "00 UTC".toList) = some 1462104000
      ∧ (2 ≤ "[abc]".toList.length
          ∧ "abc".toList = ("[abc]".toList.drop 1).take ("[abc]".toList.length - 2)))
    ∧ ∃ ev : LogLine,
      processLine parseTimestamp { logLines := [], incompleteLine := false }
          "2016-05-01 12:00:00 UTC:1.2.3.4(5):u@d:[abc]:LOG:msg".toList false
        = some { logLines := [] ++ [ev], incompleteLine := false }
      ∧ ev.OccurredAt = 1462104000 ∧ ev.LogLevel = "LOG".toList
      ∧ ev.Content = "msg".toList.dropWhile (fun c => c == ' ')
      ∧ ev.BackendPid = toInt32 (atoi "abc".toList).1
      ∧ ((atoi "abc".toList).2 = some NumError.errSyntax → ev.BackendPid = 0) :=
  ⟨⟨by decide, by decide, by decide⟩,
   unparsable_pid_creates_event parseTimestamp [] false
     "2016-05-01 12:00:00 UTC:1.2.3.4(5):u@d:[abc]:LOG:msg".toList
     "2016-05-01 12".toList "00".toList "00 UTC".toList "1.2.3.4(5)".toList
     "u@d".toList "[abc]".toList "LOG".toList "msg".toList "abc".toList 1462104000
     (by decide) (by decide) (by decide)⟩

/-- C5 fails.  With one earlier event of Content `first`, the line
`2016-05-01 12:00:00 UTC:1.2.3.4(5):u@d:[12]:LOG:msg` read whole gives a second
event of Content `msg`; read as a first fragment ending inside the prefix (flag
set) and then its remainder, it gives no new event and both pieces end up in
the Content of the earlier event.  When the fragment ends inside the leading
spaces of the message, the Content keeps spaces that the whole line loses.
When the two pieces arrive in two chunks, each chunk starts from the empty
state and the remainder is dropped. -/
theorem reassembly_fails :
    (parseReads parseTimestamp
        { logLines := [{ LogLine.zero with Content := "first".toList }],
          incompleteLine := false }
        [("2016-05-01 12:00:00 UTC:1.2.3.4(5)".toList, true),
         (":u@d:[12]:LOG:msg".toList, false)]).map
        (fun st => st.logLines.map (fun e => e.Content))
      = some ["first2016-05-01 12:00:00 UTC:1.2.3.4(5):u@d:[12]:LOG:msg".toList]
    ∧ (parseReads parseTimestamp
        { logLines := [{ LogLine.zero with Content := "first".toList }],
          incompleteLine := false }
        [("2016-05-01 12:00:00 UTC:1.2.3.4(5):u@d:[12]:LOG:msg".toList, false)]).map
        (fun st => st.logLines.map (fun e => e.Content))
      = some ["first".toList, "msg".toList]
    ∧ (parseReads parseTimestamp ParseState.init
        [("2016-05-01 12:00:00 UTC:1.2.3.4(5):u@d:[12]:LOG: ".toList, true),
         (" msg".toList, false)]).map
        (fun st => st.logLines.map (fun e => e.Content))
      = some [" msg".toList]
    ∧ (parseReads parseTimestamp ParseState.init
        [("2016-05-01 12:00:00 UTC:1.2.3.4(5):u@d:[12]:LOG:  msg".toList, false)]).map
        (fun st => st.logLines.map (fun e => e.Content))
      = some ["msg".toList]
    ∧ (parseReads parseTimestamp ParseState.init
        [("2016-05-01 12:00:00 UTC:1.2.3.4(5):u@d:[12]:LOG:ms".toList, false)]).map
        (fun st => st.logLines.map (fun e => e.Content))
      = some ["ms".toList]
    ∧ (parseReads parseTimestamp ParseState.init [("g".toList, false)]).map
        (fun st => st.logLines.map (fun e => e.Content))
      = some [] := by
  decide

/-- C5, as amended: inside one chunk, with the parser at the start of a
physical line, reading a first fragment `F` with the flag set and then the
remainder `R` leaves the same parse state (the same events with the same
Content, and the same outcome on every later read) as reading `F ++ R` whole,
provided that either the whole line is not recognised as a new event (it does
not split into eight fields with a timestamp that parses), or the fragment `F`
already splits into eight fields and its message field holds a byte other than
a space. -/
theorem reassembly_within_chunk (parseTime : GoString → Option Time)
    (evs : List LogLine) (F R : GoString) (rest : List (GoString × Bool))
    (h : (∀ p0 p1 p2 p3 p4 p5 p6 p7 : GoString,
            splitN ':' 8 (F ++ R) = [p0, p1, p2, p3, p4, p5, p6, p7] →
            parseTime (p0 ++ [':'] ++ p1 ++ [':'] ++ p2) = none)
         ∨ (∃ p0 p1 p2 p3 p4 p5 p6 p7 : GoString,
            splitN ':' 8 F = [p0, p1, p2, p3, p4, p5, p6, p7] ∧ ∃ c ∈ p7, c ≠ ' ')) :
    parseReads parseTime { logLines := evs, incompleteLine := false }
        ((F, true) :: (R, false) :: rest)
      = parseReads parseTime { logLines := evs, incompleteLine := false }
        ((F ++ R, false) :: rest) := by
  have fold : parsePrefix parseTime evs F = some (appendToLast evs F) →
      parsePrefix parseTime evs (F ++ R) = some (appendToLast evs (F ++ R)) →
      parseReads parseTime { logLines := evs, incompleteLine := false }
          ((F, true) :: (R, false) :: rest)
        = parseReads parseTime { logLines := evs, incompleteLine := false }
          ((F ++ R, false) :: rest) := by
    intro hF hL
    simp only [parseReads, processLine, Bool.false_eq_true, if_false, hF, hL, if_true,
      appendToLast_appendToLast]
  rcases h with h | ⟨p0, p1, p2, p3, p4, p5, p6, p7, hs, hc⟩
  · refine fold ?_ (parsePrefix_of_unrecognised parseTime evs _ h)
    refine parsePrefix_of_unrecognised parseTime evs F ?_
    intro p0 p1 p2 p3 p4 p5 p6 p7 hs
    exact h p0 p1 p2 p3 p4 p5 p6 (p7 ++ R) (splitN_eight_append F R _ _ _ _ _ _ _ _ hs)
  · have hL := splitN_eight_append F R _ _ _ _ _ _ _ _ hs
    cases ht : parseTime (p0 ++ [':'] ++ p1 ++ [':'] ++ p2) with
    | none =>
      refine fold (parsePrefix_of_unrecognised parseTime evs F ?_)
        (parsePrefix_of_unrecognised parseTime evs _ ?_)
      · intro q0 q1 q2 q3 q4 q5 q6 q7 hq
        rw [hs] at hq
        simp only [List.cons.injEq, and_true] at hq
        obtain ⟨rfl, rfl, rfl, _⟩ := hq
        exact ht
      · intro q0 q1 q2 q3 q4 q5 q6 q7 hq
        rw [hL] at hq
        simp only [List.cons.injEq, and_true] at hq
        obtain ⟨rfl, rfl, rfl, _⟩ := hq
        exact ht
    | some ts =>
      by_cases hp : p5.length < 2
      · simp only [parseReads, processLine, Bool.false_eq_true, if_false,
          parsePrefix_panics parseTime evs F _ _ _ _ _ _ _ _ ts hs ht hp,
          parsePrefix_panics parseTime evs (F ++ R) _ _ _ _ _ _ _ _ ts hL ht hp]
      · have hstrip : stripEnds p5 = some ((p5.drop 1).take (p5.length - 2)) := by
          unfold stripEnds
          rw [if_neg hp]
        simp only [parseReads, processLine, Bool.false_eq_true, if_false, if_true,
          parsePrefix_of_fields parseTime evs F _ _ _ _ _ _ _ _ _ ts hs ht hstrip,
          parsePrefix_of_fields parseTime evs (F ++ R) _ _ _ _ _ _ _ _ _ ts hL ht hstrip,
          appendToLast_concat, trimLeft_append ' ' p7 R hc]

/-- C5 as amended, at the line
`2016-05-01 12:00:00 UTC:1.2.3.4(5):u@d:[12]:LOG: SELECT 1 FROM t` cut after
`SELECT`. -/
theorem reassembly_within_chunk_witness :
    ((∀ p0 p1 p2 p3 p4 p5 p6 p7 : GoString,
        splitN ':' 8 ("2016-05-01 12:00:00 UTC:1.2.3.4(5):u@d:[12]:LOG: SELECT".toList
          ++ " 1 FROM t".toList) = [p0, p1, p2, p3, p4, p5, p6, p7] →
        parseTimestamp (p0 ++ [':'] ++ p1 ++ [':'] ++ p2) = none)
      ∨ (∃ p0 p1 p2 p3 p4 p5 p6 p7 : GoString,
        splitN ':' 8 "2016-05-01 12:00:00 UTC:1.2.3.4(5):u@d:[12]:LOG: SELECT".toList
          = [p0, p1, p2, p3, p4, p5, p6, p7] ∧ ∃ c ∈ p7, c ≠ ' '))
    ∧ parseReads parseTimestamp { logLines := [], incompleteLine := false }
        (("2016-05-01 12:00:00 UTC:1.2.3.4(5):u@d:[12]:LOG: SELECT".toList, true)
          :: (" 1 FROM t".toList, false) :: [])
      = parseReads parseTimestamp { logLines := [], incompleteLine := false }
        (("2016-05-01 12:00:00 UTC:1.2.3.4(5):u@d:[12]:LOG: SELECT".toList
          ++ " 1 FROM t".toList, false) :: []) :=
  ⟨Or.inr ⟨"2016-05-01 12".toList, "00".toList, "00 UTC".toList, "1.2.3.4(5)".toList,
     "u@d".toList, "[12]".toList, "LOG".toList, " SELECT".toList, by decide, 'S',
     by decide, by decide⟩,
   reassembly_within_chunk parseTimestamp []
     "2016-05-01 12:00:00 UTC:1.2.3.4(5):u@d:[12]:LOG: SELECT".toList " 1 FROM t".toList []
     (Or.inr ⟨"2016-05-01 12".toList, "00".toList, "00 UTC".toList, "1.2.3.4(5)".toList,
       "u@d".toList, "[12]".toList, "LOG".toList, " SELECT".toList, by decide, 'S',
       by decide, by decide⟩)⟩

/-! ## Lemmas on the grouping -/

theorem BackendMap.get_append (m : BackendMap) (k : Int) (v : LogLine) (p : Int) :
    (m.append k v).get p = if p = k then m.get k ++ [v] else m.get p := by
  induction m with
  | nil =>
    by_cases h : p = k
    · simp [BackendMap.append, BackendMap.get, h]
    · have h' : ¬ k = p := fun e => h e.symm
      simp [BackendMap.append, BackendMap.get, h, h']
  | cons kg rest ih =>
    obtain ⟨k', g⟩ := kg
    by_cases hk : k' = k
    · subst hk
      by_cases h : p = k'
      · subst h
        simp [BackendMap.append, BackendMap.get]
      · have h' : ¬ k' = p := fun e => h e.symm
        simp [BackendMap.append, BackendMap.get, h, h']
    · by_cases h2 : k' = p
      · have h3 : ¬ p = k := fun e => hk (h2.trans e)
        simp [BackendMap.append, BackendMap.get, hk, h2, h3]
      · simp only [BackendMap.append, hk, if_false, BackendMap.get, h2, ih]

theorem BackendMap.keys_append (m : BackendMap) (k : Int) (v : LogLine) :
    (m.append k v).keys = if k ∈ m.keys then m.keys else m.keys ++ [k] := by
  induction m with
  | nil => simp [BackendMap.append, BackendMap.keys]
  | cons kg rest ih =>
    obtain ⟨k', g⟩ := kg
    by_cases hk : k' = k
    · simp [BackendMap.append, BackendMap.keys, hk]
    · have hk' : ¬ k = k' := fun e => hk e.symm
      simp only [BackendMap.keys, List.map_cons, List.mem_cons, hk', false_or] at ih ⊢
      simp only [BackendMap.append, hk, if_false, List.map_cons, ih]
      split <;> simp

theorem BackendMap.keys_append_nodup (m : BackendMap) (k : Int) (v : LogLine)
    (h : m.keys.Nodup) : (m.append k v).keys.Nodup := by
  rw [BackendMap.keys_append]
  split
  · exact h
  · rename_i hk
    exact List.Nodup.append h (by simp) (by simpa using hk)

theorem BackendMap.get_of_not_mem (m : BackendMap) (k : Int) (h : k ∉ m.keys) :
    m.get k = [] := by
  induction m with
  | nil => rfl
  | cons kg rest ih =>
    obtain ⟨k', g⟩ := kg
    simp only [BackendMap.keys, List.map_cons, List.mem_cons, not_or] at h
    have hk : ¬ k' = k := fun e => h.1 e.symm
    simp only [BackendMap.get, hk, if_false]
    exact ih h.2

theorem BackendMap.get_of_mem (m : BackendMap) (k : Int) (g : List LogLine)
    (hn : m.keys.Nodup) (h : (k, g) ∈ m) : m.get k = g := by
  induction m with
  | nil => simp at h
  | cons kg rest ih =>
    obtain ⟨k', g'⟩ := kg
    simp only [BackendMap.keys, List.map_cons, List.nodup_cons] at hn
    rcases List.mem_cons.1 h with e | e
    · simp only [Prod.mk.injEq] at e
      simp [BackendMap.get, e.1, e.2]
    · have hk : ¬ k' = k := by
        intro e'
        apply hn.1
        rw [e']
        exact List.mem_map.2 ⟨(k, g), e, rfl⟩
      simp only [BackendMap.get, hk, if_false]
      exact ih hn.2 e

theorem BackendMap.exists_of_mem_keys (m : BackendMap) (k : Int) (h : k ∈ m.keys) :
    ∃ g, (k, g) ∈ m := by
  simp only [BackendMap.keys, List.mem_map] at h
  obtain ⟨⟨k', g⟩, h1, h2⟩ := h
  simp only at h2
  subst h2
  exact ⟨g, h1⟩

/-- The lookup does not depend on the order of the entries when the keys are
distinct. -/
theorem BackendMap.get_perm (m m' : BackendMap) (hp : m'.Perm m) (hn : m.keys.Nodup)
    (k : Int) : m'.get k = m.get k := by
  have hkeys : m'.keys.Perm m.keys := hp.map Prod.fst
  have hn' : m'.keys.Nodup := hkeys.nodup_iff.2 hn
  by_cases hk : k ∈ m.keys
  · obtain ⟨g, hg⟩ := BackendMap.exists_of_mem_keys m k hk
    rw [BackendMap.get_of_mem m k g hn hg, BackendMap.get_of_mem m' k g hn' (hp.mem_iff.2 hg)]
  · rw [BackendMap.get_of_not_mem m k hk,
      BackendMap.get_of_not_mem m' k (fun h => hk (hkeys.mem_iff.1 h))]

theorem groupByBackend_get (linesNewerThan : Time) (evs : List LogLine) (m : BackendMap)
    (p : Int) :
    (groupByBackend linesNewerThan m evs).get p
      = m.get p ++ (evs.filter (inWindow linesNewerThan)).filter (ofBackend p) := by
  induction evs generalizing m with
  | nil => simp [groupByBackend]
  | cons e rest ih =>
    by_cases hw : e.OccurredAt < linesNewerThan
    · have hin : inWindow linesNewerThan e = false := by simp [inWindow, hw]
      simp only [groupByBackend, hw, if_true, ih, List.filter_cons, hin]
      simp
    · have hin : inWindow linesNewerThan e = true := by simp [inWindow, hw]
      simp only [groupByBackend, hw, if_false, ih, List.filter_cons, hin, if_true,
        BackendMap.get_append]
      by_cases hp : p = e.BackendPid
      · subst hp
        have hof : ofBackend e.BackendPid e = true := by simp [ofBackend]
        simp [hof]
      · have hof : ofBackend p e = false := by
          simp only [ofBackend, decide_eq_false_iff_not]
          exact fun e' => hp e'.symm
        simp [hp, hof]

theorem groupByBackend_nodup (linesNewerThan : Time) (evs : List LogLine) (m : BackendMap)
    (h : m.keys.Nodup) : (groupByBackend linesNewerThan m evs).keys.Nodup := by
  induction evs generalizing m with
  | nil => simpa [groupByBackend] using h
  | cons e rest ih =>
    by_cases hw : e.OccurredAt < linesNewerThan
    · simp only [groupByBackend, hw, if_true]
      exact ih m h
    · simp only [groupByBackend, hw, if_false]
      exact ih _ (BackendMap.keys_append_nodup m _ e h)

theorem groupByBackend_keys (linesNewerThan : Time) (evs : List LogLine) (m : BackendMap) :
    (groupByBackend linesNewerThan m evs).keys
      = ((evs.filter (inWindow linesNewerThan)).map (fun e => e.BackendPid)).foldl
          (fun seen k => if k ∈ seen then seen else seen ++ [k]) m.keys := by
  induction evs generalizing m with
  | nil => simp [groupByBackend]
  | cons e rest ih =>
    by_cases hw : e.OccurredAt < linesNewerThan
    · have hin : inWindow linesNewerThan e = false := by simp [inWindow, hw]
      simp only [groupByBackend, hw, if_true, ih, List.filter_cons, hin]
      simp
    · have hin : inWindow linesNewerThan e = true := by simp [inWindow, hw]
      simp only [groupByBackend, hw, if_false, ih, List.filter_cons, hin, if_true,
        List.map_cons, List.foldl_cons, BackendMap.keys_append]

/-- The entries of the map are in the order in which the backend identifiers
are first seen among the events that pass the time-window test. -/
theorem groupByBackend_keys_firstSeen (linesNewerThan : Time) (evs : List LogLine) :
    (groupByBackend linesNewerThan [] evs).keys
      = firstSeen ((evs.filter (inWindow linesNewerThan)).map (fun e => e.BackendPid)) := by
  rw [groupByBackend_keys]
  rfl

theorem groupByBackend_get_nil (linesNewerThan : Time) (events : List LogLine) (p : Int) :
    (groupByBackend linesNewerThan [] events).get p
      = (events.filter (inWindow linesNewerThan)).filter (ofBackend p) := by
  rw [groupByBackend_get]
  simp [BackendMap.get]

theorem groupByBackend_keys_nodup (linesNewerThan : Time) (events : List LogLine) :
    (groupByBackend linesNewerThan [] events).keys.Nodup :=
  groupByBackend_nodup linesNewerThan events [] (by simp [BackendMap.keys])

theorem groupByBackend_entry (linesNewerThan : Time) (events : List LogLine)
    (kg : Int × List LogLine) (h : kg ∈ groupByBackend linesNewerThan [] events) :
    kg.2 = (events.filter (inWindow linesNewerThan)).filter (ofBackend kg.1) := by
  rw [← groupByBackend_get_nil linesNewerThan events kg.1]
  exact (BackendMap.get_of_mem _ kg.1 kg.2 (groupByBackend_keys_nodup _ _) h).symm

/-! ## Properties of the grouping -/

/-- C8: the group built for backend `p` is the subsequence, in arrival order, of
the events that pass the time-window test and have BackendPid `p`; the keys of
the map are distinct and every group stored in the map is such a subsequence;
every event that passes the test lies in the group of exactly one key. -/
theorem group_is_ordered_subsequence (linesNewerThan : Time) (events : List LogLine) :
    (∀ p : Int, (groupByBackend linesNewerThan [] events).get p
        = (events.filter (inWindow linesNewerThan)).filter (ofBackend p))
    ∧ (groupByBackend linesNewerThan [] events).keys.Nodup
    ∧ (∀ kg ∈ groupByBackend linesNewerThan [] events,
        kg.2 = (events.filter (inWindow linesNewerThan)).filter (ofBackend kg.1))
    ∧ (∀ e ∈ events, inWindow linesNewerThan e = true →
        ∃! k : Int, k ∈ (groupByBackend linesNewerThan [] events).keys
          ∧ e ∈ (groupByBackend linesNewerThan [] events).get k) := by
  have hget : ∀ p : Int, (groupByBackend linesNewerThan [] events).get p
      = (events.filter (inWindow linesNewerThan)).filter (ofBackend p) := by
    intro p
    rw [groupByBackend_get]
    simp [BackendMap.get]
  have hnd : (groupByBackend linesNewerThan [] events).keys.Nodup :=
    groupByBackend_nodup linesNewerThan events [] (by simp [BackendMap.keys])
  refine ⟨hget, hnd, ?_, ?_⟩
  · intro kg hkg
    rw [← hget kg.1]
    exact (BackendMap.get_of_mem _ kg.1 kg.2 hnd hkg).symm
  · intro e he hw
    have hmem : e ∈ (groupByBackend linesNewerThan [] events).get e.BackendPid := by
      rw [hget]
      simp [List.mem_filter, he, hw, ofBackend]
    refine ⟨e.BackendPid, ⟨?_, hmem⟩, ?_⟩
    · by_contra hk
      rw [BackendMap.get_of_not_mem _ _ hk] at hmem
      simp at hmem
    · rintro k ⟨_, hk⟩
      rw [hget] at hk
      simp only [List.mem_filter, ofBackend, decide_eq_true_eq] at hk
      exact hk.2.symm

/-! ## Lemmas on the scan of the groups -/

/-- The lookahead loop attaches the longest run of context lines at the head
of the slice, counts them, and changes nothing else but `Query`. -/
theorem attachFuture_spec (fs : List LogLine) (l : LogLine) (k : Nat) :
    (attachFuture l k fs).2 = k + (fs.takeWhile isContextLine).length
    ∧ (attachFuture l k fs).1.AdditionalLines
        = l.AdditionalLines ++ fs.takeWhile isContextLine
    ∧ (attachFuture l k fs).1.core = l.core := by
  induction fs generalizing l k with
  | nil => simp [attachFuture]
  | cons f rest ih =>
    by_cases hf : isContextLevel f.LogLevel = true
    · have hf' : isContextLine f = true := hf
      simp only [attachFuture, hf, if_true, List.takeWhile_cons, hf', List.length_cons]
      split
      · obtain ⟨h1, h2, h3⟩ := ih
          { l with Query := f.Content, AdditionalLines := l.AdditionalLines ++ [f] } (k + 1)
        refine ⟨by rw [h1]; omega, by rw [h2]; simp, by rw [h3]; rfl⟩
      · obtain ⟨h1, h2, h3⟩ := ih
          { l with AdditionalLines := l.AdditionalLines ++ [f] } (k + 1)
        refine ⟨by rw [h1]; omega, by rw [h2]; simp, by rw [h3]; rfl⟩
    · have hf' : isContextLine f = false := by simpa [isContextLine] using hf
      simp [attachFuture, hf, List.takeWhile_cons, hf']

/-- The duration extractor changes nothing of the anchor but `Query`, and only
appends to the samples. -/
theorem extractDuration_spec {F : Type} (parseFloat : GoString → F) (l : LogLine)
    (s : List (PostgresQuerySample F)) :
    (extractDuration parseFloat l s).1 = (extractDuration parseFloat l []).1
    ∧ (extractDuration parseFloat l s).2 = s ++ (extractDuration parseFloat l []).2
    ∧ (extractDuration parseFloat l s).1.AdditionalLines = l.AdditionalLines
    ∧ (extractDuration parseFloat l s).1.core = l.core := by
  unfold extractDuration
  split
  · split
    · split
      · split <;> simp [LogLine.core]
      · simp
    · simp
  · simp

/-- The accumulated results only grow: the scan of a group appends what it
would produce from empty results. -/
theorem scanGroup_acc {F : Type} (parseFloat : GoString → F) (g : List LogLine) (k : Nat)
    (r : List LogLine) (s : List (PostgresQuerySample F)) :
    (scanGroup parseFloat { skipLines := k, result := r, samples := s } g).skipLines
        = (groupOutput parseFloat k g).skipLines
    ∧ (scanGroup parseFloat { skipLines := k, result := r, samples := s } g).result
        = r ++ (groupOutput parseFloat k g).result
    ∧ (scanGroup parseFloat { skipLines := k, result := r, samples := s } g).samples
        = s ++ (groupOutput parseFloat k g).samples := by
  induction g generalizing k r s with
  | nil => simp [scanGroup, groupOutput]
  | cons l future ih =>
    by_cases hk : k > 0
    · simp only [groupOutput, scanGroup, hk, if_true]
      exact ih (k - 1) r s
    · simp only [groupOutput, scanGroup, hk, if_false]
      obtain ⟨e1, e2, _, _⟩ := extractDuration_spec parseFloat
        (attachFuture l k (future.take 2)).1 s
      obtain ⟨a1, a2, a3⟩ := ih (attachFuture l k (future.take 2)).2
        (r ++ [(extractDuration parseFloat (attachFuture l k (future.take 2)).1 s).1])
        (extractDuration parseFloat (attachFuture l k (future.take 2)).1 s).2
      obtain ⟨b1, b2, b3⟩ := ih (attachFuture l k (future.take 2)).2
        ([] ++ [(extractDuration parseFloat (attachFuture l k (future.take 2)).1 []).1])
        (extractDuration parseFloat (attachFuture l k (future.take 2)).1 []).2
      refine ⟨by rw [a1, b1], ?_, ?_⟩
      · rw [a2, b2, e1]; simp
      · rw [a3, b3, e2]; simp

theorem attachedOf_eq_take (future : List LogLine) :
    attachedOf future = future.take (attachedOf future).length := by
  have h1 : attachedOf future <+: future.take 2 := List.takeWhile_prefix _
  have h2 : future.take 2 <+: future := List.take_prefix 2 future
  exact List.prefix_iff_eq_take.1 (h1.trans h2)

theorem attachedOf_length_le (future : List LogLine) :
    (attachedOf future).length ≤ future.length ∧ (attachedOf future).length ≤ 2 := by
  have h1 : attachedOf future <+: future.take 2 := List.takeWhile_prefix _
  have h3 := h1.length_le
  have h4 : (future.take 2).length ≤ 2 := by simp
  have h5 : (future.take 2).length ≤ future.length := by simp
  omega

theorem anchorOf_spec {F : Type} (parseFloat : GoString → F) (l : LogLine)
    (future : List LogLine) :
    (anchorOf parseFloat l future).core = l.core
    ∧ (anchorOf parseFloat l future).AdditionalLines = l.AdditionalLines ++ attachedOf future := by
  obtain ⟨_, a2, a3⟩ := attachFuture_spec (future.take 2) l 0
  obtain ⟨_, _, e3, e4⟩ := extractDuration_spec parseFloat
    (attachFuture l 0 (future.take 2)).1 ([] : List (PostgresQuerySample F))
  exact ⟨by rw [anchorOf, e4, a3], by rw [anchorOf, e3, a2]; rfl⟩

theorem anchorOf_backendPid {F : Type} (parseFloat : GoString → F) (l : LogLine)
    (future : List LogLine) : (anchorOf parseFloat l future).BackendPid = l.BackendPid := by
  have h := congrArg LogLine.BackendPid (anchorOf_spec parseFloat l future).1
  exact h

theorem groupOutput_nil {F : Type} (parseFloat : GoString → F) (k : Nat) :
    groupOutput parseFloat k [] = { skipLines := k, result := [], samples := [] } := rfl

theorem groupOutput_cons_succ {F : Type} (parseFloat : GoString → F) (k : Nat) (l : LogLine)
    (future : List LogLine) :
    groupOutput parseFloat (k + 1) (l :: future) = groupOutput parseFloat k future := by
  simp [groupOutput, scanGroup]

/-- One step of the scan at an anchor: the anchor's event, then the scan of
the following lines with the counter at the number of attached lines. -/
theorem groupOutput_cons_zero {F : Type} (parseFloat : GoString → F) (l : LogLine)
    (future : List LogLine) :
    (groupOutput parseFloat 0 (l :: future)).skipLines
        = (groupOutput parseFloat (attachedOf future).length future).skipLines
    ∧ (groupOutput parseFloat 0 (l :: future)).result
        = anchorOf parseFloat l future
            :: (groupOutput parseFloat (attachedOf future).length future).result
    ∧ (groupOutput parseFloat 0 (l :: future)).samples
        = (extractDuration parseFloat (attachFuture l 0 (future.take 2)).1 []).2
            ++ (groupOutput parseFloat (attachedOf future).length future).samples := by
  obtain ⟨a1, _, _⟩ := attachFuture_spec (future.take 2) l 0
  have hk : (attachFuture l 0 (future.take 2)).2 = (attachedOf future).length := by
    rw [a1]; simp [attachedOf]
  obtain ⟨b1, b2, b3⟩ := scanGroup_acc parseFloat future (attachFuture l 0 (future.take 2)).2
    ([] ++ [(extractDuration parseFloat (attachFuture l 0 (future.take 2)).1 []).1])
    (extractDuration parseFloat (attachFuture l 0 (future.take 2)).1 []).2
  rw [hk] at b1 b2 b3
  have hunf : groupOutput parseFloat 0 (l :: future)
      = scanGroup parseFloat
          { skipLines := (attachFuture l 0 (future.take 2)).2,
            result := [] ++ [(extractDuration parseFloat (attachFuture l 0 (future.take 2)).1 []).1],
            samples := (extractDuration parseFloat (attachFuture l 0 (future.take 2)).1 []).2 }
          future := by
    simp [groupOutput, scanGroup]
  rw [hunf, hk]
  exact ⟨b1, by rw [b2]; rfl, b3⟩

/-- The counter is back at 0 at the end of a group whenever it does not exceed
the number of lines of the group at its start. -/
theorem groupOutput_skipLines {F : Type} (parseFloat : GoString → F) (g : List LogLine)
    (k : Nat) (hk : k ≤ g.length) : (groupOutput parseFloat k g).skipLines = 0 := by
  induction g generalizing k with
  | nil =>
    rw [groupOutput_nil]
    simpa using hk
  | cons l future ih =>
    cases k with
    | zero =>
      rw [(groupOutput_cons_zero parseFloat l future).1]
      exact ih _ (attachedOf_length_le future).1
    | succ k =>
      rw [groupOutput_cons_succ]
      exact ih k (by simpa using hk)

/-- Conservation inside a group: the top-level events of a group, each followed
by its attached lines, are the lines of the group that were not skipped at the
start, in order. -/
theorem groupOutput_flat {F : Type} (parseFloat : GoString → F) (g : List LogLine)
    (k : Nat) (hadd : ∀ e ∈ g, e.AdditionalLines = []) :
    (groupOutput parseFloat k g).result.flatMap LogLine.flat
      = (g.drop k).map LogLine.core := by
  induction g generalizing k with
  | nil => simp [groupOutput_nil]
  | cons l future ih =>
    have hfut : ∀ e ∈ future, e.AdditionalLines = [] := fun e he => hadd e (by simp [he])
    cases k with
    | zero =>
      obtain ⟨c1, c2⟩ := anchorOf_spec parseFloat l future
      rw [(groupOutput_cons_zero parseFloat l future).2.1, List.flatMap_cons, ih _ hfut]
      simp only [LogLine.flat, c1, c2, hadd l (by simp), List.nil_append, List.drop_zero,
        List.map_cons, List.cons_append, List.cons.injEq, true_and]
      rw [← List.map_append]
      congr 1
      conv_rhs => rw [← List.take_append_drop (attachedOf future).length future]
      rw [← attachedOf_eq_take]
    | succ k =>
      rw [groupOutput_cons_succ]
      simpa using ih k hfut

/-- Every top-level event of a group is an anchor of the group: a line `l` of
the group, followed there by `post`, with the attached lines of `post`. -/
theorem groupOutput_anchor {F : Type} (parseFloat : GoString → F) (g : List LogLine)
    (k : Nat) :
    ∀ o ∈ (groupOutput parseFloat k g).result,
      ∃ pre l post, g = pre ++ l :: post ∧ o = anchorOf parseFloat l post := by
  induction g generalizing k with
  | nil => simp [groupOutput_nil]
  | cons l future ih =>
    cases k with
    | zero =>
      rw [(groupOutput_cons_zero parseFloat l future).2.1]
      intro o ho
      rcases List.mem_cons.1 ho with e | e
      · exact ⟨[], l, future, rfl, e⟩
      · obtain ⟨pre, l', post, h1, h2⟩ := ih _ o e
        exact ⟨l :: pre, l', post, by rw [h1]; rfl, h2⟩
    | succ k =>
      rw [groupOutput_cons_succ]
      intro o ho
      obtain ⟨pre, l', post, h1, h2⟩ := ih _ o ho
      exact ⟨l :: pre, l', post, by rw [h1]; rfl, h2⟩

/-- The scan of the groups, started with the counter at 0, appends the output
of every group in turn and ends with the counter at 0. -/
theorem scanGroups_spec {F : Type} (parseFloat : GoString → F) (gs : List (List LogLine))
    (r : List LogLine) (s : List (PostgresQuerySample F)) :
    (scanGroups parseFloat { skipLines := 0, result := r, samples := s } gs).skipLines = 0
    ∧ (scanGroups parseFloat { skipLines := 0, result := r, samples := s } gs).result
        = r ++ chunkResult parseFloat gs
    ∧ (scanGroups parseFloat { skipLines := 0, result := r, samples := s } gs).samples
        = s ++ chunkSamples parseFloat gs := by
  induction gs generalizing r s with
  | nil => simp [scanGroups, chunkResult, chunkSamples]
  | cons g gs ih =>
    obtain ⟨a1, a2, a3⟩ := scanGroup_acc parseFloat g 0 r s
    have a0 := groupOutput_skipLines parseFloat g 0 (Nat.zero_le _)
    rw [a0] at a1
    have hst : scanGroup parseFloat { skipLines := 0, result := r, samples := s } g
        = { skipLines := 0, result := r ++ (groupOutput parseFloat 0 g).result,
            samples := s ++ (groupOutput parseFloat 0 g).samples } := by
      cases hsc : scanGroup parseFloat { skipLines := 0, result := r, samples := s } g with
      | mk k' r' s' =>
        rw [hsc] at a1 a2 a3
        simp only at a1 a2 a3
        rw [a1, a2, a3]
    simp only [scanGroups, hst]
    obtain ⟨b1, b2, b3⟩ := ih (r ++ (groupOutput parseFloat 0 g).result)
      (s ++ (groupOutput parseFloat 0 g).samples)
    refine ⟨b1, ?_, ?_⟩
    · rw [b2]; simp [chunkResult]
    · rw [b3]; simp [chunkSamples]

/-- The processing of a chunk whose read loop leaves the events `evs`. -/
theorem processChunk_of_parsed {F : Type} (parseTime : GoString → Option Time)
    (parseFloat : GoString → F) (linesNewerThan : Time)
    (rangeOrder : BackendMap → BackendMap) (reads : List (GoString × Bool))
    (evs : List LogLine) (h : parsedEvents parseTime reads = some evs)
    (result : List LogLine) (samples : List (PostgresQuerySample F)) :
    processChunk parseTime parseFloat linesNewerThan rangeOrder reads result samples
      = some (result ++ chunkResult parseFloat
                ((rangeOrder (groupByBackend linesNewerThan [] evs)).map Prod.snd),
              samples ++ chunkSamples parseFloat
                ((rangeOrder (groupByBackend linesNewerThan [] evs)).map Prod.snd)) := by
  unfold parsedEvents at h
  cases hp : parseReads parseTime ParseState.init reads with
  | none => simp [hp] at h
  | some st =>
    simp only [hp, Option.map_some', Option.some.injEq] at h
    subst h
    obtain ⟨_, h2, h3⟩ := scanGroups_spec parseFloat
      ((rangeOrder (groupByBackend linesNewerThan [] st.logLines)).map Prod.snd) result samples
    simp only [processChunk, hp, h2, h3]

/-- Conservation per backend over a map iteration with distinct keys whose
groups hold only lines of their own backend, none with attached lines. -/
theorem chunkResult_flat {F : Type} (parseFloat : GoString → F) (iter : BackendMap)
    (hn : iter.keys.Nodup)
    (hg : ∀ kg ∈ iter, ∀ e ∈ kg.2, e.BackendPid = kg.1 ∧ e.AdditionalLines = [])
    (p : Int) :
    ((chunkResult parseFloat (iter.map Prod.snd)).filter (ofBackend p)).flatMap LogLine.flat
      = (iter.get p).map LogLine.core := by
  induction iter with
  | nil => simp [chunkResult, BackendMap.get]
  | cons kg rest ih =>
    obtain ⟨k, g⟩ := kg
    simp only [BackendMap.keys, List.map_cons, List.nodup_cons] at hn
    have hrest := ih hn.2 (fun kg hkg => hg kg (by simp [hkg]))
    have hgk := hg (k, g) (by simp)
    have hpid : ∀ o ∈ (groupOutput parseFloat 0 g).result, o.BackendPid = k := by
      intro o ho
      obtain ⟨pre, l, post, h1, h2⟩ := groupOutput_anchor parseFloat g 0 o ho
      rw [h2, anchorOf_backendPid]
      exact (hgk l (by rw [h1]; simp)).1
    have hsplit : chunkResult parseFloat (((k, g) :: rest).map Prod.snd)
        = (groupOutput parseFloat 0 g).result ++ chunkResult parseFloat (rest.map Prod.snd) := by
      simp [chunkResult]
    rw [hsplit, List.filter_append, List.flatMap_append, hrest]
    by_cases hk : k = p
    · have hall : (groupOutput parseFloat 0 g).result.filter (ofBackend p)
          = (groupOutput parseFloat 0 g).result := by
        rw [List.filter_eq_self]
        intro o ho
        simp [ofBackend, hpid o ho, hk]
      have hnot : p ∉ BackendMap.keys rest := by
        rw [← hk]
        exact hn.1
      rw [hall, groupOutput_flat parseFloat g 0 (fun e he => (hgk e he).2),
        BackendMap.get_of_not_mem rest p hnot]
      simp [BackendMap.get, hk]
    · have hnone : (groupOutput parseFloat 0 g).result.filter (ofBackend p) = [] := by
        rw [List.filter_eq_nil_iff]
        intro o ho
        simp [ofBackend, hpid o ho, hk]
      rw [hnone]
      simp [BackendMap.get, hk]

theorem isContextLine_iff (e : LogLine) :
    isContextLine e = true ↔
      (e.LogLevel = "STATEMENT".toList ∨ e.LogLevel = "DETAIL".toList
        ∨ e.LogLevel = "HINT".toList) := by
  simp [isContextLine, isContextLevel, or_assoc]

/-! ## Properties of the context attacher -/

/-- C6: for a chunk whose read loop leaves the events `evs`, and for every
backend identifier `p`, the top-level events that the chunk adds with
BackendPid `p`, each immediately followed by its AdditionalLines, are exactly
the events of `evs` that pass the time-window test and have BackendPid `p`, in
arrival order, compared on all fields but Query and AdditionalLines. -/
theorem continuation_exclusivity {F : Type} (parseTime : GoString → Option Time)
    (parseFloat : GoString → F) (linesNewerThan : Time)
    (rangeOrder : BackendMap → BackendMap) (hperm : ∀ m, (rangeOrder m).Perm m)
    (reads : List (GoString × Bool)) (evs : List LogLine)
    (hparsed : parsedEvents parseTime reads = some evs)
    (result : List LogLine) (samples : List (PostgresQuerySample F)) :
    ∃ (out : List LogLine) (samples' : List (PostgresQuerySample F)),
      processChunk parseTime parseFloat linesNewerThan rangeOrder reads result samples
        = some (result ++ out, samples')
      ∧ ∀ p : Int,
          (out.filter (ofBackend p)).flatMap LogLine.flat
            = ((evs.filter (inWindow linesNewerThan)).filter (ofBackend p)).map
                LogLine.core := by
  refine ⟨_, _, processChunk_of_parsed parseTime parseFloat linesNewerThan rangeOrder reads
    evs hparsed result samples, ?_⟩
  intro p
  have hnd := groupByBackend_keys_nodup linesNewerThan evs
  have hp := hperm (groupByBackend linesNewerThan [] evs)
  have hadd := parsedEvents_additional parseTime reads evs hparsed
  rw [chunkResult_flat parseFloat _ ((hp.map Prod.fst).nodup_iff.2 hnd) ?_ p,
    BackendMap.get_perm _ _ hp hnd, groupByBackend_get_nil]
  intro kg hkg e he
  rw [groupByBackend_entry linesNewerThan evs kg (hp.mem_iff.1 hkg)] at he
  simp only [List.mem_filter, ofBackend, decide_eq_true_eq] at he
  exact ⟨he.2, hadd e he.1.1⟩

/-- C6 on the example chunk, the map being visited in reverse order. -/
theorem continuation_exclusivity_witness :
    ((∀ m : BackendMap, (List.reverse m).Perm m)
      ∧ parsedEvents parseTimestamp exampleReads = some exampleEvents)
    ∧ ∃ (out : List LogLine) (samples' : List (PostgresQuerySample ℚ)),
      processChunk parseTimestamp parseDecimal 0 List.reverse exampleReads [] []
        = some ([] ++ out, samples')
      ∧ ∀ p : Int,
          (out.filter (ofBackend p)).flatMap LogLine.flat
            = ((exampleEvents.filter (inWindow 0)).filter (ofBackend p)).map LogLine.core :=
  ⟨⟨fun m => List.reverse_perm m, rfl⟩,
   continuation_exclusivity parseTimestamp parseDecimal 0 List.reverse
     (fun m => List.reverse_perm m) exampleReads exampleEvents rfl [] []⟩

/-- C7: for a chunk whose read loop leaves the events `evs`, every top-level
event `o` that the chunk adds has at most 2 AdditionalLines, each of level
STATEMENT, DETAIL or HINT; `o` stems from a line `l` of its backend's ordered
list, followed there by the lines `post`, and its AdditionalLines are the
longest run of context-level lines at the head of the first two lines of
`post`; when the line right after `l` is not of such a level, nothing is
attached. -/
theorem lookahead_bound {F : Type} (parseTime : GoString → Option Time)
    (parseFloat : GoString → F) (linesNewerThan : Time)
    (rangeOrder : BackendMap → BackendMap) (hperm : ∀ m, (rangeOrder m).Perm m)
    (reads : List (GoString × Bool)) (evs : List LogLine)
    (hparsed : parsedEvents parseTime reads = some evs)
    (result : List LogLine) (samples : List (PostgresQuerySample F)) :
    ∃ (out : List LogLine) (samples' : List (PostgresQuerySample F)),
      processChunk parseTime parseFloat linesNewerThan rangeOrder reads result samples
        = some (result ++ out, samples')
      ∧ ∀ o ∈ out,
          o.AdditionalLines.length ≤ 2
          ∧ (∀ a ∈ o.AdditionalLines,
              a.LogLevel = "STATEMENT".toList ∨ a.LogLevel = "DETAIL".toList
                ∨ a.LogLevel = "HINT".toList)
          ∧ ∃ pre l post,
              (evs.filter (inWindow linesNewerThan)).filter (ofBackend o.BackendPid)
                = pre ++ l :: post
              ∧ o.core = l.core
              ∧ o.AdditionalLines = (post.take 2).takeWhile isContextLine
              ∧ (∀ x, post.head? = some x → isContextLine x = false →
                  o.AdditionalLines = []) := by
  refine ⟨_, _, processChunk_of_parsed parseTime parseFloat linesNewerThan rangeOrder reads
    evs hparsed result samples, ?_⟩
  intro o ho
  have hp := hperm (groupByBackend linesNewerThan [] evs)
  have hadd := parsedEvents_additional parseTime reads evs hparsed
  simp only [chunkResult, List.mem_flatMap, List.mem_map] at ho
  obtain ⟨g, ⟨kg, hkg, rfl⟩, hog⟩ := ho
  obtain ⟨pre, l, post, h1, h2⟩ := groupOutput_anchor parseFloat kg.2 0 o hog
  have hentry := groupByBackend_entry linesNewerThan evs kg (hp.mem_iff.1 hkg)
  have hl : l ∈ (evs.filter (inWindow linesNewerThan)).filter (ofBackend kg.1) := by
    rw [← hentry, h1]
    simp
  simp only [List.mem_filter, ofBackend, decide_eq_true_eq] at hl
  obtain ⟨c1, c2⟩ := anchorOf_spec parseFloat l post
  have hpid : o.BackendPid = kg.1 := by
    rw [h2, anchorOf_backendPid]
    exact hl.2
  have hattached : o.AdditionalLines = attachedOf post := by
    rw [h2, c2, hadd l hl.1.1]
    rfl
  refine ⟨?_, ?_, pre, l, post, ?_, ?_, hattached, ?_⟩
  · rw [hattached]
    exact (attachedOf_length_le post).2
  · intro a ha
    rw [hattached] at ha
    exact (isContextLine_iff a).1 (List.mem_takeWhile_imp ha)
  · rw [hpid, ← hentry, h1]
  · rw [h2, c1]
  · intro x hx hnot
    rw [hattached]
    cases post with
    | nil => rfl
    | cons y ys =>
      simp only [List.head?_cons, Option.some.injEq] at hx
      subst hx
      simp [attachedOf, List.takeWhile_cons, hnot]

/-- C7 on the example chunk, the map being visited in insertion order. -/
theorem lookahead_bound_witness :
    ((∀ m : BackendMap, (insertionOrder m).Perm m)
      ∧ parsedEvents parseTimestamp exampleReads = some exampleEvents)
    ∧ ∃ (out : List LogLine) (samples' : List (PostgresQuerySample ℚ)),
      processChunk parseTimestamp parseDecimal 0 insertionOrder exampleReads [] []
        = some ([] ++ out, samples')
      ∧ ∀ o ∈ out,
          o.AdditionalLines.length ≤ 2
          ∧ (∀ a ∈ o.AdditionalLines,
              a.LogLevel = "STATEMENT".toList ∨ a.LogLevel = "DETAIL".toList
                ∨ a.LogLevel = "HINT".toList)
          ∧ ∃ pre l post,
              (exampleEvents.filter (inWindow 0)).filter (ofBackend o.BackendPid)
                = pre ++ l :: post
              ∧ o.core = l.core
              ∧ o.AdditionalLines = (post.take 2).takeWhile isContextLine
              ∧ (∀ x, post.head? = some x → isContextLine x = false →
                  o.AdditionalLines = []) :=
  ⟨⟨fun m => List.Perm.refl m, rfl⟩,
   lookahead_bound parseTimestamp parseDecimal 0 insertionOrder
     (fun m => List.Perm.refl m) exampleReads exampleEvents rfl [] []⟩

/-! ## Properties of the order of the scan -/

/-- C9 fails.  Reversing the entries is a legitimate order for a map iteration,
and on the example chunk, whose backends are first seen in the order 12, 13, it
makes the scan emit the event of backend 13 before the one of backend 12. -/
theorem scan_order_not_first_seen :
    (∀ m : BackendMap, (List.reverse m).Perm m)
    ∧ (processChunk parseTimestamp parseDecimal 0 List.reverse exampleReads [] []).map
        (fun o => o.1.map (fun e => e.BackendPid)) = some [13, 12]
    ∧ (processChunk parseTimestamp parseDecimal 0 insertionOrder exampleReads [] []).map
        (fun o => o.1.map (fun e => e.BackendPid)) = some [12, 13] := by
  refine ⟨fun m => List.reverse_perm m, by decide, by decide⟩

/-- C9, as amended: the groups are scanned in the order of the map iteration,
which is any order over the entries.  For every such order the top-level
events and the samples that a chunk adds are the outputs of the groups, each in
one piece, concatenated in the order of the iteration; they are a permutation
of the events and samples added when the entries are visited in the order in
which the backend identifiers were first seen, which is the order of the
entries of the map as the grouping loop builds it. -/
theorem scan_order_is_iteration_order {F : Type} (parseTime : GoString → Option Time)
    (parseFloat : GoString → F) (linesNewerThan : Time)
    (rangeOrder : BackendMap → BackendMap) (hperm : ∀ m, (rangeOrder m).Perm m)
    (reads : List (GoString × Bool)) (evs : List LogLine)
    (hparsed : parsedEvents parseTime reads = some evs)
    (result : List LogLine) (samples : List (PostgresQuerySample F)) :
    ∃ (out out0 : List LogLine) (smp smp0 : List (PostgresQuerySample F)),
      processChunk parseTime parseFloat linesNewerThan rangeOrder reads result samples
        = some (result ++ out, samples ++ smp)
      ∧ processChunk parseTime parseFloat linesNewerThan insertionOrder reads result samples
        = some (result ++ out0, samples ++ smp0)
      ∧ out = (rangeOrder (groupByBackend linesNewerThan [] evs)).flatMap
                (fun kg => (groupOutput parseFloat 0 kg.2).result)
      ∧ smp = (rangeOrder (groupByBackend linesNewerThan [] evs)).flatMap
                (fun kg => (groupOutput parseFloat 0 kg.2).samples)
      ∧ out0 = (groupByBackend linesNewerThan [] evs).flatMap
                (fun kg => (groupOutput parseFloat 0 kg.2).result)
      ∧ smp0 = (groupByBackend linesNewerThan [] evs).flatMap
                (fun kg => (groupOutput parseFloat 0 kg.2).samples)
      ∧ (groupByBackend linesNewerThan [] evs).keys
          = firstSeen ((evs.filter (inWindow linesNewerThan)).map (fun e => e.BackendPid))
      ∧ out.Perm out0 ∧ smp.Perm smp0 := by
  have hp := hperm (groupByBackend linesNewerThan [] evs)
  refine ⟨_, _, _, _, processChunk_of_parsed parseTime parseFloat linesNewerThan rangeOrder
    reads evs hparsed result samples, processChunk_of_parsed parseTime parseFloat
    linesNewerThan insertionOrder reads evs hparsed result samples, ?_, ?_, ?_, ?_,
    groupByBackend_keys_firstSeen linesNewerThan evs, ?_, ?_⟩
  · simp [chunkResult, List.flatMap_map]
  · simp [chunkSamples, List.flatMap_map]
  · simp [chunkResult, insertionOrder, List.flatMap_map]
  · simp [chunkSamples, insertionOrder, List.flatMap_map]
  · exact ((hp.map Prod.snd).flatMap_right _)
  · exact ((hp.map Prod.snd).flatMap_right _)

/-- C9 as amended, on the example chunk with the map visited in reverse
order. -/
theorem scan_order_is_iteration_order_witness :
    ((∀ m : BackendMap, (List.reverse m).Perm m)
      ∧ parsedEvents parseTimestamp exampleReads = some exampleEvents)
    ∧ ∃ (out out0 : List LogLine) (smp smp0 : List (PostgresQuerySample ℚ)),
      processChunk parseTimestamp parseDecimal 0 List.reverse exampleReads [] []
        = some ([] ++ out, [] ++ smp)
      ∧ processChunk parseTimestamp parseDecimal 0 insertionOrder exampleReads [] []
        = some ([] ++ out0, [] ++ smp0)
      ∧ out = (List.reverse (groupByBackend 0 [] exampleEvents)).flatMap
                (fun kg => (groupOutput parseDecimal 0 kg.2).result)
      ∧ smp = (List.reverse (groupByBackend 0 [] exampleEvents)).flatMap
                (fun kg => (groupOutput parseDecimal 0 kg.2).samples)
      ∧ out0 = (groupByBackend 0 [] exampleEvents).flatMap
                (fun kg => (groupOutput parseDecimal 0 kg.2).result)
      ∧ smp0 = (groupByBackend 0 [] exampleEvents).flatMap
                (fun kg => (groupOutput parseDecimal 0 kg.2).samples)
      ∧ (groupByBackend 0 [] exampleEvents).keys
          = firstSeen ((exampleEvents.filter (inWindow 0)).map (fun e => e.BackendPid))
      ∧ out.Perm out0 ∧ smp.Perm smp0 :=
  ⟨⟨fun m => List.reverse_perm m, rfl⟩,
   scan_order_is_iteration_order parseTimestamp parseDecimal 0 List.reverse
     (fun m => List.reverse_perm m) exampleReads exampleEvents rfl [] []⟩

/-! ## Lemmas on the duration pattern -/

/-- The duration pattern matches a Content of the shape
`duration: D ms CTX: Q` at its first byte, with the groups `D`, `CTX`, `Q`. -/
theorem matchDurationAt_of_shape (D CTX Q : GoString)
    (hD : D ≠ [] ∧ ∀ c ∈ D, isDigit c = true ∨ c = '.')
    (hCTX : CTX ≠ [] ∧ ':' ∉ CTX) (hQ : Q ≠ [] ∧ '\n' ∉ Q) :
    matchDurationAt ("duration: ".toList ++ D ++ " ms".toList ++ CTX ++ ": ".toList ++ Q)
      = some (D, CTX, Q) := by
  have hDp : ∀ c ∈ D, isNumChar c = true := by
    intro c hc
    rcases hD.2 c hc with h | h
    · simp [isNumChar, h]
    · simp [isNumChar, h]
  have hCp : ∀ c ∈ CTX, isNotColon c = true := by
    intro c hc
    have : c ≠ ':' := fun e => hCTX.2 (e ▸ hc)
    simp [isNotColon, this]
  have hQp : ∀ c ∈ Q, isNotNewline c = true := by
    intro c hc
    have : c ≠ '\n' := fun e => hQ.2 (e ▸ hc)
    simp [isNotNewline, this]
  have e1 : "duration: ".toList ++ D ++ " ms".toList ++ CTX ++ ": ".toList ++ Q
      = "duration: ".toList ++ (D ++ (" ms".toList ++ (CTX ++ (": ".toList ++ Q)))) := by
    simp only [List.append_assoc]
  obtain ⟨t1, t2⟩ := takeWhile_append_stop isNumChar D ' '
    ("ms".toList ++ (CTX ++ (": ".toList ++ Q))) hDp (by decide)
  obtain ⟨t3, t4⟩ := takeWhile_append_stop isNotColon CTX ':' (" ".toList ++ Q) hCp (by decide)
  have t1' : (D ++ (" ms".toList ++ (CTX ++ (": ".toList ++ Q)))).takeWhile isNumChar = D := t1
  have t2' : (D ++ (" ms".toList ++ (CTX ++ (": ".toList ++ Q)))).dropWhile isNumChar
      = " ms".toList ++ (CTX ++ (": ".toList ++ Q)) := t2
  have t3' : (CTX ++ (": ".toList ++ Q)).takeWhile isNotColon = CTX := t3
  have t4' : (CTX ++ (": ".toList ++ Q)).dropWhile isNotColon = ": ".toList ++ Q := t4
  have hDe : D.isEmpty = false := by
    cases D with
    | nil => exact absurd rfl hD.1
    | cons _ _ => rfl
  have hCe : CTX.isEmpty = false := by
    cases CTX with
    | nil => exact absurd rfl hCTX.1
    | cons _ _ => rfl
  have hQe : Q.isEmpty = false := by
    cases Q with
    | nil => exact absurd rfl hQ.1
    | cons _ _ => rfl
  rw [e1]
  unfold matchDurationAt
  simp only [dropLiteral_append, t1', t2', hDe, Bool.false_eq_true, if_false, t3', t4', hCe,
    takeWhile_all isNotNewline Q hQp, hQe]

theorem findStringSubmatch_of_shape (D CTX Q : GoString)
    (hD : D ≠ [] ∧ ∀ c ∈ D, isDigit c = true ∨ c = '.')
    (hCTX : CTX ≠ [] ∧ ':' ∉ CTX) (hQ : Q ≠ [] ∧ '\n' ∉ Q) :
    findStringSubmatch ("duration: ".toList ++ D ++ " ms".toList ++ CTX ++ ": ".toList ++ Q)
      = some (D, CTX, Q) := by
  have hm := matchDurationAt_of_shape D CTX Q hD hCTX hQ
  have hcons : ∃ c cs, "duration: ".toList ++ D ++ " ms".toList ++ CTX ++ ": ".toList ++ Q
      = c :: cs := ⟨'d', _, by simp [List.append_assoc]; rfl⟩
  obtain ⟨c, cs, hc⟩ := hcons
  rw [hc] at hm ⊢
  simp only [findStringSubmatch, hm]

/-- The duration extractor on an anchor whose Content has the shape
`duration: D ms CTX: Q`. -/
theorem extractDuration_of_shape {F : Type} (parseFloat : GoString → F) (a : LogLine)
    (s : List (PostgresQuerySample F)) (D CTX Q : GoString)
    (hcontent : a.Content
      = "duration: ".toList ++ D ++ " ms".toList ++ CTX ++ ": ".toList ++ Q)
    (hD : D ≠ [] ∧ ∀ c ∈ D, isDigit c = true ∨ c = '.')
    (hCTX : CTX ≠ [] ∧ ':' ∉ CTX ∧ ¬ "bind".toList <:+: CTX ∧ ¬ "parse".toList <:+: CTX)
    (hQ : Q ≠ [] ∧ '\n' ∉ Q)
    (htrunc : ¬ truncationMarker <:+ a.Content) :
    extractDuration parseFloat a s
      = ({ a with Query := Q },
         s ++ [{ OccurredAt := a.OccurredAt, Username := a.Username, Database := a.Database,
                 Query := Q, RuntimeMs := parseFloat D }]) := by
  have h1 : hasPrefix a.Content "duration: ".toList = true := by
    rw [hcontent]
    simp [hasPrefix, List.append_assoc]
  have h2 : hasSuffix a.Content truncationMarker = false := by
    rw [← Bool.not_eq_true, hasSuffix_spec]
    exact htrunc
  have h3 : contains CTX "bind".toList = false := by
    rw [← Bool.not_eq_true, contains_spec]
    exact hCTX.2.2.1
  have h4 : contains CTX "parse".toList = false := by
    rw [← Bool.not_eq_true, contains_spec]
    exact hCTX.2.2.2
  have h5 : findStringSubmatch a.Content = some (D, CTX, Q) := by
    rw [hcontent]
    exact findStringSubmatch_of_shape D CTX Q hD ⟨hCTX.1, hCTX.2.1⟩ hQ
  unfold extractDuration
  simp only [h1, h2, h3, h4, h5, if_true, and_self]

/-! ## Lemmas on the exact decimal value -/

theorem parseDecimal_example : parseDecimal "12.345".toList = 12345 / 1000 := by
  have h1 : "12.345".toList.takeWhile isDigit = ['1', '2'] := by decide
  have h2 : "12.345".toList.dropWhile isDigit = ['.', '3', '4', '5'] := by decide
  have h3 : (['3', '4', '5'] : GoString).all isDigit = true := by decide
  have h4 : digitsValue ['1', '2'] = 12 := by decide
  have h5 : digitsValue ['3', '4', '5'] = 345 := by decide
  simp only [parseDecimal, h1, h2, h3, h4, h5]
  norm_num

/-! ## Lemmas on the samples of an event -/

theorem hasPrefix_spec (s p : GoString) : hasPrefix s p = true ↔ p <+: s := by
  simp [hasPrefix, List.isPrefixOf_iff_prefix]

/-- The duration extractor on an anchor whose Content matches the pattern. -/
theorem extractDuration_of_match {F : Type} (parseFloat : GoString → F) (a : LogLine)
    (s : List (PostgresQuerySample F)) (d ctx q : GoString)
    (hmatch : findStringSubmatch a.Content = some (d, ctx, q)) :
    extractDuration parseFloat a s
      = if isApplicable a = true then
          (if contains ctx "bind".toList = false ∧ contains ctx "parse".toList = false then
            ({ a with Query := q },
             s ++ [{ OccurredAt := a.OccurredAt, Username := a.Username,
                     Database := a.Database, Query := q, RuntimeMs := parseFloat d }])
          else ({ a with Query := q }, s))
        else (a, s) := by
  unfold extractDuration isApplicable
  by_cases h1 : hasPrefix a.Content "duration: ".toList = true
  · by_cases h2 : hasSuffix a.Content truncationMarker = false
    · rw [if_pos h1, if_pos h2, h1, h2]
      simp only [hmatch, Bool.not_false, Bool.and_self, if_true]
    · have h2' : hasSuffix a.Content truncationMarker = true := by
        cases hh : hasSuffix a.Content truncationMarker with
        | true => rfl
        | false => exact absurd hh h2
      rw [if_pos h1, if_neg h2, h1, h2']
      simp only [Bool.not_true, Bool.and_false, Bool.false_eq_true, if_false]
  · have h1' : hasPrefix a.Content "duration: ".toList = false := by
      cases hh : hasPrefix a.Content "duration: ".toList with
      | true => exact absurd hh h1
      | false => rfl
    rw [if_neg h1, h1']
    simp only [Bool.false_and, Bool.false_eq_true, if_false]

/-- The duration extractor on an anchor whose Content does not match the
pattern. -/
theorem extractDuration_of_no_match {F : Type} (parseFloat : GoString → F) (a : LogLine)
    (s : List (PostgresQuerySample F)) (hmatch : findStringSubmatch a.Content = none) :
    extractDuration parseFloat a s = (a, s) := by
  unfold extractDuration
  split
  · split
    · simp only [hmatch]
    · rfl
  · rfl

/-- The duration extractor where it does not apply. -/
theorem extractDuration_of_not_applicable {F : Type} (parseFloat : GoString → F)
    (a : LogLine) (s : List (PostgresQuerySample F)) (h : isApplicable a = false) :
    extractDuration parseFloat a s = (a, s) := by
  unfold extractDuration
  unfold isApplicable at h
  by_cases h1 : hasPrefix a.Content "duration: ".toList = true
  · rw [h1, Bool.true_and] at h
    have h2 : ¬ hasSuffix a.Content truncationMarker = false := by
      intro hh
      rw [hh] at h
      exact Bool.noConfusion h
    rw [if_pos h1, if_neg h2]
  · rw [if_neg h1]

/-- The samples that the duration extractor adds depend on the anchor only
through its parsed fields. -/
theorem extractDuration_samples_core {F : Type} (parseFloat : GoString → F) (a b : LogLine)
    (s : List (PostgresQuerySample F)) (h : a.core = b.core) :
    (extractDuration parseFloat a s).2 = (extractDuration parseFloat b s).2 := by
  have hc : a.Content = b.Content := by
    have h' := congrArg LogLine.Content h
    exact h'
  have ho : a.OccurredAt = b.OccurredAt := by
    have h' := congrArg LogLine.OccurredAt h
    exact h'
  have hu : a.Username = b.Username := by
    have h' := congrArg LogLine.Username h
    exact h'
  have hd : a.Database = b.Database := by
    have h' := congrArg LogLine.Database h
    exact h'
  have happ : isApplicable a = isApplicable b := by
    unfold isApplicable
    rw [hc]
  cases hm : findStringSubmatch a.Content with
  | none =>
    rw [extractDuration_of_no_match parseFloat a s hm,
      extractDuration_of_no_match parseFloat b s (hc ▸ hm)]
  | some m =>
    obtain ⟨d, ctx, q⟩ := m
    rw [extractDuration_of_match parseFloat a s d ctx q hm,
      extractDuration_of_match parseFloat b s d ctx q (hc ▸ hm), happ, ho, hu, hd]
    split
    · split <;> rfl
    · rfl

theorem samplesOf_length {F : Type} (parseFloat : GoString → F) (o : LogLine) :
    (samplesOf parseFloat o).length ≤ 1 := by
  unfold samplesOf
  cases hm : findStringSubmatch o.Content with
  | none => rw [extractDuration_of_no_match parseFloat o [] hm]; simp
  | some m =>
    obtain ⟨d, ctx, q⟩ := m
    rw [extractDuration_of_match parseFloat o [] d ctx q hm]
    split
    · split <;> simp
    · simp

theorem samplesOf_of_not_applicable {F : Type} (parseFloat : GoString → F) (o : LogLine)
    (h : isApplicable o = false) : samplesOf parseFloat o = [] := by
  unfold samplesOf
  rw [extractDuration_of_not_applicable parseFloat o [] h]

theorem samplesOf_occurredAt {F : Type} (parseFloat : GoString → F) (o : LogLine) :
    ∀ sm ∈ samplesOf parseFloat o, sm.OccurredAt = o.OccurredAt := by
  unfold samplesOf
  cases hm : findStringSubmatch o.Content with
  | none => rw [extractDuration_of_no_match parseFloat o [] hm]; simp
  | some m =>
    obtain ⟨d, ctx, q⟩ := m
    rw [extractDuration_of_match parseFloat o [] d ctx q hm]
    split
    · split
      · intro sm hsm
        simp only [List.nil_append, List.mem_singleton] at hsm
        rw [hsm]
      · simp
    · simp

/-- The samples of the anchor are the samples of the top-level event made of
it. -/
theorem samplesOf_anchorOf {F : Type} (parseFloat : GoString → F) (l : LogLine)
    (future : List LogLine) :
    samplesOf parseFloat (anchorOf parseFloat l future)
      = (extractDuration parseFloat (attachFuture l 0 (future.take 2)).1 []).2 := by
  obtain ⟨_, _, _, e4⟩ := extractDuration_spec parseFloat
    (attachFuture l 0 (future.take 2)).1 ([] : List (PostgresQuerySample F))
  exact extractDuration_samples_core parseFloat _ _ [] e4

/-- The samples that the scan of a group adds are those of its top-level
events, in order. -/
theorem groupOutput_samples {F : Type} (parseFloat : GoString → F) (g : List LogLine)
    (k : Nat) :
    (groupOutput parseFloat k g).samples
      = (groupOutput parseFloat k g).result.flatMap (samplesOf parseFloat) := by
  induction g generalizing k with
  | nil => simp [groupOutput_nil]
  | cons l future ih =>
    cases k with
    | zero =>
      obtain ⟨_, h2, h3⟩ := groupOutput_cons_zero parseFloat l future
      rw [h3, h2, List.flatMap_cons, samplesOf_anchorOf, ih]
    | succ k =>
      rw [groupOutput_cons_succ]
      exact ih k

theorem chunkSamples_eq {F : Type} (parseFloat : GoString → F) (gs : List (List LogLine)) :
    chunkSamples parseFloat gs = (chunkResult parseFloat gs).flatMap (samplesOf parseFloat) := by
  induction gs with
  | nil => simp [chunkSamples, chunkResult]
  | cons g gs ih =>
    simp only [chunkSamples, chunkResult, List.flatMap_cons, List.flatMap_append] at ih ⊢
    rw [ih, groupOutput_samples]

/-- Skipping `k` lines at the start of a group is scanning the group without
its first `k` lines. -/
theorem groupOutput_drop {F : Type} (parseFloat : GoString → F) (g : List LogLine) (k : Nat)
    (hk : k ≤ g.length) : groupOutput parseFloat k g = groupOutput parseFloat 0 (g.drop k) := by
  induction g generalizing k with
  | nil =>
    have : k = 0 := by simpa using hk
    subst this
    rfl
  | cons l future ih =>
    cases k with
    | zero => rfl
    | succ k =>
      rw [groupOutput_cons_succ, List.drop_succ_cons]
      exact ih k (by simpa using hk)

theorem flatMap_length_le {α β : Type} (f : α → List β) (p : α → Bool) (l : List α)
    (h1 : ∀ x, (f x).length ≤ 1) (h2 : ∀ x, p x = false → f x = []) :
    (l.flatMap f).length ≤ (l.filter p).length := by
  induction l with
  | nil => simp
  | cons x xs ih =>
    rw [List.flatMap_cons, List.length_append, List.filter_cons]
    by_cases hp : p x = true
    · have := h1 x
      simp only [hp, if_true, List.length_cons]
      omega
    · have hp' : p x = false := by simpa using hp
      simp only [hp', h2 x hp', List.length_nil, Bool.false_eq_true, if_false]
      omega

/-! ## Properties of the samples -/

/-- C12: for a chunk whose read loop leaves the events `evs`, the samples that
the chunk adds are, in order, the samples of the top-level events that it adds;
an event yields at most one sample, and none when its Content does not begin
with `duration: ` or ends with the truncation marker; so the samples are at
most as many as the top-level events to which the extractor applies.  In a
group, the lines attached to an anchor are passed over and yield no sample. -/
theorem sample_applicability {F : Type} (parseTime : GoString → Option Time)
    (parseFloat : GoString → F) (linesNewerThan : Time)
    (rangeOrder : BackendMap → BackendMap)
    (reads : List (GoString × Bool)) (evs : List LogLine)
    (hparsed : parsedEvents parseTime reads = some evs)
    (result : List LogLine) (samples : List (PostgresQuerySample F)) :
    ∃ (out : List LogLine) (smp : List (PostgresQuerySample F)),
      processChunk parseTime parseFloat linesNewerThan rangeOrder reads result samples
        = some (result ++ out, samples ++ smp)
      ∧ smp = out.flatMap (samplesOf parseFloat)
      ∧ (∀ o : LogLine,
          (samplesOf parseFloat o).length ≤ 1
          ∧ (¬ "duration: ".toList <+: o.Content → samplesOf parseFloat o = [])
          ∧ (truncationMarker <:+ o.Content → samplesOf parseFloat o = [])
          ∧ (isApplicable o = true ↔
              ("duration: ".toList <+: o.Content ∧ ¬ truncationMarker <:+ o.Content)))
      ∧ smp.length ≤ (out.filter isApplicable).length
      ∧ (∀ (l : LogLine) (future : List LogLine),
          (groupOutput parseFloat 0 (l :: future)).samples
            = samplesOf parseFloat (anchorOf parseFloat l future)
              ++ (groupOutput parseFloat 0
                    (future.drop ((future.take 2).takeWhile isContextLine).length)).samples) := by
  have happ : ∀ o : LogLine, isApplicable o = true ↔
      ("duration: ".toList <+: o.Content ∧ ¬ truncationMarker <:+ o.Content) := by
    intro o
    unfold isApplicable
    rw [Bool.and_eq_true, hasPrefix_spec, Bool.not_eq_true', ← Bool.not_eq_true,
      hasSuffix_spec]
  have hnot : ∀ o : LogLine, isApplicable o = false → samplesOf parseFloat o = [] :=
    fun o h => samplesOf_of_not_applicable parseFloat o h
  refine ⟨_, _, processChunk_of_parsed parseTime parseFloat linesNewerThan rangeOrder reads
    evs hparsed result samples, chunkSamples_eq parseFloat _, ?_, ?_, ?_⟩
  · intro o
    refine ⟨samplesOf_length parseFloat o, ?_, ?_, happ o⟩
    · intro h
      apply hnot
      rw [← Bool.not_eq_true, happ]
      exact fun hh => h hh.1
    · intro h
      apply hnot
      rw [← Bool.not_eq_true, happ]
      exact fun hh => hh.2 h
  · rw [chunkSamples_eq]
    exact flatMap_length_le _ _ _ (samplesOf_length parseFloat) hnot
  · intro l future
    obtain ⟨_, _, h3⟩ := groupOutput_cons_zero parseFloat l future
    rw [h3, samplesOf_anchorOf,
      groupOutput_drop parseFloat future _ (attachedOf_length_le future).1]
    rfl

/-- C12 on the chunk made of the report
`duration: 12.345 ms  statement: SELECT 1`. -/
theorem sample_applicability_witness :
    parsedEvents parseTimestamp exampleDurationReads = some [exampleDuration]
    ∧ ∃ (out : List LogLine) (smp : List (PostgresQuerySample ℚ)),
      processChunk parseTimestamp parseDecimal 0 insertionOrder exampleDurationReads [] []
        = some ([] ++ out, [] ++ smp)
      ∧ smp = out.flatMap (samplesOf parseDecimal)
      ∧ (∀ o : LogLine,
          (samplesOf parseDecimal o).length ≤ 1
          ∧ (¬ "duration: ".toList <+: o.Content → samplesOf parseDecimal o = [])
          ∧ (truncationMarker <:+ o.Content → samplesOf parseDecimal o = [])
          ∧ (isApplicable o = true ↔
              ("duration: ".toList <+: o.Content ∧ ¬ truncationMarker <:+ o.Content)))
      ∧ smp.length ≤ (out.filter isApplicable).length
      ∧ (∀ (l : LogLine) (future : List LogLine),
          (groupOutput parseDecimal 0 (l :: future)).samples
            = samplesOf parseDecimal (anchorOf parseDecimal l future)
              ++ (groupOutput parseDecimal 0
                    (future.drop ((future.take 2).takeWhile isContextLine).length)).samples) :=
  ⟨rfl,
   sample_applicability parseTimestamp parseDecimal 0 insertionOrder exampleDurationReads
     [exampleDuration] rfl [] []⟩

/-! ## Lemmas on the query text of an anchor -/

theorem statementQuery_cons (q0 : GoString) (f : LogLine) (xs : List LogLine) :
    statementQuery q0 (f :: xs)
      = statementQuery (if isFullStatement f = true then f.Content else q0) xs := by
  unfold statementQuery
  by_cases hf : isFullStatement f = true
  · rw [List.filter_cons_of_pos hf, if_pos hf]
    cases hys : xs.filter isFullStatement with
    | nil => rfl
    | cons y ys =>
      rw [List.getLast?_cons_cons]
      cases hl : (y :: ys).getLast? with
      | none => simp at hl
      | some z => rfl
  · rw [List.filter_cons_of_neg hf, if_neg hf]

theorem isFullStatement_iff (f : LogLine) :
    (f.LogLevel = "STATEMENT".toList ∧ hasSuffix f.Content truncationMarker = false)
      ↔ isFullStatement f = true := by
  unfold isFullStatement
  rw [Bool.and_eq_true, decide_eq_true_eq, Bool.not_eq_true']

/-- The lookahead loop leaves in `Query` the Content of the last untruncated
STATEMENT line that it attaches. -/
theorem attachFuture_query (fs : List LogLine) (l : LogLine) (k : Nat) :
    (attachFuture l k fs).1.Query = statementQuery l.Query (fs.takeWhile isContextLine) := by
  induction fs generalizing l k with
  | nil => rfl
  | cons f rest ih =>
    by_cases hf : isContextLevel f.LogLevel = true
    · have hf' : isContextLine f = true := hf
      rw [List.takeWhile_cons_of_pos hf', statementQuery_cons]
      by_cases hs : isFullStatement f = true
      · have hcond := (isFullStatement_iff f).2 hs
        have hstep : attachFuture l k (f :: rest)
            = attachFuture { l with Query := f.Content,
                                    AdditionalLines := l.AdditionalLines ++ [f] }
                (k + 1) rest := by
          simp only [attachFuture, hf, if_true]
          rw [if_pos hcond]
        rw [hstep, ih, if_pos hs]
      · have hcond : ¬ (f.LogLevel = "STATEMENT".toList
            ∧ hasSuffix f.Content truncationMarker = false) :=
          fun h => hs ((isFullStatement_iff f).1 h)
        have hstep : attachFuture l k (f :: rest)
            = attachFuture { l with AdditionalLines := l.AdditionalLines ++ [f] }
                (k + 1) rest := by
          simp only [attachFuture, hf, if_true]
          rw [if_neg hcond]
        rw [hstep, ih, if_neg hs]
    · have hf' : ¬ isContextLine f = true := hf
      rw [List.takeWhile_cons_of_neg hf']
      simp only [attachFuture, hf, if_false, Bool.false_eq_true]
      rfl

theorem extractDuration_query {F : Type} (parseFloat : GoString → F) (a : LogLine)
    (s : List (PostgresQuerySample F)) :
    (extractDuration parseFloat a s).1.Query
      = match durationQuery a with
        | some q => q
        | none => a.Query := by
  unfold durationQuery
  cases hm : findStringSubmatch a.Content with
  | none =>
    rw [extractDuration_of_no_match parseFloat a s hm]
    have hn : (if isApplicable a = true
        then Option.map (fun m : GoString × GoString × GoString => m.2.2) none
        else none) = none := by
      split <;> rfl
    rw [hn]
  | some m =>
    obtain ⟨d, ctx, q⟩ := m
    rw [extractDuration_of_match parseFloat a s d ctx q hm]
    by_cases happ : isApplicable a = true
    · rw [if_pos happ, if_pos happ]
      by_cases hc : contains ctx "bind".toList = false ∧ contains ctx "parse".toList = false
      · rw [if_pos hc]
        rfl
      · rw [if_neg hc]
        rfl
    · rw [if_neg happ, if_neg happ]

/-! ## Properties of the query text -/

/-- C17 fails.  A duration report followed by an untruncated STATEMENT line of
Content `SELECT 2` gets that line attached, yet its Query is the query text
`SELECT 1` of its own Content; and an error report followed by two untruncated
STATEMENT lines gets both attached and its Query is the Content of the second,
not of the first. -/
theorem statement_query_overridden :
    ((anchorOf parseDecimal exampleDuration [exampleStatement "SELECT 2".toList]).AdditionalLines.map
        (fun f => (f.LogLevel, f.Content)) = [("STATEMENT".toList, "SELECT 2".toList)]
      ∧ hasSuffix "SELECT 2".toList truncationMarker = false
      ∧ (anchorOf parseDecimal exampleDuration [exampleStatement "SELECT 2".toList]).Query
          = "SELECT 1".toList
      ∧ (anchorOf parseDecimal exampleDuration [exampleStatement "SELECT 2".toList]).Query
          ≠ "SELECT 2".toList)
    ∧ ((anchorOf parseDecimal exampleError
          [exampleStatement "SELECT a".toList, exampleStatement "SELECT b".toList]).AdditionalLines.map
        (fun f => (f.LogLevel, f.Content))
          = [("STATEMENT".toList, "SELECT a".toList), ("STATEMENT".toList, "SELECT b".toList)]
      ∧ (anchorOf parseDecimal exampleError
          [exampleStatement "SELECT a".toList, exampleStatement "SELECT b".toList]).Query
          ≠ "SELECT a".toList) := by
  decide

/-- C17, as amended: the Query of a top-level event is the query text captured
by the duration pattern when the anchor's own Content begins with `duration: `,
does not end with the truncation marker and matches the pattern; otherwise it
is the Content of the last attached STATEMENT line whose Content does not end
with the truncation marker, and the Query of the anchor as parsed when no such
line is attached.  An attached STATEMENT line whose Content ends with the
marker never sets the Query. -/
theorem query_of_anchor {F : Type} (parseFloat : GoString → F) (l : LogLine)
    (future : List LogLine) :
    (anchorOf parseFloat l future).Query
      = match durationQuery l with
        | some q => q
        | none => statementQuery l.Query ((future.take 2).takeWhile isContextLine) := by
  obtain ⟨_, _, a3⟩ := attachFuture_spec (future.take 2) l 0
  have hc : (attachFuture l 0 (future.take 2)).1.Content = l.Content := by
    have h := congrArg LogLine.Content a3
    exact h
  have hdq : durationQuery (attachFuture l 0 (future.take 2)).1 = durationQuery l := by
    unfold durationQuery isApplicable
    rw [hc]
  unfold anchorOf
  rw [extractDuration_query, hdq, attachFuture_query]

/-! ## Properties of the skip counter -/

theorem scanGroup_cons {F : Type} (parseFloat : GoString → F) (st : ScanState F)
    (l : LogLine) (future : List LogLine) :
    scanGroup parseFloat st (l :: future)
      = scanGroup parseFloat (scanStep parseFloat st l future) future := by
  unfold scanStep
  by_cases h : st.skipLines > 0
  · simp only [scanGroup, h, if_true]
  · simp only [scanGroup, h, if_false]

theorem scanStep_skipLines {F : Type} (parseFloat : GoString → F) (st : ScanState F)
    (l : LogLine) (future : List LogLine) (h : st.skipLines ≤ future.length + 1) :
    (scanStep parseFloat st l future).skipLines ≤ future.length := by
  unfold scanStep
  by_cases hk : st.skipLines > 0
  · simp only [hk, if_true]
    omega
  · have h0 : st.skipLines = 0 := by omega
    simp only [hk, if_false]
    rw [h0, (attachFuture_spec (future.take 2) l 0).1, Nat.zero_add]
    exact (attachedOf_length_le future).1

theorem skipTrace_le {F : Type} (parseFloat : GoString → F) (g : List LogLine)
    (st : ScanState F) (h : st.skipLines ≤ g.length) :
    ∀ kn ∈ skipTrace parseFloat st g, kn.1 ≤ kn.2 := by
  induction g generalizing st with
  | nil =>
    intro kn hkn
    simp only [skipTrace, List.mem_singleton] at hkn
    rw [hkn]
    exact h
  | cons l future ih =>
    intro kn hkn
    simp only [skipTrace, List.mem_cons] at hkn
    rcases hkn with e | e
    · rw [e]
      exact h
    · exact ih _ (scanStep_skipLines parseFloat st l future h) kn e

theorem scanGroups_append {F : Type} (parseFloat : GoString → F) (pre post : List (List LogLine))
    (st : ScanState F) :
    scanGroups parseFloat st (pre ++ post)
      = scanGroups parseFloat (scanGroups parseFloat st pre) post := by
  induction pre generalizing st with
  | nil => rfl
  | cons g gs ih =>
    show scanGroups parseFloat (scanGroup parseFloat st g) (gs ++ post) = _
    rw [ih]
    rfl

theorem scanGroup_skipLines {F : Type} (parseFloat : GoString → F) (g : List LogLine)
    (st : ScanState F) (h : st.skipLines ≤ g.length) :
    (scanGroup parseFloat st g).skipLines = 0 := by
  obtain ⟨a1, _, _⟩ := scanGroup_acc parseFloat g st.skipLines st.result st.samples
  rw [a1]
  exact groupOutput_skipLines parseFloat g st.skipLines h

/-- C18: in the scan of the groups of a chunk, in whatever order `gs` they are
visited, the counter `skipLines` is 0 at the start and at the end of the scan of
every group and, at every iteration inside a group, at most the number of lines
of that group still to be visited; so a group yields the top-level events that
it yields when scanned alone from the counter 0, its first line being an anchor
that is never skipped. -/
theorem skip_counter_invariant {F : Type} (parseFloat : GoString → F)
    (gs : List (List LogLine)) (r : List LogLine) (s : List (PostgresQuerySample F)) :
    (scanGroups parseFloat { skipLines := 0, result := r, samples := s } gs).skipLines = 0
    ∧ (∀ pre g post, gs = pre ++ g :: post →
        (scanGroups parseFloat { skipLines := 0, result := r, samples := s } pre).skipLines = 0
        ∧ scanGroups parseFloat { skipLines := 0, result := r, samples := s } (pre ++ [g])
            = scanGroup parseFloat
                (scanGroups parseFloat { skipLines := 0, result := r, samples := s } pre) g
        ∧ (scanGroup parseFloat
            (scanGroups parseFloat { skipLines := 0, result := r, samples := s } pre)
            g).skipLines = 0
        ∧ ∀ kn ∈ skipTrace parseFloat
            (scanGroups parseFloat { skipLines := 0, result := r, samples := s } pre) g,
            kn.1 ≤ kn.2)
    ∧ (∀ (st : ScanState F) (l : LogLine) (future : List LogLine),
        scanGroup parseFloat st (l :: future)
          = scanGroup parseFloat (scanStep parseFloat st l future) future)
    ∧ (scanGroups parseFloat { skipLines := 0, result := r, samples := s } gs).result
        = r ++ gs.flatMap (fun g => (groupOutput parseFloat 0 g).result)
    ∧ (∀ (l : LogLine) (future : List LogLine),
        (groupOutput parseFloat 0 (l :: future)).result.head?
          = some (anchorOf parseFloat l future)) := by
  have hzero : ∀ pre : List (List LogLine),
      (scanGroups parseFloat { skipLines := 0, result := r, samples := s } pre).skipLines = 0 :=
    fun pre => (scanGroups_spec parseFloat pre r s).1
  refine ⟨hzero gs, ?_, scanGroup_cons parseFloat, (scanGroups_spec parseFloat gs r s).2.1, ?_⟩
  · intro pre g post _
    have h0 := hzero pre
    refine ⟨h0, ?_, ?_, ?_⟩
    · rw [scanGroups_append]
      rfl
    · exact scanGroup_skipLines parseFloat g _ (by rw [h0]; exact Nat.zero_le _)
    · exact skipTrace_le parseFloat g _ (by rw [h0]; exact Nat.zero_le _)
  · intro l future
    rw [(groupOutput_cons_zero parseFloat l future).2.1]
    rfl

/-! ## Lemmas on texts that are not decimal numbers -/

/-- The example reading of `strconv.ParseFloat` gives 0 on a token that is not
a decimal number. -/
theorem parseDecimal_of_invalid (t : GoString) (h : isDecimalNumber t = false) :
    parseDecimal t = 0 := by
  unfold isDecimalNumber at h
  unfold parseDecimal
  cases hdw : t.dropWhile isDigit with
  | nil =>
    simp only [hdw, Bool.not_eq_false'] at h
    simp only [h, if_true]
  | cons c fp =>
    simp only [hdw] at h
    have hnot : ¬ (c = '.' ∧ fp.all isDigit = true
        ∧ ¬ ((t.takeWhile isDigit).isEmpty = true ∧ fp.isEmpty = true)) := by
      rintro ⟨h1, h2, h3⟩
      have hd : decide (c = '.') = true := decide_eq_true h1
      rw [hd, h2] at h
      cases hA : (t.takeWhile isDigit).isEmpty with
      | false =>
        rw [hA] at h
        exact Bool.noConfusion h
      | true =>
        cases hB : fp.isEmpty with
        | false =>
          rw [hA, hB] at h
          exact Bool.noConfusion h
        | true => exact h3 ⟨hA, hB⟩
    simp only [hnot, if_false]

/-! ## Lemmas on the retrieval loops -/

theorem processChunks_append {F : Type} (parseTime : GoString → Option Time)
    (parseFloat : GoString → F) (linesNewerThan : Time)
    (rangeOrder : BackendMap → BackendMap) (a b : List (List (GoString × Bool)))
    (acc : List LogLine × List (PostgresQuerySample F)) :
    processChunks parseTime parseFloat linesNewerThan rangeOrder (a ++ b) acc
      = (processChunks parseTime parseFloat linesNewerThan rangeOrder a acc).bind
          (processChunks parseTime parseFloat linesNewerThan rangeOrder b) := by
  induction a generalizing acc with
  | nil => rfl
  | cons reads rest ih =>
    simp only [List.cons_append, processChunks]
    cases processChunk parseTime parseFloat linesNewerThan rangeOrder reads acc.1 acc.2 with
    | none => rfl
    | some acc' => exact ih acc'

/-- The loop over the chunks of a file processes the chunks that the file's
responses carry, and returns from the function exactly when a retrieval
fails. -/
theorem downloadFile_eq {F : Type} (parseTime : GoString → Option Time)
    (parseFloat : GoString → F) (linesNewerThan : Time)
    (rangeOrder : BackendMap → BackendMap) (f : ChunkStream)
    (acc : List LogLine × List (PostgresQuerySample F)) :
    downloadFile parseTime parseFloat linesNewerThan rangeOrder f acc
      = (processChunks parseTime parseFloat linesNewerThan rangeOrder f.chunks acc).map
          (fun a => (a, f.fails)) := by
  induction f generalizing acc with
  | failure => rfl
  | last reads =>
    simp only [downloadFile, ChunkStream.chunks, ChunkStream.fails, processChunks]
    cases processChunk parseTime parseFloat linesNewerThan rangeOrder reads acc.1 acc.2 with
    | none => rfl
    | some acc' => rfl
  | more reads next ih =>
    simp only [downloadFile, ChunkStream.chunks, ChunkStream.fails, processChunks]
    cases processChunk parseTime parseFloat linesNewerThan rangeOrder reads acc.1 acc.2 with
    | none => rfl
    | some acc' => exact ih acc'

/-- The loop over the files, at a file whose retrieval fails: the chunks of that
file before the failure are processed and the function returns. -/
theorem filesLoop_of_fails {F : Type} (parseTime : GoString → Option Time)
    (parseFloat : GoString → F) (linesNewerThan : Time)
    (rangeOrder : BackendMap → BackendMap) (f : ChunkStream) (post : List ChunkStream)
    (hf : f.fails = true) (acc : List LogLine × List (PostgresQuerySample F)) :
    filesLoop parseTime parseFloat linesNewerThan rangeOrder (f :: post) acc
      = processChunks parseTime parseFloat linesNewerThan rangeOrder f.chunks acc := by
  simp only [filesLoop, downloadFile_eq, hf]
  cases processChunks parseTime parseFloat linesNewerThan rangeOrder f.chunks acc with
  | none => rfl
  | some a => rfl

/-- The loop over the files, through files whose retrievals all succeed. -/
theorem filesLoop_of_complete {F : Type} (parseTime : GoString → Option Time)
    (parseFloat : GoString → F) (linesNewerThan : Time)
    (rangeOrder : BackendMap → BackendMap) (pre rest : List ChunkStream)
    (hpre : ∀ g ∈ pre, g.fails = false) (acc : List LogLine × List (PostgresQuerySample F)) :
    filesLoop parseTime parseFloat linesNewerThan rangeOrder (pre ++ rest) acc
      = (processChunks parseTime parseFloat linesNewerThan rangeOrder
          (pre.flatMap ChunkStream.chunks) acc).bind
          (filesLoop parseTime parseFloat linesNewerThan rangeOrder rest) := by
  induction pre generalizing acc with
  | nil => rfl
  | cons g gs ih =>
    have hg : g.fails = false := hpre g (by simp)
    have hgs : ∀ x ∈ gs, x.fails = false := fun x hx => hpre x (by simp [hx])
    rw [List.flatMap_cons, processChunks_append]
    simp only [List.cons_append, filesLoop, downloadFile_eq, hg]
    cases processChunks parseTime parseFloat linesNewerThan rangeOrder g.chunks acc with
    | none => rfl
    | some a => exact ih hgs a

/-! ## Properties of the retrieval loops -/

/-- C15 fails.  With a first file whose retrieval fails at once and a second
file of one chunk that holds three events in the window, `GetLogLines` returns
no event, while the second file alone gives two top-level events. -/
theorem later_files_not_processed :
    (GetLogLines parseTimestampNanos parseDecimal insertionOrder 1462104300000000000
        (some [ChunkStream.failure, ChunkStream.last exampleReads])).map
        (fun x => (x.1.length, x.2.length)) = some (0, 0)
    ∧ (GetLogLines parseTimestampNanos parseDecimal insertionOrder 1462104300000000000
        (some [ChunkStream.last exampleReads])).map
        (fun x => x.1.map (fun e => (e.BackendPid, e.AdditionalLines.length)))
          = some [(12, 1), (13, 0)] := by
  decide

/-- C15, as amended: a retrieval failure ends `GetLogLines`.  When the retrieval
of a chunk of the file `f` fails, the retrievals of the files before it having
all succeeded, neither the rest of `f` nor any later file is processed: the
result is the same whatever files follow `f`, and it is the result of the
processing of the chunks retrieved before the failure. -/
theorem failure_ends_collection {F : Type} (parseTime : GoString → Option Time)
    (parseFloat : GoString → F) (rangeOrder : BackendMap → BackendMap) (now : Time)
    (pre : List ChunkStream) (f : ChunkStream) (post : List ChunkStream)
    (hpre : ∀ g ∈ pre, g.fails = false) (hf : f.fails = true) :
    GetLogLines parseTime parseFloat rangeOrder now (some (pre ++ f :: post))
      = GetLogLines parseTime parseFloat rangeOrder now (some (pre ++ [f]))
    ∧ GetLogLines parseTime parseFloat rangeOrder now (some (pre ++ [f]))
      = (processChunks parseTime parseFloat (linesNewerThanAt now) rangeOrder
          (pre.flatMap ChunkStream.chunks) ([], [])).bind
          (processChunks parseTime parseFloat (linesNewerThanAt now) rangeOrder f.chunks) := by
  have key : ∀ rest : List ChunkStream,
      GetLogLines parseTime parseFloat rangeOrder now (some (pre ++ f :: rest))
        = (processChunks parseTime parseFloat (linesNewerThanAt now) rangeOrder
            (pre.flatMap ChunkStream.chunks) ([], [])).bind
            (processChunks parseTime parseFloat (linesNewerThanAt now) rangeOrder f.chunks) := by
    intro rest
    unfold GetLogLines
    simp only
    rw [filesLoop_of_complete parseTime parseFloat _ rangeOrder pre (f :: rest) hpre]
    congr 1
    funext acc
    exact filesLoop_of_fails parseTime parseFloat _ rangeOrder f rest hf acc
  exact ⟨(key post).trans (key []).symm, key []⟩

/-- C15 as amended, on a first file of one chunk, a second file whose second
retrieval fails, and a third file. -/
theorem failure_ends_collection_witness :
    ((∀ g ∈ [ChunkStream.last exampleReads], g.fails = false)
      ∧ (ChunkStream.more exampleDurationReads ChunkStream.failure).fails = true)
    ∧ (GetLogLines parseTimestampNanos parseDecimal insertionOrder 1462104300000000000
        (some ([ChunkStream.last exampleReads]
          ++ ChunkStream.more exampleDurationReads ChunkStream.failure
            :: [ChunkStream.last exampleReads]))
      = GetLogLines parseTimestampNanos parseDecimal insertionOrder 1462104300000000000
        (some ([ChunkStream.last exampleReads]
          ++ [ChunkStream.more exampleDurationReads ChunkStream.failure]))
      ∧ GetLogLines parseTimestampNanos parseDecimal insertionOrder 1462104300000000000
        (some ([ChunkStream.last exampleReads]
          ++ [ChunkStream.more exampleDurationReads ChunkStream.failure]))
        = (processChunks parseTimestampNanos parseDecimal
            (linesNewerThanAt 1462104300000000000) insertionOrder
            ([ChunkStream.last exampleReads].flatMap ChunkStream.chunks) ([], [])).bind
            (processChunks parseTimestampNanos parseDecimal
              (linesNewerThanAt 1462104300000000000) insertionOrder
              (ChunkStream.more exampleDurationReads ChunkStream.failure).chunks)) :=
  ⟨⟨by decide, by decide⟩,
   failure_ends_collection parseTimestampNanos parseDecimal insertionOrder
     1462104300000000000 [ChunkStream.last exampleReads]
     (ChunkStream.more exampleDurationReads ChunkStream.failure)
     [ChunkStream.last exampleReads] (by decide) (by decide)⟩

/-! ## Lemmas on the time window -/

theorem groupByBackend_filter (linesNewerThan : Time) (evs : List LogLine) (m : BackendMap) :
    groupByBackend linesNewerThan m (evs.filter (inWindow linesNewerThan))
      = groupByBackend linesNewerThan m evs := by
  induction evs generalizing m with
  | nil => rfl
  | cons e rest ih =>
    by_cases hw : e.OccurredAt < linesNewerThan
    · have hin : inWindow linesNewerThan e = false := by simp [inWindow, hw]
      rw [List.filter_cons, hin]
      simp only [Bool.false_eq_true, if_false, groupByBackend, hw, if_true]
      exact ih m
    · have hin : inWindow linesNewerThan e = true := by simp [inWindow, hw]
      rw [List.filter_cons, hin]
      simp only [if_true, groupByBackend, hw, if_false]
      exact ih _

theorem inWindow_iff (linesNewerThan : Time) (e : LogLine) :
    inWindow linesNewerThan e = true ↔ linesNewerThan ≤ e.OccurredAt := by
  simp [inWindow]

theorem inWindow_of_core (linesNewerThan : Time) (a b : LogLine) (h : a.core = b.core) :
    inWindow linesNewerThan a = inWindow linesNewerThan b := by
  have ho : a.OccurredAt = b.OccurredAt := by
    have h' := congrArg LogLine.OccurredAt h
    exact h'
  unfold inWindow
  rw [ho]

theorem processChunk_some {F : Type} (parseTime : GoString → Option Time)
    (parseFloat : GoString → F) (linesNewerThan : Time)
    (rangeOrder : BackendMap → BackendMap) (reads : List (GoString × Bool))
    (result : List LogLine) (samples : List (PostgresQuerySample F))
    (x : List LogLine × List (PostgresQuerySample F))
    (h : processChunk parseTime parseFloat linesNewerThan rangeOrder reads result samples
      = some x) :
    ∃ evs, parsedEvents parseTime reads = some evs
      ∧ x = (result ++ chunkResult parseFloat
                ((rangeOrder (groupByBackend linesNewerThan [] evs)).map Prod.snd),
             samples ++ chunkSamples parseFloat
                ((rangeOrder (groupByBackend linesNewerThan [] evs)).map Prod.snd)) := by
  cases hp : parseReads parseTime ParseState.init reads with
  | none => simp [processChunk, hp] at h
  | some st =>
    have hparsed : parsedEvents parseTime reads = some st.logLines := by
      simp [parsedEvents, hp]
    refine ⟨st.logLines, hparsed, ?_⟩
    rw [processChunk_of_parsed parseTime parseFloat linesNewerThan rangeOrder reads
      st.logLines hparsed result samples] at h
    exact (Option.some.inj h).symm

/-- Every top-level event that a chunk adds, and every line attached to it,
passes the time-window test. -/
theorem chunkResult_inWindow {F : Type} (parseTime : GoString → Option Time)
    (parseFloat : GoString → F) (linesNewerThan : Time)
    (rangeOrder : BackendMap → BackendMap) (hperm : ∀ m, (rangeOrder m).Perm m)
    (reads : List (GoString × Bool)) (evs : List LogLine)
    (hparsed : parsedEvents parseTime reads = some evs) :
    ∀ o ∈ chunkResult parseFloat
        ((rangeOrder (groupByBackend linesNewerThan [] evs)).map Prod.snd),
      inWindow linesNewerThan o = true
      ∧ ∀ a ∈ o.AdditionalLines, inWindow linesNewerThan a = true := by
  intro o ho
  have hp := hperm (groupByBackend linesNewerThan [] evs)
  have hadd := parsedEvents_additional parseTime reads evs hparsed
  simp only [chunkResult, List.mem_flatMap, List.mem_map] at ho
  obtain ⟨g, ⟨kg, hkg, rfl⟩, hog⟩ := ho
  obtain ⟨pre, l, post, h1, h2⟩ := groupOutput_anchor parseFloat kg.2 0 o hog
  have hentry := groupByBackend_entry linesNewerThan evs kg (hp.mem_iff.1 hkg)
  have hmem : ∀ e ∈ kg.2, inWindow linesNewerThan e = true ∧ e ∈ evs := by
    intro e he
    rw [hentry] at he
    simp only [List.mem_filter] at he
    exact ⟨he.1.2, he.1.1⟩
  have hl : l ∈ kg.2 := by rw [h1]; simp
  obtain ⟨c1, c2⟩ := anchorOf_spec parseFloat l post
  constructor
  · rw [h2, inWindow_of_core linesNewerThan _ l c1]
    exact (hmem l hl).1
  · intro a ha
    rw [h2, c2, hadd l (hmem l hl).2, List.nil_append] at ha
    have h3 : a ∈ post :=
      (List.take_subset 2 post) ((List.takeWhile_prefix isContextLine).subset ha)
    exact (hmem a (by rw [h1]; simp [h3])).1

/-- The window invariant of the accumulated results is kept by the processing
of a chunk. -/
theorem processChunk_window {F : Type} (parseTime : GoString → Option Time)
    (parseFloat : GoString → F) (linesNewerThan : Time)
    (rangeOrder : BackendMap → BackendMap) (hperm : ∀ m, (rangeOrder m).Perm m)
    (reads : List (GoString × Bool))
    (acc x : List LogLine × List (PostgresQuerySample F))
    (hacc : (∀ o ∈ acc.1, inWindow linesNewerThan o = true
              ∧ ∀ a ∈ o.AdditionalLines, inWindow linesNewerThan a = true)
            ∧ ∀ sm ∈ acc.2, linesNewerThan ≤ sm.OccurredAt)
    (h : processChunk parseTime parseFloat linesNewerThan rangeOrder reads acc.1 acc.2
      = some x) :
    (∀ o ∈ x.1, inWindow linesNewerThan o = true
        ∧ ∀ a ∈ o.AdditionalLines, inWindow linesNewerThan a = true)
    ∧ ∀ sm ∈ x.2, linesNewerThan ≤ sm.OccurredAt := by
  obtain ⟨evs, hparsed, hx⟩ := processChunk_some parseTime parseFloat linesNewerThan
    rangeOrder reads acc.1 acc.2 x h
  have hout := chunkResult_inWindow parseTime parseFloat linesNewerThan rangeOrder hperm
    reads evs hparsed
  rw [hx]
  constructor
  · intro o ho
    rcases List.mem_append.1 ho with h1 | h1
    · exact hacc.1 o h1
    · exact hout o h1
  · intro sm hsm
    rcases List.mem_append.1 hsm with h1 | h1
    · exact hacc.2 sm h1
    · rw [chunkSamples_eq, List.mem_flatMap] at h1
      obtain ⟨o, ho, hso⟩ := h1
      rw [samplesOf_occurredAt parseFloat o sm hso]
      exact (inWindow_iff linesNewerThan o).1 (hout o ho).1

theorem downloadFile_window {F : Type} (parseTime : GoString → Option Time)
    (parseFloat : GoString → F) (linesNewerThan : Time)
    (rangeOrder : BackendMap → BackendMap) (hperm : ∀ m, (rangeOrder m).Perm m)
    (f : ChunkStream) (acc x : List LogLine × List (PostgresQuerySample F)) (b : Bool)
    (hacc : (∀ o ∈ acc.1, inWindow linesNewerThan o = true
              ∧ ∀ a ∈ o.AdditionalLines, inWindow linesNewerThan a = true)
            ∧ ∀ sm ∈ acc.2, linesNewerThan ≤ sm.OccurredAt)
    (h : downloadFile parseTime parseFloat linesNewerThan rangeOrder f acc = some (x, b)) :
    (∀ o ∈ x.1, inWindow linesNewerThan o = true
        ∧ ∀ a ∈ o.AdditionalLines, inWindow linesNewerThan a = true)
    ∧ ∀ sm ∈ x.2, linesNewerThan ≤ sm.OccurredAt := by
  induction f generalizing acc with
  | failure =>
    simp only [downloadFile, Option.some.injEq, Prod.mk.injEq] at h
    rw [← h.1]
    exact hacc
  | last reads =>
    simp only [downloadFile] at h
    cases hp : processChunk parseTime parseFloat linesNewerThan rangeOrder reads acc.1 acc.2 with
    | none => simp [hp] at h
    | some acc' =>
      simp only [hp, Option.some.injEq, Prod.mk.injEq] at h
      rw [← h.1]
      exact processChunk_window parseTime parseFloat linesNewerThan rangeOrder hperm reads
        acc acc' hacc hp
  | more reads next ih =>
    simp only [downloadFile] at h
    cases hp : processChunk parseTime parseFloat linesNewerThan rangeOrder reads acc.1 acc.2 with
    | none => simp [hp] at h
    | some acc' =>
      simp only [hp] at h
      exact ih acc' (processChunk_window parseTime parseFloat linesNewerThan rangeOrder hperm
        reads acc acc' hacc hp) h

theorem filesLoop_window {F : Type} (parseTime : GoString → Option Time)
    (parseFloat : GoString → F) (linesNewerThan : Time)
    (rangeOrder : BackendMap → BackendMap) (hperm : ∀ m, (rangeOrder m).Perm m)
    (files : List ChunkStream) (acc x : List LogLine × List (PostgresQuerySample F))
    (hacc : (∀ o ∈ acc.1, inWindow linesNewerThan o = true
              ∧ ∀ a ∈ o.AdditionalLines, inWindow linesNewerThan a = true)
            ∧ ∀ sm ∈ acc.2, linesNewerThan ≤ sm.OccurredAt)
    (h : filesLoop parseTime parseFloat linesNewerThan rangeOrder files acc = some x) :
    (∀ o ∈ x.1, inWindow linesNewerThan o = true
        ∧ ∀ a ∈ o.AdditionalLines, inWindow linesNewerThan a = true)
    ∧ ∀ sm ∈ x.2, linesNewerThan ≤ sm.OccurredAt := by
  induction files generalizing acc with
  | nil =>
    simp only [filesLoop, Option.some.injEq] at h
    rw [← h]
    exact hacc
  | cons f fs ih =>
    simp only [filesLoop] at h
    cases hd : downloadFile parseTime parseFloat linesNewerThan rangeOrder f acc with
    | none => simp [hd] at h
    | some r =>
      obtain ⟨acc', b⟩ := r
      have hw := downloadFile_window parseTime parseFloat linesNewerThan rangeOrder hperm f
        acc acc' b hacc hd
      cases b with
      | true =>
        simp only [hd, Option.some.injEq] at h
        rw [← h]
        exact hw
      | false =>
        simp only [hd] at h
        exact ih acc' hw h

/-! ## Lemmas on the text before the first event -/

theorem parseReads_append (parseTime : GoString → Option Time)
    (a b : List (GoString × Bool)) (st : ParseState) :
    parseReads parseTime st (a ++ b)
      = (parseReads parseTime st a).bind (fun st' => parseReads parseTime st' b) := by
  induction a generalizing st with
  | nil => rfl
  | cons rd rest ih =>
    obtain ⟨line, isPrefix⟩ := rd
    simp only [List.cons_append, parseReads]
    cases processLine parseTime st line isPrefix with
    | none => rfl
    | some st' => exact ih st'

theorem parsePrefix_nil_of_fails (parseTime : GoString → Option Time) (line : GoString)
    (h : failsPrefixTest parseTime line = true) : parsePrefix parseTime [] line = some [] := by
  unfold failsPrefixTest at h
  unfold parsePrefix
  split
  · rename_i p0 p1 p2 p3 p4 p5 p6 p7 heq
    rw [heq] at h
    simp only [Option.isNone_iff_eq_none] at h
    rw [h]
    rfl
  · rfl

theorem fails_of_parsePrefix_nil (parseTime : GoString → Option Time) (line : GoString)
    (h : parsePrefix parseTime [] line = some []) : failsPrefixTest parseTime line = true := by
  unfold parsePrefix at h
  unfold failsPrefixTest
  split
  · rename_i p0 p1 p2 p3 p4 p5 p6 p7 heq
    rw [heq] at h
    simp only at h
    cases ht : parseTime (p0 ++ [':'] ++ p1 ++ [':'] ++ p2) with
    | none => rfl
    | some ts =>
      rw [ht] at h
      simp only at h
      cases hs : stripEnds p5 with
      | none => simp [hs] at h
      | some pid => simp [hs] at h
  · rfl

/-- A line that fails the prefix test, or any read met with the flag
`incompleteLine` set, leaves an empty list of events empty. -/
theorem processLine_nil (parseTime : GoString → Option Time) (line : GoString)
    (isPrefix inc : Bool) (h : inc = true ∨ failsPrefixTest parseTime line = true) :
    processLine parseTime { logLines := [], incompleteLine := inc } line isPrefix
      = some { logLines := [], incompleteLine := isPrefix } := by
  cases inc with
  | true => rfl
  | false =>
    have hf : failsPrefixTest parseTime line = true := by
      rcases h with h | h
      · exact Bool.noConfusion h
      · exact h
    simp only [processLine, Bool.false_eq_true, if_false, parsePrefix_nil_of_fails parseTime line hf]

theorem parseReads_of_leavesNoEvent (parseTime : GoString → Option Time)
    (pre : List (GoString × Bool)) (inc : Bool)
    (h : leavesNoEvent parseTime inc pre = true) :
    parseReads parseTime { logLines := [], incompleteLine := inc } pre
      = some { logLines := [], incompleteLine := endFlag inc pre } := by
  induction pre generalizing inc with
  | nil => rfl
  | cons rd rest ih =>
    obtain ⟨line, isPrefix⟩ := rd
    simp only [leavesNoEvent, Bool.and_eq_true, Bool.or_eq_true] at h
    simp only [parseReads, processLine_nil parseTime line isPrefix inc h.1, endFlag]
    exact ih isPrefix h.2

theorem appendToLast_length (evs : List LogLine) (line : GoString) :
    (appendToLast evs line).length = evs.length := by
  rcases List.eq_nil_or_concat evs with rfl | ⟨xs, x, rfl⟩
  · rfl
  · rw [List.concat_eq_append, appendToLast_concat]
    simp

theorem processLine_length (parseTime : GoString → Option Time) (st st' : ParseState)
    (line : GoString) (isPrefix : Bool)
    (h : processLine parseTime st line isPrefix = some st') :
    st.logLines.length ≤ st'.logLines.length := by
  unfold processLine at h
  split at h
  · simp only [Option.some.injEq] at h
    rw [← h]
    simp [appendToLast_length]
  · cases hpp : parsePrefix parseTime st.logLines line with
    | none => simp [hpp] at h
    | some ls =>
      simp only [hpp, Option.some.injEq] at h
      rw [← h]
      unfold parsePrefix at hpp
      split at hpp
      · split at hpp
        · simp only [Option.some.injEq] at hpp
          rw [← hpp]
          simp [appendToLast_length]
        · split at hpp
          · simp at hpp
          · simp only [Option.some.injEq] at hpp
            rw [← hpp]
            simp
      · simp only [Option.some.injEq] at hpp
        rw [← hpp]
        simp [appendToLast_length]

theorem parseReads_length (parseTime : GoString → Option Time)
    (reads : List (GoString × Bool)) (st st' : ParseState)
    (h : parseReads parseTime st reads = some st') :
    st.logLines.length ≤ st'.logLines.length := by
  induction reads generalizing st with
  | nil =>
    simp only [parseReads, Option.some.injEq] at h
    rw [h]
  | cons rd rest ih =>
    obtain ⟨line, isPrefix⟩ := rd
    simp only [parseReads] at h
    cases hpl : processLine parseTime st line isPrefix with
    | none => simp [hpl] at h
    | some st1 =>
      simp only [hpl] at h
      exact le_trans (processLine_length parseTime st st1 line isPrefix hpl) (ih st1 h)

/-- Reads over which the read loop does not panic and leaves no event are
continuations of fragments and lines that fail the prefix test. -/
theorem leavesNoEvent_of_parseReads (parseTime : GoString → Option Time)
    (pre : List (GoString × Bool)) (inc0 inc : Bool)
    (h : parseReads parseTime { logLines := [], incompleteLine := inc0 } pre
      = some { logLines := [], incompleteLine := inc }) :
    leavesNoEvent parseTime inc0 pre = true ∧ endFlag inc0 pre = inc := by
  induction pre generalizing inc0 with
  | nil =>
    simp only [parseReads, Option.some.injEq, ParseState.mk.injEq, true_and] at h
    exact ⟨rfl, h⟩
  | cons rd rest ih =>
    obtain ⟨line, isPrefix⟩ := rd
    simp only [parseReads] at h
    cases hpl : processLine parseTime { logLines := [], incompleteLine := inc0 } line isPrefix with
    | none => simp [hpl] at h
    | some st1 =>
      simp only [hpl] at h
      have hlen := parseReads_length parseTime rest st1 _ h
      have hnil : st1.logLines = [] := List.length_eq_zero.1 (Nat.le_zero.1 hlen)
      have hfirst : inc0 = true ∨ failsPrefixTest parseTime line = true := by
        cases inc0 with
        | true => exact Or.inl rfl
        | false =>
          right
          apply fails_of_parsePrefix_nil
          simp only [processLine, Bool.false_eq_true, if_false] at hpl
          cases hpp : parsePrefix parseTime [] line with
          | none => simp [hpp] at hpl
          | some ls =>
            simp only [hpp, Option.some.injEq] at hpl
            rw [← hpl] at hnil
            simp only at hnil
            rw [hnil]
      rw [processLine_nil parseTime line isPrefix inc0 hfirst] at hpl
      simp only [Option.some.injEq] at hpl
      rw [← hpl] at h
      obtain ⟨h1, h2⟩ := ih isPrefix h
      refine ⟨?_, h2⟩
      simp only [leavesNoEvent, Bool.and_eq_true, Bool.or_eq_true]
      exact ⟨hfirst, h1⟩

/-! ## Properties of the text before the first event -/

theorem processChunk_congr {F : Type} (parseTime : GoString → Option Time)
    (parseFloat : GoString → F) (linesNewerThan : Time)
    (rangeOrder : BackendMap → BackendMap) (a b : List (GoString × Bool))
    (h : parsedEvents parseTime a = parsedEvents parseTime b)
    (result : List LogLine) (samples : List (PostgresQuerySample F)) :
    processChunk parseTime parseFloat linesNewerThan rangeOrder a result samples
      = processChunk parseTime parseFloat linesNewerThan rangeOrder b result samples := by
  unfold parsedEvents at h
  unfold processChunk
  cases ha : parseReads parseTime ParseState.init a with
  | none =>
    cases hb : parseReads parseTime ParseState.init b with
    | none => rfl
    | some sb => simp [ha, hb] at h
  | some sa =>
    cases hb : parseReads parseTime ParseState.init b with
    | none => simp [ha, hb] at h
    | some sb =>
      simp only [ha, hb, Option.map_some', Option.some.injEq] at h
      simp only [h]

/-- C19: a read met while no event has been parsed in the chunk, be it the
continuation of a fragment or a line that fails the prefix test, leaves the
list of events empty; and when the reads `pre` at the head of a chunk are all
of this kind and end a physical line (or are the whole chunk), the read loop
leaves the same events, and the processing of the chunk gives the same output,
as on the chunk without `pre`, so the text of `pre` is in no output event.  The
reads that precede the first successfully parsed line of a chunk are of this
kind. -/
theorem leading_text_discarded {F : Type} (parseTime : GoString → Option Time)
    (parseFloat : GoString → F) (linesNewerThan : Time)
    (rangeOrder : BackendMap → BackendMap) (pre rest : List (GoString × Bool))
    (hpre : leavesNoEvent parseTime false pre = true)
    (hend : endFlag false pre = false ∨ rest = [])
    (result : List LogLine) (samples : List (PostgresQuerySample F)) :
    parseReads parseTime ParseState.init pre
        = some { logLines := [], incompleteLine := endFlag false pre }
    ∧ parsedEvents parseTime (pre ++ rest) = parsedEvents parseTime rest
    ∧ processChunk parseTime parseFloat linesNewerThan rangeOrder (pre ++ rest) result samples
        = processChunk parseTime parseFloat linesNewerThan rangeOrder rest result samples
    ∧ (endFlag false pre = false →
        parseReads parseTime ParseState.init (pre ++ rest)
          = parseReads parseTime ParseState.init rest)
    ∧ (∀ (line : GoString) (isPrefix inc : Bool),
        (inc = true ∨ failsPrefixTest parseTime line = true) →
        processLine parseTime { logLines := [], incompleteLine := inc } line isPrefix
          = some { logLines := [], incompleteLine := isPrefix })
    ∧ (∀ (pre' : List (GoString × Bool)) (inc : Bool),
        parseReads parseTime ParseState.init pre'
          = some { logLines := [], incompleteLine := inc } →
        leavesNoEvent parseTime false pre' = true ∧ endFlag false pre' = inc) := by
  have h1 : parseReads parseTime ParseState.init pre
      = some { logLines := [], incompleteLine := endFlag false pre } :=
    parseReads_of_leavesNoEvent parseTime pre false hpre
  have h2 : endFlag false pre = false →
      parseReads parseTime ParseState.init (pre ++ rest)
        = parseReads parseTime ParseState.init rest := by
    intro he
    rw [parseReads_append, h1, he]
    rfl
  have h3 : parsedEvents parseTime (pre ++ rest) = parsedEvents parseTime rest := by
    rcases hend with he | he
    · unfold parsedEvents
      rw [h2 he]
    · subst he
      unfold parsedEvents
      rw [List.append_nil, h1]
      rfl
  refine ⟨h1, h3, ?_, h2, processLine_nil parseTime, ?_⟩
  · exact processChunk_congr parseTime parseFloat linesNewerThan rangeOrder _ _ h3 result
      samples
  · intro pre' inc h
    exact leavesNoEvent_of_parseReads parseTime pre' false inc h

/-- C19 on the example chunk preceded by a line without prefix and by a
fragment cut inside the prefix with its remainder. -/
theorem leading_text_discarded_witness :
    (leavesNoEvent parseTimestamp false exampleLeadingReads = true
      ∧ (endFlag false exampleLeadingReads = false ∨ exampleReads = []))
    ∧ (parseReads parseTimestamp ParseState.init exampleLeadingReads
        = some { logLines := [], incompleteLine := endFlag false exampleLeadingReads }
      ∧ parsedEvents parseTimestamp (exampleLeadingReads ++ exampleReads)
          = parsedEvents parseTimestamp exampleReads
      ∧ processChunk parseTimestamp parseDecimal 0 insertionOrder
            (exampleLeadingReads ++ exampleReads) [] []
          = processChunk parseTimestamp parseDecimal 0 insertionOrder exampleReads [] []
      ∧ (endFlag false exampleLeadingReads = false →
          parseReads parseTimestamp ParseState.init (exampleLeadingReads ++ exampleReads)
            = parseReads parseTimestamp ParseState.init exampleReads)
      ∧ (∀ (line : GoString) (isPrefix inc : Bool),
          (inc = true ∨ failsPrefixTest parseTimestamp line = true) →
          processLine parseTimestamp { logLines := [], incompleteLine := inc } line isPrefix
            = some { logLines := [], incompleteLine := isPrefix })
      ∧ (∀ (pre' : List (GoString × Bool)) (inc : Bool),
          parseReads parseTimestamp ParseState.init pre'
            = some { logLines := [], incompleteLine := inc } →
          leavesNoEvent parseTimestamp false pre' = true ∧ endFlag false pre' = inc)) :=
  ⟨⟨by decide, Or.inl (by decide)⟩,
   leading_text_discarded parseTimestamp parseDecimal 0 insertionOrder exampleLeadingReads
     exampleReads (by decide) (Or.inl (by decide)) [] []⟩

/-! ## Lemmas on the conversion `strconv.ParseFloat` -/

theorem bitLen_spec (fuel n : Nat) (h : n ≤ fuel) (hn : n ≠ 0) :
    2 ^ (bitLen fuel n - 1) ≤ n ∧ n < 2 ^ bitLen fuel n ∧ 1 ≤ bitLen fuel n := by
  induction fuel generalizing n with
  | zero => omega
  | succ fuel ih =>
    simp only [bitLen, hn, if_false]
    by_cases h2 : n / 2 = 0
    · have : n = 1 := by omega
      subst this
      cases fuel <;> simp [bitLen]
    · obtain ⟨a, b, c⟩ := ih (n / 2) (by omega) h2
      refine ⟨?_, ?_, by omega⟩
      · have e : bitLen fuel (n / 2) + 1 - 1 = (bitLen fuel (n / 2) - 1) + 1 := by omega
        rw [e, pow_succ]
        omega
      · rw [pow_succ]
        omega

theorem bitLength_spec (n : Nat) (hn : n ≠ 0) :
    2 ^ (bitLength n - 1) ≤ n ∧ n < 2 ^ bitLength n ∧ 1 ≤ bitLength n :=
  bitLen_spec n n (Nat.le_refl n) hn

theorem scaleBy_spec (n d : Nat) (e : Int) (hd : 0 < d) :
    0 < (scaleBy n d e).2
    ∧ ((scaleBy n d e).1 : ℚ) / ((scaleBy n d e).2 : ℚ) = (n : ℚ) / d / 2 ^ e := by
  unfold scaleBy
  by_cases he : 0 ≤ e
  · simp only [he, if_true]
    refine ⟨by positivity, ?_⟩
    obtain ⟨k, rfl⟩ := Int.eq_ofNat_of_zero_le he
    simp only [Int.toNat_ofNat, Nat.cast_mul, Nat.cast_pow, Nat.cast_ofNat, zpow_natCast]
    rw [div_div]
  · simp only [he, if_false]
    refine ⟨hd, ?_⟩
    obtain ⟨k, hk⟩ := Int.eq_ofNat_of_zero_le (show 0 ≤ -e by omega)
    have he' : e = -(k : Int) := by omega
    subst he'
    simp only [neg_neg, Int.toNat_ofNat, Nat.cast_mul, Nat.cast_pow, Nat.cast_ofNat, zpow_neg,
      zpow_natCast]
    field_simp


theorem roundHalfEven_spec (num den : Nat) (hden : 0 < den) :
    num / den ≤ roundHalfEven num den ∧ roundHalfEven num den ≤ num / den + 1
    ∧ (∀ k : Int, |(roundHalfEven num den : ℚ) - (num : ℚ) / den| ≤ |(k : ℚ) - (num : ℚ) / den|)
    ∧ (2 * |(roundHalfEven num den : ℚ) - (num : ℚ) / den| = 1 → roundHalfEven num den % 2 = 0) := by
  have hdq : (0 : ℚ) < den := by exact_mod_cast hden
  have hdm := Nat.div_add_mod num den
  have hlt := Nat.mod_lt num hden
  have hx : (num : ℚ) / den = (num / den : Nat) + ((num % den : Nat) : ℚ) / den := by
    field_simp
    have : ((den * (num / den) + num % den : Nat) : ℚ) = num := by rw [hdm]
    push_cast at this
    linarith
  have hf0 : (0 : ℚ) ≤ ((num % den : Nat) : ℚ) / den := by positivity
  have hf1 : ((num % den : Nat) : ℚ) / den < 1 := by
    rw [div_lt_one hdq]
    exact_mod_cast hlt
  have hcase : (roundHalfEven num den = num / den ∧ 2 * (((num % den : Nat) : ℚ) / den) ≤ 1
        ∧ (2 * (((num % den : Nat) : ℚ) / den) = 1 → (num / den) % 2 = 0))
      ∨ (roundHalfEven num den = num / den + 1 ∧ 1 ≤ 2 * (((num % den : Nat) : ℚ) / den)
        ∧ (2 * (((num % den : Nat) : ℚ) / den) = 1 → (num / den + 1) % 2 = 0)) := by
    unfold roundHalfEven
    by_cases h1 : 2 * (num % den) < den
    · left
      have h1q : (2 : ℚ) * ((num % den : Nat) : ℚ) < den := by exact_mod_cast h1
      have hlt2 : 2 * (((num % den : Nat) : ℚ) / den) < 1 := by
        rw [← mul_div_assoc, div_lt_one hdq]
        exact h1q
      refine ⟨by rw [if_pos h1], le_of_lt hlt2, fun h => absurd h (ne_of_lt hlt2)⟩
    · by_cases h2 : 2 * (num % den) = den
      · have h2q : (2 : ℚ) * ((num % den : Nat) : ℚ) = den := by exact_mod_cast h2
        have heq : 2 * (((num % den : Nat) : ℚ) / den) = 1 := by
          rw [← mul_div_assoc, h2q, div_self (ne_of_gt hdq)]
        by_cases h3 : (num / den) % 2 = 0
        · left
          refine ⟨by rw [if_neg h1, if_pos h2, if_pos h3], le_of_eq heq, fun _ => h3⟩
        · right
          refine ⟨by rw [if_neg h1, if_pos h2, if_neg h3], le_of_eq heq.symm,
            fun _ => by omega⟩
      · right
        have h3 : den < 2 * (num % den) := by omega
        have h3q : (den : ℚ) < (2 : ℚ) * ((num % den : Nat) : ℚ) := by exact_mod_cast h3
        have hgt : 1 < 2 * (((num % den : Nat) : ℚ) / den) := by
          rw [← mul_div_assoc, one_lt_div hdq]
          exact h3q
        refine ⟨by rw [if_neg h1, if_neg h2], le_of_lt hgt,
          fun h => absurd h.symm (ne_of_lt hgt)⟩
  have hk : ∀ k : Int, (k : ℚ) ≤ ((num / den : Nat) : ℚ) ∨ ((num / den : Nat) : ℚ) + 1 ≤ (k : ℚ) := by
    intro k
    rcases le_or_lt k ((num / den : Nat) : Int) with h | h
    · left
      have h' := (Int.cast_le (R := ℚ)).2 h
      rwa [Int.cast_natCast] at h'
    · right
      have h' := (Int.cast_le (R := ℚ)).2 (Int.add_one_le_of_lt h)
      rwa [Int.cast_add, Int.cast_natCast, Int.cast_one] at h'
  rcases hcase with ⟨hr, hle, hev⟩ | ⟨hr, hle, hev⟩
  · refine ⟨by omega, by omega, ?_, ?_⟩
    · intro k
      rw [hr, hx]
      have a1 := le_abs_self ((k : ℚ) - (((num / den : Nat) : ℚ) + ((num % den : Nat) : ℚ) / den))
      have a2 := neg_le_abs ((k : ℚ) - (((num / den : Nat) : ℚ) + ((num % den : Nat) : ℚ) / den))
      rw [abs_le]
      rcases hk k with h | h
      · constructor <;> linarith
      · constructor <;> linarith
    · intro h
      rw [hr] at h ⊢
      apply hev
      rw [hx] at h
      have : |((num / den : Nat) : ℚ) - (((num / den : Nat) : ℚ) + ((num % den : Nat) : ℚ) / den)|
          = ((num % den : Nat) : ℚ) / den := by
        rw [abs_of_nonpos (by linarith)]
        ring
      rw [this] at h
      exact h
  · refine ⟨by omega, by omega, ?_, ?_⟩
    · intro k
      rw [hr, hx]
      have a1 := le_abs_self ((k : ℚ) - (((num / den : Nat) : ℚ) + ((num % den : Nat) : ℚ) / den))
      have a2 := neg_le_abs ((k : ℚ) - (((num / den : Nat) : ℚ) + ((num % den : Nat) : ℚ) / den))
      rw [abs_le]
      push_cast
      rcases hk k with h | h
      · constructor <;> linarith
      · constructor <;> linarith
    · intro h
      rw [hr] at h ⊢
      apply hev
      rw [hx] at h
      have : |((num / den + 1 : Nat) : ℚ) - (((num / den : Nat) : ℚ) + ((num % den : Nat) : ℚ) / den)|
          = 1 - ((num % den : Nat) : ℚ) / den := by
        rw [abs_of_nonneg (by push_cast; linarith)]
        push_cast
        ring
      rw [this] at h
      linarith


theorem binade_spec (n d : Nat) (hn : 0 < n) (hd : 0 < d) :
    ∃ e1 : Int, binade n d = max e1 (-1074)
      ∧ (2 : ℚ) ^ 52 * 2 ^ e1 ≤ (n : ℚ) / d ∧ (n : ℚ) / d < 2 ^ 53 * 2 ^ e1 := by
  obtain ⟨a1, a2, a3⟩ := bitLength_spec n (by omega)
  obtain ⟨b1, b2, b3⟩ := bitLength_spec d (by omega)
  obtain ⟨a, ha⟩ : ∃ a, bitLength n = a + 1 := ⟨bitLength n - 1, by omega⟩
  obtain ⟨b, hb⟩ : ∃ b, bitLength d = b + 1 := ⟨bitLength d - 1, by omega⟩
  rw [ha] at a1 a2
  rw [hb] at b1 b2
  simp only [Nat.add_sub_cancel] at a1 b1
  have hdq : (0 : ℚ) < d := by exact_mod_cast hd
  have hA : (0 : ℚ) < 2 ^ a := by positivity
  have hB : (0 : ℚ) < 2 ^ b := by positivity
  have a1q : (2 : ℚ) ^ a ≤ n := by exact_mod_cast a1
  have a2q : (n : ℚ) < 2 ^ a * 2 := by
    have : (n : ℚ) < 2 ^ (a + 1) := by exact_mod_cast a2
    rwa [pow_succ] at this
  have b1q : (2 : ℚ) ^ b ≤ d := by exact_mod_cast b1
  have b2q : (d : ℚ) < 2 ^ b * 2 := by
    have : (d : ℚ) < 2 ^ (b + 1) := by exact_mod_cast b2
    rwa [pow_succ] at this
  have he0 : ((bitLength n : Int) - (bitLength d : Int) - 53) = (a : Int) - (b : Int) - 53 := by
    rw [ha, hb]
    push_cast
    ring
  have hP : (2 : ℚ) ^ ((a : Int) - (b : Int) - 53) = 2 ^ a / (2 ^ b * 2 ^ 53) := by
    rw [zpow_sub₀ (by norm_num), zpow_sub₀ (by norm_num), zpow_natCast, zpow_natCast, div_div]
    norm_num
  have hP0 : (0 : ℚ) < 2 ^ ((a : Int) - (b : Int) - 53) := by positivity
  have hlow : (2 : ℚ) ^ 52 * 2 ^ ((a : Int) - (b : Int) - 53) < (n : ℚ) / d := by
    rw [hP, lt_div_iff₀ hdq]
    have e : (2 : ℚ) ^ 52 * (2 ^ a / (2 ^ b * 2 ^ 53)) * d = 2 ^ a * (d / (2 ^ b * 2)) := by
      field_simp
      ring
    rw [e]
    have h1 : (d : ℚ) / (2 ^ b * 2) < 1 := by
      rw [div_lt_one (by positivity)]
      exact b2q
    calc (2 : ℚ) ^ a * (d / (2 ^ b * 2)) < 2 ^ a * 1 := by
          exact mul_lt_mul_of_pos_left h1 hA
      _ ≤ n := by rw [mul_one]; exact a1q
  have hhigh : (n : ℚ) / d < 2 ^ 54 * 2 ^ ((a : Int) - (b : Int) - 53) := by
    rw [hP, div_lt_iff₀ hdq]
    have e : (2 : ℚ) ^ 54 * (2 ^ a / (2 ^ b * 2 ^ 53)) * d = 2 ^ a * 2 * (d / 2 ^ b) := by
      field_simp
      ring
    rw [e]
    have h1 : (1 : ℚ) ≤ d / 2 ^ b := by
      rw [one_le_div hB]
      exact b1q
    calc (n : ℚ) < 2 ^ a * 2 := a2q
      _ = 2 ^ a * 2 * 1 := by ring
      _ ≤ 2 ^ a * 2 * (d / 2 ^ b) := by
          exact mul_le_mul_of_nonneg_left h1 (by positivity)
  obtain ⟨s1, s2⟩ := scaleBy_spec n d ((a : Int) - (b : Int) - 53) hd
  have s1q : (0 : ℚ) < ((scaleBy n d ((a : Int) - (b : Int) - 53)).2 : ℚ) := by exact_mod_cast s1
  have htest : 2 ^ 53 ≤ (scaleBy n d ((a : Int) - (b : Int) - 53)).1
        / (scaleBy n d ((a : Int) - (b : Int) - 53)).2
      ↔ (2 : ℚ) ^ 53 * 2 ^ ((a : Int) - (b : Int) - 53) ≤ (n : ℚ) / d := by
    rw [Nat.le_div_iff_mul_le s1, ← le_div_iff₀ hP0, ← s2, le_div_iff₀ s1q]
    constructor
    · intro h
      exact_mod_cast h
    · intro h
      exact_mod_cast h
  unfold binade
  simp only [he0]
  by_cases ht : 2 ^ 53 ≤ (scaleBy n d ((a : Int) - (b : Int) - 53)).1
        / (scaleBy n d ((a : Int) - (b : Int) - 53)).2
  · refine ⟨(a : Int) - (b : Int) - 53 + 1, by rw [if_pos ht], ?_, ?_⟩
    · rw [zpow_add_one₀ (by norm_num)]
      have := htest.1 ht
      linarith
    · rw [zpow_add_one₀ (by norm_num)]
      linarith
  · refine ⟨(a : Int) - (b : Int) - 53, by rw [if_neg ht], le_of_lt hlow, ?_⟩
    exact lt_of_not_le (fun h => ht (htest.2 h))

theorem roundFloat64_of_pos (n d : Nat) (hn : 0 < n) (hd : 0 < d) :
    ((n : ℚ) / d < 2 ^ 1024 - 2 ^ 970 →
      ∃ (m : Nat) (e : Int), roundFloat64 n d = (.finite m e, none)
        ∧ m < 2 ^ 53 ∧ -1074 ≤ e ∧ e ≤ 971
        ∧ ∀ (m2 : Nat) (e2 : Int), m2 < 2 ^ 53 → -1074 ≤ e2 → e2 ≤ 971 →
            |floatValue m e - (n : ℚ) / d| ≤ |floatValue m2 e2 - (n : ℚ) / d|)
    ∧ (2 ^ 1024 - 2 ^ 970 ≤ (n : ℚ) / d → roundFloat64 n d = (.inf, some .errRange)) := by
  obtain ⟨e1, hbin, hlo, hhi⟩ := binade_spec n d hn hd
  obtain ⟨s1, s2⟩ := scaleBy_spec n d (binade n d) hd
  obtain ⟨_, _, r3, r4⟩ := roundHalfEven_spec (scaleBy n d (binade n d)).1
    (scaleBy n d (binade n d)).2 s1
  rw [s2] at r3 r4
  have hunf : roundFloat64 n d
      = if (if roundHalfEven (scaleBy n d (binade n d)).1 (scaleBy n d (binade n d)).2 = 2 ^ 53
              then ((2 ^ 52 : Nat), binade n d + 1)
              else (roundHalfEven (scaleBy n d (binade n d)).1 (scaleBy n d (binade n d)).2,
                    binade n d)).2 > 971
        then (.inf, some .errRange)
        else (.finite
                (if roundHalfEven (scaleBy n d (binade n d)).1 (scaleBy n d (binade n d)).2 = 2 ^ 53
                  then ((2 ^ 52 : Nat), binade n d + 1)
                  else (roundHalfEven (scaleBy n d (binade n d)).1 (scaleBy n d (binade n d)).2,
                        binade n d)).1
                (if roundHalfEven (scaleBy n d (binade n d)).1 (scaleBy n d (binade n d)).2 = 2 ^ 53
                  then ((2 ^ 52 : Nat), binade n d + 1)
                  else (roundHalfEven (scaleBy n d (binade n d)).1 (scaleBy n d (binade n d)).2,
                        binade n d)).2, none) := by
    unfold roundFloat64
    rw [if_neg (by omega)]
  rw [hunf]
  clear hunf
  generalize roundHalfEven (scaleBy n d (binade n d)).1 (scaleBy n d (binade n d)).2 = R
    at r3 r4 ⊢
  clear s1 s2
  generalize binade n d = e at hbin r3 r4 ⊢
  have he1 : e1 ≤ e := by rw [hbin]; exact le_max_left _ _
  have hemin : -1074 ≤ e := by rw [hbin]; exact le_max_right _ _
  have hecase : e = e1 ∨ e = -1074 := by
    rw [hbin]
    rcases le_total e1 (-1074) with h | h
    · right; exact max_eq_right h
    · left; exact max_eq_left h
  have hP : (0 : ℚ) < 2 ^ e := by positivity
  have hv : (n : ℚ) / d = (n : ℚ) / d / 2 ^ e * 2 ^ e := by
    rw [div_mul_cancel₀ _ (ne_of_gt hP)]
  have hx53 : (n : ℚ) / d / 2 ^ e < 2 ^ 53 := by
    rw [div_lt_iff₀ hP]
    have := zpow_le_zpow_right₀ (show (1 : ℚ) ≤ 2 by norm_num) he1
    calc (n : ℚ) / d < 2 ^ 53 * 2 ^ e1 := hhi
      _ ≤ 2 ^ 53 * 2 ^ e := mul_le_mul_of_nonneg_left this (by positivity)
  have hx52 : e = e1 → (2 : ℚ) ^ 52 ≤ (n : ℚ) / d / 2 ^ e := by
    intro hee
    rw [le_div_iff₀ hP, hee]
    exact hlo
  generalize (n : ℚ) / d / 2 ^ e = x at hv hx53 hx52 r3 r4
  have hR53q : (R : ℚ) ≤ 2 ^ 53 := by
    have h := r3 (2 ^ 53)
    rw [Int.cast_pow, Int.cast_ofNat, abs_of_nonneg (show (0 : ℚ) ≤ 2 ^ 53 - x by linarith)] at h
    have h2 := le_abs_self ((R : ℚ) - x)
    linarith
  have hR53 : R ≤ 2 ^ 53 := by exact_mod_cast hR53q
  have hval : floatValue (if R = 2 ^ 53 then ((2 ^ 52 : Nat), e + 1) else (R, e)).1
      (if R = 2 ^ 53 then ((2 ^ 52 : Nat), e + 1) else (R, e)).2 = (R : ℚ) * 2 ^ e := by
    unfold floatValue
    by_cases h : R = 2 ^ 53
    · rw [if_pos h, h, zpow_add_one₀ (by norm_num)]
      push_cast
      ring
    · rw [if_neg h]
  have habs : ∀ y : ℚ, |y * 2 ^ e - (n : ℚ) / d| = |y - x| * 2 ^ e := by
    intro y
    rw [hv, ← sub_mul, abs_mul, abs_of_pos hP]
  have hL : ∀ k : Int, k = 971 →
      (2 : ℚ) ^ 1024 - 2 ^ 970 = (2 ^ 53 - 1 / 2) * 2 ^ k := by
    intro k hk
    rw [hk, show (971 : Int) = ((971 : Nat) : Int) by rfl, zpow_natCast, sub_mul, ← pow_add,
      show (971 : Nat) = 970 + 1 by rfl, pow_succ]
    ring
  constructor
  · intro hlt
    have h1024 : (2 : ℚ) ^ 1024 = 2 ^ 52 * 2 ^ (972 : Int) := by
      rw [show (972 : Int) = ((972 : Nat) : Int) by rfl, zpow_natCast, ← pow_add]
    have he1le : e1 ≤ 971 := by
      have h0 : (0 : ℚ) < 2 ^ 970 := by positivity
      have h1 : (2 : ℚ) ^ 52 * 2 ^ e1 < 2 ^ 52 * 2 ^ (972 : Int) := by
        rw [← h1024]
        linarith
      have h2 : (2 : ℚ) ^ e1 < 2 ^ (972 : Int) := lt_of_mul_lt_mul_left h1 (by positivity)
      have h3 := (zpow_lt_zpow_iff_right₀ (show (1 : ℚ) < 2 by norm_num)).1 h2
      omega
    have hele : e ≤ 971 := by
      rcases hecase with h | h <;> omega
    have hnot : ¬ (R = 2 ^ 53 ∧ e = 971) := by
      rintro ⟨hR2, he2⟩
      have hxlt : x < 2 ^ 53 - 1 / 2 := by
        rw [hv, hL e he2] at hlt
        exact lt_of_mul_lt_mul_right hlt (le_of_lt hP)
      have h := r3 (2 ^ 53 - 1)
      rw [hR2, Int.cast_sub, Int.cast_pow, Int.cast_ofNat, Int.cast_one, Nat.cast_pow,
        Nat.cast_ofNat] at h
      have h2 : |(2 : ℚ) ^ 53 - 1 - x| < 2 ^ 53 - x := by
        rw [abs_lt]
        constructor <;> linarith
      have h3 := le_abs_self ((2 : ℚ) ^ 53 - x)
      linarith
    have hfin : ¬ (if R = 2 ^ 53 then ((2 ^ 52 : Nat), e + 1) else (R, e)).2 > 971 := by
      by_cases h : R = 2 ^ 53
      · rw [if_pos h]
        have : e ≠ 971 := fun h' => hnot ⟨h, h'⟩
        show ¬ e + 1 > 971
        omega
      · rw [if_neg h]
        show ¬ e > 971
        omega
    refine ⟨_, _, by rw [if_neg hfin], ?_, ?_, by omega, ?_⟩
    · by_cases h : R = 2 ^ 53
      · rw [if_pos h]
        norm_num
      · rw [if_neg h]
        show R < 2 ^ 53
        omega
    · by_cases h : R = 2 ^ 53
      · rw [if_pos h]
        show -1074 ≤ e + 1
        omega
      · rw [if_neg h]
        exact hemin
    · intro m2 e2 hm2 he2 _
      rw [hval, habs]
      by_cases hle : e ≤ e2
      · obtain ⟨j, hj⟩ := Int.eq_ofNat_of_zero_le (show 0 ≤ e2 - e by omega)
        have he2' : e2 = e + (j : Int) := by omega
        have hf : floatValue m2 e2 = ((m2 * 2 ^ j : Nat) : ℚ) * 2 ^ e := by
          unfold floatValue
          rw [he2', zpow_add₀ (by norm_num), zpow_natCast]
          push_cast
          ring
        rw [hf, habs]
        have h := r3 ((m2 * 2 ^ j : Nat) : Int)
        rw [Int.cast_natCast] at h
        exact mul_le_mul_of_nonneg_right h (le_of_lt hP)
      · have hee : e = e1 := by
          rcases hecase with h | h
          · exact h
          · omega
        have hx52' := hx52 hee
        have hf : floatValue m2 e2 ≤ 2 ^ 52 * 2 ^ e := by
          unfold floatValue
          have h1 : (2 : ℚ) ^ e2 ≤ 2 ^ (e - 1) :=
            zpow_le_zpow_right₀ (by norm_num) (by omega)
          have h2 : (2 : ℚ) ^ (e - 1) * 2 = 2 ^ e := by
            rw [← zpow_add_one₀ (by norm_num)]
            congr 1
            ring
          have h3 : (m2 : ℚ) ≤ 2 ^ 53 := by
            have : m2 ≤ 2 ^ 53 := le_of_lt hm2
            exact_mod_cast this
          have h4 : (0 : ℚ) < 2 ^ e2 := by positivity
          calc (m2 : ℚ) * 2 ^ e2 ≤ 2 ^ 53 * 2 ^ e2 := mul_le_mul_of_nonneg_right h3 (le_of_lt h4)
            _ ≤ 2 ^ 53 * 2 ^ (e - 1) := mul_le_mul_of_nonneg_left h1 (by positivity)
            _ = 2 ^ 52 * (2 ^ (e - 1) * 2) := by ring
            _ = 2 ^ 52 * 2 ^ e := by rw [h2]
        have h := r3 (2 ^ 52)
        rw [Int.cast_pow, Int.cast_ofNat,
          abs_of_nonpos (show (2 : ℚ) ^ 52 - x ≤ 0 by linarith)] at h
        have h5 := neg_le_abs (floatValue m2 e2 - (n : ℚ) / d)
        have h6 : |(R : ℚ) - x| * 2 ^ e ≤ -(2 ^ 52 - x) * 2 ^ e :=
          mul_le_mul_of_nonneg_right h (le_of_lt hP)
        have h7 : -((2 : ℚ) ^ 52 - x) * 2 ^ e = (n : ℚ) / d - 2 ^ 52 * 2 ^ e := by
          rw [hv]
          ring
        linarith
  · intro hge
    have h1023 : (2 : ℚ) ^ 1023 = 2 ^ 53 * 2 ^ (970 : Int) := by
      rw [show (970 : Int) = ((970 : Nat) : Int) by rfl, zpow_natCast, ← pow_add]
    have he1ge : 971 ≤ e1 := by
      have h0 : (2 : ℚ) ^ 1023 ≤ 2 ^ 1024 - 2 ^ 970 := by
        have : (2 : ℚ) ^ 970 ≤ 2 ^ 1023 := pow_le_pow_right₀ (by norm_num) (by norm_num)
        have h2 : (2 : ℚ) ^ 1024 = 2 ^ 1023 * 2 := by rw [← pow_succ]
        linarith
      have h1 : (2 : ℚ) ^ 53 * 2 ^ (970 : Int) < 2 ^ 53 * 2 ^ e1 := by
        rw [← h1023]
        linarith
      have h2 : (2 : ℚ) ^ (970 : Int) < 2 ^ e1 := lt_of_mul_lt_mul_left h1 (by positivity)
      have h3 := (zpow_lt_zpow_iff_right₀ (show (1 : ℚ) < 2 by norm_num)).1 h2
      omega
    have hege : 971 ≤ e := by omega
    have hinf : (if R = 2 ^ 53 then ((2 ^ 52 : Nat), e + 1) else (R, e)).2 > 971 := by
      by_cases h : R = 2 ^ 53
      · rw [if_pos h]
        show e + 1 > 971
        omega
      · rw [if_neg h]
        show e > 971
        by_contra hcon
        have he971 : e = 971 := by omega
        have hxge : (2 : ℚ) ^ 53 - 1 / 2 ≤ x := by
          rw [hv, hL e he971] at hge
          exact le_of_mul_le_mul_right hge hP
        have hRle : R ≤ 2 ^ 53 - 1 := by omega
        have hRq : (R : ℚ) ≤ 2 ^ 53 - 1 := by
          have : ((R : Nat) : ℚ) ≤ ((2 ^ 53 - 1 : Nat) : ℚ) := by exact_mod_cast hRle
          rw [Nat.cast_sub (by norm_num)] at this
          push_cast at this
          exact this
        have hk := r3 (2 ^ 53)
        rw [Int.cast_pow, Int.cast_ofNat,
          abs_of_nonneg (show (0 : ℚ) ≤ 2 ^ 53 - x by linarith),
          abs_of_nonpos (show (R : ℚ) - x ≤ 0 by linarith)] at hk
        have hhalf : 2 * |(R : ℚ) - x| = 1 := by
          rw [abs_of_nonpos (show (R : ℚ) - x ≤ 0 by linarith)]
          linarith
        have hev := r4 hhalf
        have hReq : (R : ℚ) = 2 ^ 53 - 1 := by linarith
        have hReq' : R = 2 ^ 53 - 1 := by
          have : ((R : Nat) : ℚ) = ((2 ^ 53 - 1 : Nat) : ℚ) := by
            rw [Nat.cast_sub (by norm_num)]
            push_cast
            exact hReq
          exact_mod_cast this
        rw [hReq'] at hev
        norm_num at hev
    rw [if_pos hinf]

/-- The conversion of a fraction to `float64`: below `2 ^ 1024 - 2 ^ 970`, the
largest finite value plus half the gap below it, the result is a finite value
that no other `float64` value is nearer to the fraction; from there on it is
+Inf with the range error. -/
theorem roundFloat64_spec (n d : Nat) (hd : 0 < d) :
    ((n : ℚ) / d < 2 ^ 1024 - 2 ^ 970 →
      ∃ (m : Nat) (e : Int), roundFloat64 n d = (.finite m e, none)
        ∧ m < 2 ^ 53 ∧ -1074 ≤ e ∧ e ≤ 971
        ∧ ∀ (m2 : Nat) (e2 : Int), m2 < 2 ^ 53 → -1074 ≤ e2 → e2 ≤ 971 →
            |floatValue m e - (n : ℚ) / d| ≤ |floatValue m2 e2 - (n : ℚ) / d|)
    ∧ (2 ^ 1024 - 2 ^ 970 ≤ (n : ℚ) / d → roundFloat64 n d = (.inf, some .errRange)) := by
  by_cases hn : n = 0
  · subst hn
    have hL : (0 : ℚ) < 2 ^ 1024 - 2 ^ 970 := by
      have : (2 : ℚ) ^ 970 < 2 ^ 1024 := pow_lt_pow_right₀ (by norm_num) (by norm_num)
      linarith
    constructor
    · intro _
      refine ⟨0, -1074, rfl, by norm_num, le_refl _, by norm_num, ?_⟩
      intro m2 e2 _ _ _
      simp only [floatValue, Nat.cast_zero, zero_mul, zero_div, sub_self, abs_zero]
      exact abs_nonneg _
    · intro h
      simp only [Nat.cast_zero, zero_div] at h
      linarith
  · exact roundFloat64_of_pos n d (by omega) hd

theorem digitsValue_append (a b : GoString) :
    digitsValue (a ++ b) = digitsValue a * 10 ^ b.length + digitsValue b := by
  have key : ∀ (b : GoString) (m : Nat),
      b.foldl (fun n c => n * 10 + digitVal c) m
        = m * 10 ^ b.length + b.foldl (fun n c => n * 10 + digitVal c) 0 := by
    intro b
    induction b with
    | nil => intro m; simp
    | cons c cs ih =>
      intro m
      simp only [List.foldl_cons, List.length_cons]
      rw [ih (m * 10 + digitVal c), ih (0 * 10 + digitVal c), pow_succ]
      ring
  unfold digitsValue
  rw [List.foldl_append, key b]

/-- The digits of a decimal number, read as an integer over the power of ten
that its fraction digits call for, give its exact value. -/
theorem decimalFraction_eq (s : GoString) (h : isDecimalNumber s = true) :
    (digitsValue (s.filter isDigit) : ℚ) / 10 ^ ((s.dropWhile isDigit).drop 1).length
      = parseDecimal s := by
  have hs : s.takeWhile isDigit ++ s.dropWhile isDigit = s := List.takeWhile_append_dropWhile _ _
  have hip : (s.takeWhile isDigit).filter isDigit = s.takeWhile isDigit :=
    List.filter_eq_self.2 (fun c hc => List.mem_takeWhile_imp hc)
  unfold isDecimalNumber at h
  unfold parseDecimal
  cases hdw : s.dropWhile isDigit with
  | nil =>
    simp only [hdw, Bool.not_eq_true'] at h
    rw [hdw, List.append_nil] at hs
    simp only [h, Bool.false_eq_true, if_false]
    rw [hs] at hip ⊢
    rw [hip]
    simp
  | cons c fp =>
    simp only [hdw, Bool.and_eq_true, decide_eq_true_eq, Bool.not_eq_true',
      Bool.and_eq_false_imp] at h
    obtain ⟨⟨hc, hfp⟩, hne⟩ := h
    have hfp' : fp.filter isDigit = fp :=
      List.filter_eq_self.2 (fun x hx => List.all_eq_true.1 hfp x hx)
    have hcond : c = '.' ∧ fp.all isDigit = true
        ∧ ¬ ((s.takeWhile isDigit).isEmpty = true ∧ fp.isEmpty = true) := by
      refine ⟨hc, hfp, ?_⟩
      rintro ⟨h1, h2⟩
      have := hne h1
      rw [h2] at this
      exact Bool.noConfusion this
    simp only [hcond, not_false_eq_true, and_self, if_true]
    have hfilter : s.filter isDigit = s.takeWhile isDigit ++ fp := by
      conv_lhs => rw [← hs, hdw]
      rw [List.filter_append, hip, List.filter_cons, hc]
      simp only [show isDigit '.' = false by decide, Bool.false_eq_true, if_false, hfp']
    rw [hfilter, digitsValue_append]
    simp only [List.drop_succ_cons, List.drop_zero]
    have h10 : ((10 : ℚ) ^ fp.length) ≠ 0 := by positivity
    push_cast
    field_simp

theorem ParseFloat_of_invalid (s : GoString) (h : isDecimalNumber s = false) :
    ParseFloat s = (Float64.zero, some .errSyntax) := by
  unfold ParseFloat
  simp only [h, Bool.false_eq_true, if_false]

/-- The function `strconv.ParseFloat` on a decimal number of exact value `v`:
for `v` below `2 ^ 1024 - 2 ^ 970` it returns, without error, a finite `float64`
value that no other `float64` value is nearer to `v`; from there on it returns
+Inf with the range error. -/
theorem ParseFloat_spec (s : GoString) (h : isDecimalNumber s = true) :
    (parseDecimal s < 2 ^ 1024 - 2 ^ 970 →
      ∃ (m : Nat) (e : Int), ParseFloat s = (.finite m e, none)
        ∧ m < 2 ^ 53 ∧ -1074 ≤ e ∧ e ≤ 971
        ∧ ∀ (m2 : Nat) (e2 : Int), m2 < 2 ^ 53 → -1074 ≤ e2 → e2 ≤ 971 →
            |floatValue m e - parseDecimal s| ≤ |floatValue m2 e2 - parseDecimal s|)
    ∧ (2 ^ 1024 - 2 ^ 970 ≤ parseDecimal s → ParseFloat s = (.inf, some .errRange)) := by
  have hspec := roundFloat64_spec (digitsValue (s.filter isDigit))
    (10 ^ ((s.dropWhile isDigit).drop 1).length) (by positivity)
  have hval := decimalFraction_eq s h
  push_cast at hspec
  rw [hval] at hspec
  unfold ParseFloat
  simp only [h, if_true]
  exact hspec

/-! ## Lemmas on the output of a chunk -/

theorem takeWhile_take_length_le (p : LogLine → Bool) (l : List LogLine) (n : Nat) :
    ((l.take n).takeWhile p).length ≤ (l.takeWhile p).length := by
  induction l generalizing n with
  | nil => simp
  | cons x xs ih =>
    cases n with
    | zero => simp
    | succ n =>
      by_cases hx : p x = true
      · simp only [List.take_succ_cons, List.takeWhile_cons, hx, if_true, List.length_cons]
        exact Nat.succ_le_succ (ih n)
      · simp [List.takeWhile_cons, hx]

/-- A line of a group that is not of a context level is never skipped, the
lines to skip being context lines at the head of what is left of the group: it
is an anchor, and yields a top-level event. -/
theorem groupOutput_of_not_context {F : Type} (parseFloat : GoString → F) (g : List LogLine)
    (k : Nat) (hk : k ≤ (g.takeWhile isContextLine).length) (l : LogLine) (hl : l ∈ g)
    (hctx : isContextLine l = false) :
    ∃ post, anchorOf parseFloat l post ∈ (groupOutput parseFloat k g).result := by
  induction g generalizing k with
  | nil => simp at hl
  | cons x future ih =>
    cases k with
    | zero =>
      rw [(groupOutput_cons_zero parseFloat x future).2.1]
      rcases List.mem_cons.1 hl with e | e
      · exact ⟨future, by rw [e]; exact List.mem_cons_self _ _⟩
      · obtain ⟨post, hpost⟩ := ih (attachedOf future).length
          (takeWhile_take_length_le isContextLine future 2) e
        exact ⟨post, List.mem_cons_of_mem _ hpost⟩
    | succ k =>
      have hx : isContextLine x = true := by
        cases hh : isContextLine x with
        | true => rfl
        | false =>
          simp [List.takeWhile_cons, hh] at hk
      have hne : l ≠ x := by
        intro e
        rw [e, hx] at hctx
        exact Bool.noConfusion hctx
      have hmem : l ∈ future := by
        rcases List.mem_cons.1 hl with e | e
        · exact absurd e hne
        · exact e
      rw [groupOutput_cons_succ]
      apply ih k _ hmem
      simp only [List.takeWhile_cons, hx, if_true, List.length_cons] at hk
      omega

/-- Every top-level event that a chunk adds is made of an event of the chunk
that passes the time-window test. -/
theorem chunkResult_anchor {F : Type} (parseFloat : GoString → F) (linesNewerThan : Time)
    (rangeOrder : BackendMap → BackendMap) (hperm : ∀ m, (rangeOrder m).Perm m)
    (evs : List LogLine) :
    ∀ o ∈ chunkResult parseFloat
        ((rangeOrder (groupByBackend linesNewerThan [] evs)).map Prod.snd),
      ∃ l ∈ evs, inWindow linesNewerThan l = true ∧ ∃ post, o = anchorOf parseFloat l post := by
  intro o ho
  have hp := hperm (groupByBackend linesNewerThan [] evs)
  simp only [chunkResult, List.mem_flatMap, List.mem_map] at ho
  obtain ⟨g, ⟨kg, hkg, rfl⟩, hog⟩ := ho
  obtain ⟨pre, l, post, h1, h2⟩ := groupOutput_anchor parseFloat kg.2 0 o hog
  have hentry := groupByBackend_entry linesNewerThan evs kg (hp.mem_iff.1 hkg)
  have hl : l ∈ kg.2 := by rw [h1]; simp
  rw [hentry] at hl
  simp only [List.mem_filter] at hl
  exact ⟨l, hl.1.1, hl.1.2, post, h2⟩

/-- Every event of a chunk that passes the time-window test and is not of a
context level yields a top-level event. -/
theorem chunkResult_of_not_context {F : Type} (parseFloat : GoString → F)
    (linesNewerThan : Time) (rangeOrder : BackendMap → BackendMap)
    (hperm : ∀ m, (rangeOrder m).Perm m) (evs : List LogLine) (l : LogLine) (hl : l ∈ evs)
    (hw : inWindow linesNewerThan l = true) (hctx : isContextLine l = false) :
    ∃ o ∈ chunkResult parseFloat
        ((rangeOrder (groupByBackend linesNewerThan [] evs)).map Prod.snd),
      o.core = l.core := by
  have hp := hperm (groupByBackend linesNewerThan [] evs)
  have hnd := groupByBackend_keys_nodup linesNewerThan evs
  have hget := groupByBackend_get_nil linesNewerThan evs l.BackendPid
  have hlg : l ∈ (groupByBackend linesNewerThan [] evs).get l.BackendPid := by
    rw [hget]
    simp only [List.mem_filter, ofBackend, decide_eq_true_eq]
    exact ⟨⟨hl, hw⟩, trivial⟩
  have hkey : l.BackendPid ∈ (groupByBackend linesNewerThan [] evs).keys := by
    by_contra hcon
    rw [BackendMap.get_of_not_mem _ _ hcon] at hlg
    simp at hlg
  obtain ⟨g, hg⟩ := BackendMap.exists_of_mem_keys _ _ hkey
  have hgg := BackendMap.get_of_mem _ _ g hnd hg
  rw [hgg] at hlg
  obtain ⟨post, hpost⟩ := groupOutput_of_not_context parseFloat g 0 (Nat.zero_le _) l hlg hctx
  refine ⟨anchorOf parseFloat l post, ?_, (anchorOf_spec parseFloat l post).1⟩
  simp only [chunkResult, List.mem_flatMap, List.mem_map]
  exact ⟨g, ⟨(l.BackendPid, g), hp.mem_iff.2 hg, rfl⟩, hpost⟩

/-- Every event of a chunk that passes the time-window test is in the output,
as a top-level event or as a line attached to one. -/
theorem chunkResult_covers {F : Type} (parseFloat : GoString → F) (linesNewerThan : Time)
    (rangeOrder : BackendMap → BackendMap) (hperm : ∀ m, (rangeOrder m).Perm m)
    (evs : List LogLine) (hadd : ∀ e ∈ evs, e.AdditionalLines = []) (e : LogLine)
    (he : e ∈ evs) (hw : inWindow linesNewerThan e = true) :
    ∃ o ∈ chunkResult parseFloat
        ((rangeOrder (groupByBackend linesNewerThan [] evs)).map Prod.snd),
      o.core = e.core ∨ ∃ a ∈ o.AdditionalLines, a.core = e.core := by
  have hnd := groupByBackend_keys_nodup linesNewerThan evs
  have hp := hperm (groupByBackend linesNewerThan [] evs)
  have hflat := chunkResult_flat parseFloat (rangeOrder (groupByBackend linesNewerThan [] evs))
    ((hp.map Prod.fst).nodup_iff.2 hnd) (by
      intro kg hkg x hx
      rw [groupByBackend_entry linesNewerThan evs kg (hp.mem_iff.1 hkg)] at hx
      simp only [List.mem_filter, ofBackend, decide_eq_true_eq] at hx
      exact ⟨hx.2, hadd x hx.1.1⟩) e.BackendPid
  rw [BackendMap.get_perm _ _ hp hnd, groupByBackend_get_nil] at hflat
  have hmem : e.core ∈ ((evs.filter (inWindow linesNewerThan)).filter
      (ofBackend e.BackendPid)).map LogLine.core := by
    apply List.mem_map_of_mem
    simp only [List.mem_filter, ofBackend, decide_eq_true_eq]
    exact ⟨⟨he, hw⟩, trivial⟩
  rw [← hflat, List.mem_flatMap] at hmem
  obtain ⟨o, ho, hoe⟩ := hmem
  refine ⟨o, (List.mem_filter.1 ho).1, ?_⟩
  simp only [LogLine.flat, List.mem_cons, List.mem_map] at hoe
  rcases hoe with h | ⟨a, ha, hae⟩
  · exact Or.inl h.symm
  · exact Or.inr ⟨a, ha, hae⟩

/-- The samples of an event whose Content has the shape
`duration: D ms CTX: Q`. -/
theorem samplesOf_of_shape {F : Type} (parseFloat : GoString → F) (o : LogLine)
    (D CTX Q : GoString)
    (hcontent : o.Content
      = "duration: ".toList ++ D ++ " ms".toList ++ CTX ++ ": ".toList ++ Q)
    (hD : D ≠ [] ∧ ∀ c ∈ D, isDigit c = true ∨ c = '.')
    (hCTX : CTX ≠ [] ∧ ':' ∉ CTX ∧ ¬ "bind".toList <:+: CTX ∧ ¬ "parse".toList <:+: CTX)
    (hQ : Q ≠ [] ∧ '\n' ∉ Q)
    (htrunc : ¬ truncationMarker <:+ o.Content) :
    samplesOf parseFloat o
      = [{ OccurredAt := o.OccurredAt, Username := o.Username, Database := o.Database,
           Query := Q, RuntimeMs := parseFloat D }] := by
  unfold samplesOf
  rw [extractDuration_of_shape parseFloat o [] D CTX Q hcontent hD hCTX hQ htrunc]
  rfl

/-- The Query of the top-level event made of an anchor whose Content has the
shape `duration: D ms CTX: Q`. -/
theorem anchorOf_query_of_shape {F : Type} (parseFloat : GoString → F) (l : LogLine)
    (post : List LogLine) (D CTX Q : GoString)
    (hcontent : l.Content
      = "duration: ".toList ++ D ++ " ms".toList ++ CTX ++ ": ".toList ++ Q)
    (hD : D ≠ [] ∧ ∀ c ∈ D, isDigit c = true ∨ c = '.')
    (hCTX : CTX ≠ [] ∧ ':' ∉ CTX ∧ ¬ "bind".toList <:+: CTX ∧ ¬ "parse".toList <:+: CTX)
    (hQ : Q ≠ [] ∧ '\n' ∉ Q)
    (htrunc : ¬ truncationMarker <:+ l.Content) :
    (anchorOf parseFloat l post).Query = Q := by
  obtain ⟨_, _, a3⟩ := attachFuture_spec (post.take 2) l 0
  have hc : (attachFuture l 0 (post.take 2)).1.Content = l.Content := by
    have h := congrArg LogLine.Content a3
    exact h
  unfold anchorOf
  rw [extractDuration_of_shape parseFloat (attachFuture l 0 (post.take 2)).1 [] D CTX Q
    (hc.trans hcontent) hD hCTX hQ (by rw [hc]; exact htrunc)]

/-- The query text of a Content of the shape `duration: D ms CTX: Q` holds no
line feed when the Content holds none. -/
theorem query_no_newline (content D CTX Q : GoString)
    (hcontent : content
      = "duration: ".toList ++ D ++ " ms".toList ++ CTX ++ ": ".toList ++ Q)
    (h : '\n' ∉ content) : '\n' ∉ Q := by
  intro hq
  apply h
  rw [hcontent]
  exact List.mem_append_right _ hq

/-- The Content of a top-level event that a chunk adds holds no line feed when
the lines read hold none. -/
theorem chunkResult_no_newline {F : Type} (parseTime : GoString → Option Time)
    (parseFloat : GoString → F) (linesNewerThan : Time)
    (rangeOrder : BackendMap → BackendMap) (hperm : ∀ m, (rangeOrder m).Perm m)
    (reads : List (GoString × Bool)) (hr : ∀ rd ∈ reads, '\n' ∉ rd.1) (evs : List LogLine)
    (hparsed : parsedEvents parseTime reads = some evs) :
    ∀ o ∈ chunkResult parseFloat
        ((rangeOrder (groupByBackend linesNewerThan [] evs)).map Prod.snd),
      '\n' ∉ o.Content
      ∧ ∃ l post, o = anchorOf parseFloat l post ∧ l.Content = o.Content := by
  intro o ho
  obtain ⟨l, hl, _, post, hpost⟩ := chunkResult_anchor parseFloat linesNewerThan rangeOrder
    hperm evs o ho
  have hc : o.Content = l.Content := by
    rw [hpost]
    have h := congrArg LogLine.Content (anchorOf_spec parseFloat l post).1
    exact h
  refine ⟨?_, l, post, hpost, hc.symm⟩
  rw [hc]
  exact parsedEvents_no_newline parseTime reads evs hr hparsed l hl

/-! ## Properties of the duration samples of a chunk -/

theorem digitsValue_replicate_zero (k : Nat) : digitsValue (List.replicate k '0') = 0 := by
  induction k with
  | zero => rfl
  | succ k ih =>
    rw [List.replicate_succ, show ('0' :: List.replicate k '0') = ['0'] ++ List.replicate k '0'
      from rfl, digitsValue_append, ih, show digitsValue ['0'] = 0 from rfl]
    simp

theorem parseDecimal_of_digits (s : GoString) (hs : s ≠ []) (hd : ∀ c ∈ s, isDigit c = true) :
    parseDecimal s = (digitsValue s : ℚ) := by
  have h1 : s.takeWhile isDigit = s := takeWhile_all isDigit s hd
  have h2 : s.dropWhile isDigit = [] := by
    have h := List.takeWhile_append_dropWhile isDigit s
    rw [h1] at h
    exact List.append_right_eq_self.1 h
  have h3 : s.isEmpty = false := by
    cases s with
    | nil => exact absurd rfl hs
    | cons _ _ => rfl
  unfold parseDecimal
  simp only [h1, h2, h3, Bool.false_eq_true, if_false]

set_option maxRecDepth 100000 in
set_option exponentiation.threshold 2048 in
/-- C10 fails.  The text made of 1 followed by 309 zeros is a decimal number
made of digits, of value `10 ^ 309`; on it `strconv.ParseFloat` returns +Inf
with the range error, which the code drops, and the one sample that the chunk
made of the report `duration: 10...0 ms  statement: SELECT 1` adds has
RuntimeMs +Inf, not the value of the number. -/
theorem huge_duration_runtime_infinite :
    isDecimalNumber exampleHugeNumber = true
    ∧ (∀ c ∈ exampleHugeNumber, isDigit c = true)
    ∧ parseDecimal exampleHugeNumber = 10 ^ 309
    ∧ ParseFloat exampleHugeNumber = (Float64.inf, some .errRange)
    ∧ (processChunk parseTimestamp runtime 0 insertionOrder exampleHugeReads [] []).map
        (fun x => (x.1.map (fun e => e.BackendPid), x.2.map (fun s => (s.Query, s.RuntimeMs))))
        = some ([12], [("SELECT 1".toList, Float64.inf)]) := by
  have hd : ∀ c ∈ exampleHugeNumber, isDigit c = true := by decide
  refine ⟨by decide, hd, ?_, by decide, by decide⟩
  rw [parseDecimal_of_digits exampleHugeNumber (by decide) hd]
  have h : digitsValue exampleHugeNumber = 10 ^ 309 := by
    show digitsValue (['1'] ++ List.replicate 309 '0') = 10 ^ 309
    rw [digitsValue_append, digitsValue_replicate_zero, List.length_replicate]
    show 1 * 10 ^ 309 + 0 = 10 ^ 309
    omega
  rw [h]
  push_cast
  rfl

/-- C10, as amended: for a chunk whose lines, as `ReadLine` returns them, hold
no line feed and leave the events `evs`, every event of `evs` in the time window
and not of level STATEMENT, DETAIL or HINT yields a top-level event, and the
samples that the chunk adds are those of its top-level events, in order.  A
top-level event `o` whose Content is exactly `duration: D ms CTX: Q`, with `D` a
non-empty text of digits and dots, `CTX` non-empty, without colon and containing
neither `bind` nor `parse`, `Q` non-empty, and the Content not ending with the
truncation marker, has Query `Q` and exactly one sample, with OccurredAt,
Username and Database of `o`, Query `Q` and RuntimeMs the value that
`strconv.ParseFloat` returns on `D`, its error being dropped.  When `D` is a
decimal number that value is, below `2 ^ 1024 - 2 ^ 970`, a finite `float64`
that no other `float64` is nearer to the value of `D`, and +Inf from there
on. -/
theorem duration_sample_emitted (parseTime : GoString → Option Time) (linesNewerThan : Time)
    (rangeOrder : BackendMap → BackendMap) (hperm : ∀ m, (rangeOrder m).Perm m)
    (reads : List (GoString × Bool)) (hr : ∀ rd ∈ reads, '\n' ∉ rd.1)
    (evs : List LogLine) (hparsed : parsedEvents parseTime reads = some evs)
    (result : List LogLine) (samples : List (PostgresQuerySample Float64)) :
    ∃ (out : List LogLine) (smp : List (PostgresQuerySample Float64)),
      processChunk parseTime runtime linesNewerThan rangeOrder reads result samples
        = some (result ++ out, samples ++ smp)
      ∧ smp = out.flatMap (samplesOf runtime)
      ∧ (∀ l ∈ evs, inWindow linesNewerThan l = true → isContextLine l = false →
          ∃ o ∈ out, o.core = l.core)
      ∧ ∀ o ∈ out, ∀ D CTX Q : GoString,
          o.Content = "duration: ".toList ++ D ++ " ms".toList ++ CTX ++ ": ".toList ++ Q →
          (D ≠ [] ∧ ∀ c ∈ D, isDigit c = true ∨ c = '.') →
          (CTX ≠ [] ∧ ':' ∉ CTX ∧ ¬ "bind".toList <:+: CTX ∧ ¬ "parse".toList <:+: CTX) →
          Q ≠ [] → ¬ truncationMarker <:+ o.Content →
          samplesOf runtime o
              = [{ OccurredAt := o.OccurredAt, Username := o.Username, Database := o.Database,
                   Query := Q, RuntimeMs := (ParseFloat D).1 }]
          ∧ o.Query = Q
          ∧ (isDecimalNumber D = true →
              (parseDecimal D < 2 ^ 1024 - 2 ^ 970 →
                ∃ (m : Nat) (e : Int), ParseFloat D = (Float64.finite m e, none)
                  ∧ m < 2 ^ 53 ∧ -1074 ≤ e ∧ e ≤ 971
                  ∧ ∀ (m2 : Nat) (e2 : Int), m2 < 2 ^ 53 → -1074 ≤ e2 → e2 ≤ 971 →
                      |floatValue m e - parseDecimal D| ≤ |floatValue m2 e2 - parseDecimal D|)
              ∧ (2 ^ 1024 - 2 ^ 970 ≤ parseDecimal D →
                  ParseFloat D = (Float64.inf, some .errRange))) := by
  refine ⟨_, _, processChunk_of_parsed parseTime runtime linesNewerThan rangeOrder reads
    evs hparsed result samples, chunkSamples_eq runtime _, ?_, ?_⟩
  · intro l hl hw hctx
    exact chunkResult_of_not_context runtime linesNewerThan rangeOrder hperm evs l hl hw hctx
  · intro o ho D CTX Q hcontent hD hCTX hQ htrunc
    obtain ⟨hnl, l, post, hpost, hlc⟩ := chunkResult_no_newline parseTime runtime
      linesNewerThan rangeOrder hperm reads hr evs hparsed o ho
    have hQ' : Q ≠ [] ∧ '\n' ∉ Q := ⟨hQ, query_no_newline o.Content D CTX Q hcontent hnl⟩
    refine ⟨samplesOf_of_shape runtime o D CTX Q hcontent hD hCTX hQ' htrunc, ?_, ?_⟩
    · rw [hpost]
      exact anchorOf_query_of_shape runtime l post D CTX Q (hlc.trans hcontent) hD hCTX hQ'
        (by rw [hlc]; exact htrunc)
    · intro hdec
      exact ParseFloat_spec D hdec

/-- C10 as amended, on the chunk made of the report
`duration: 12.345 ms  statement: SELECT 1`: one top-level event and one sample,
with Query `SELECT 1` and RuntimeMs `6949617174986097 * 2 ^ (-49)`, the
`float64` nearest to 12.345. -/
theorem duration_sample_emitted_witness :
    ((∀ m : BackendMap, (insertionOrder m).Perm m)
      ∧ (∀ rd ∈ exampleDurationReads, '\n' ∉ rd.1)
      ∧ parsedEvents parseTimestamp exampleDurationReads = some [exampleDuration])
    ∧ (∃ (out : List LogLine) (smp : List (PostgresQuerySample Float64)),
      processChunk parseTimestamp runtime 0 insertionOrder exampleDurationReads [] []
        = some ([] ++ out, [] ++ smp)
      ∧ smp = out.flatMap (samplesOf runtime)
      ∧ (∀ l ∈ [exampleDuration], inWindow 0 l = true → isContextLine l = false →
          ∃ o ∈ out, o.core = l.core)
      ∧ ∀ o ∈ out, ∀ D CTX Q : GoString,
          o.Content = "duration: ".toList ++ D ++ " ms".toList ++ CTX ++ ": ".toList ++ Q →
          (D ≠ [] ∧ ∀ c ∈ D, isDigit c = true ∨ c = '.') →
          (CTX ≠ [] ∧ ':' ∉ CTX ∧ ¬ "bind".toList <:+: CTX ∧ ¬ "parse".toList <:+: CTX) →
          Q ≠ [] → ¬ truncationMarker <:+ o.Content →
          samplesOf runtime o
              = [{ OccurredAt := o.OccurredAt, Username := o.Username, Database := o.Database,
                   Query := Q, RuntimeMs := (ParseFloat D).1 }]
          ∧ o.Query = Q
          ∧ (isDecimalNumber D = true →
              (parseDecimal D < 2 ^ 1024 - 2 ^ 970 →
                ∃ (m : Nat) (e : Int), ParseFloat D = (Float64.finite m e, none)
                  ∧ m < 2 ^ 53 ∧ -1074 ≤ e ∧ e ≤ 971
                  ∧ ∀ (m2 : Nat) (e2 : Int), m2 < 2 ^ 53 → -1074 ≤ e2 → e2 ≤ 971 →
                      |floatValue m e - parseDecimal D| ≤ |floatValue m2 e2 - parseDecimal D|)
              ∧ (2 ^ 1024 - 2 ^ 970 ≤ parseDecimal D →
                  ParseFloat D = (Float64.inf, some .errRange))))
    ∧ (processChunk parseTimestamp runtime 0 insertionOrder exampleDurationReads [] []).map
        (fun x => (x.1.map (fun e => (e.Content, e.Query)),
          x.2.map (fun s => (s.Query, s.RuntimeMs))))
        = some ([("duration: 12.345 ms  statement: SELECT 1".toList, "SELECT 1".toList)],
                [("SELECT 1".toList, Float64.finite 6949617174986097 (-49))])
    ∧ (processChunk parseTimestamp runtime 0 insertionOrder exampleDurationReads [] []).map
        (fun x => x.2.map (fun s => (s.OccurredAt, s.Username, s.Database)))
        = some [(1462104000, "u".toList, "d".toList)]
    ∧ ParseFloat "12.345".toList = (Float64.finite 6949617174986097 (-49), none)
    ∧ parseDecimal "12.345".toList = 12345 / 1000
    ∧ floatValue 6949617174986097 (-49) - 12345 / 1000 = 9 / (25 * 2 ^ 49) :=
  ⟨⟨fun m => List.Perm.refl m, by decide, rfl⟩,
   duration_sample_emitted parseTimestamp 0 insertionOrder (fun m => List.Perm.refl m)
     exampleDurationReads (by decide) [exampleDuration] rfl [] [],
   by decide, by decide, by decide, parseDecimal_example,
   by rw [floatValue, show (-49 : Int) = -((49 : Nat) : Int) from rfl, zpow_neg, zpow_natCast]
      norm_num⟩

/-- C11: for a chunk whose read loop leaves the events `evs`, every event of
`evs` in the time window and not of level STATEMENT, DETAIL or HINT yields a
top-level event, and the samples that the chunk adds are those of its top-level
events, in order.  A top-level event `o` whose Content matches the duration
pattern, with the number `d`, the context segment `ctx` and the query text `q`,
has no sample if `ctx` contains `bind` or `parse`; and if `ctx` contains
neither, the extractor applying (prefix `duration: `, no truncation marker at
the end), it has exactly one sample, with Query `q`, whatever `q` is: an
occurrence of `bind` or `parse` in the query text alone does not suppress
it. -/
theorem bind_parse_exclusion {F : Type} (parseTime : GoString → Option Time)
    (parseFloat : GoString → F) (linesNewerThan : Time)
    (rangeOrder : BackendMap → BackendMap) (hperm : ∀ m, (rangeOrder m).Perm m)
    (reads : List (GoString × Bool)) (evs : List LogLine)
    (hparsed : parsedEvents parseTime reads = some evs)
    (result : List LogLine) (samples : List (PostgresQuerySample F)) :
    ∃ (out : List LogLine) (smp : List (PostgresQuerySample F)),
      processChunk parseTime parseFloat linesNewerThan rangeOrder reads result samples
        = some (result ++ out, samples ++ smp)
      ∧ smp = out.flatMap (samplesOf parseFloat)
      ∧ (∀ l ∈ evs, inWindow linesNewerThan l = true → isContextLine l = false →
          ∃ o ∈ out, o.core = l.core)
      ∧ ∀ o ∈ out, ∀ d ctx q : GoString,
          findStringSubmatch o.Content = some (d, ctx, q) →
          (("bind".toList <:+: ctx ∨ "parse".toList <:+: ctx) → samplesOf parseFloat o = [])
          ∧ (¬ "bind".toList <:+: ctx → ¬ "parse".toList <:+: ctx →
              "duration: ".toList <+: o.Content → ¬ truncationMarker <:+ o.Content →
              samplesOf parseFloat o
                = [{ OccurredAt := o.OccurredAt, Username := o.Username,
                     Database := o.Database, Query := q, RuntimeMs := parseFloat d }]) := by
  refine ⟨_, _, processChunk_of_parsed parseTime parseFloat linesNewerThan rangeOrder reads
    evs hparsed result samples, chunkSamples_eq parseFloat _, ?_, ?_⟩
  · intro l hl hw hctx
    exact chunkResult_of_not_context parseFloat linesNewerThan rangeOrder hperm evs l hl hw hctx
  · intro o _ d ctx q hmatch
    have he := extractDuration_of_match parseFloat o [] d ctx q hmatch
    constructor
    · intro hctx
      have hnot : ¬ (contains ctx "bind".toList = false ∧ contains ctx "parse".toList = false) := by
        rintro ⟨h1, h2⟩
        rcases hctx with h | h
        · rw [(contains_spec _ _).2 h] at h1
          exact Bool.noConfusion h1
        · rw [(contains_spec _ _).2 h] at h2
          exact Bool.noConfusion h2
      unfold samplesOf
      by_cases happ : isApplicable o = true
      · rw [he, if_pos happ, if_neg hnot]
      · rw [he, if_neg happ]
    · intro hb hp hpre htr
      have happ : isApplicable o = true := by
        unfold isApplicable
        rw [(hasPrefix_spec _ _).2 hpre]
        cases hh : hasSuffix o.Content truncationMarker with
        | true => exact absurd ((hasSuffix_spec _ _).1 hh) htr
        | false => rfl
      have h3 : contains ctx "bind".toList = false := by
        rw [← Bool.not_eq_true, contains_spec]
        exact hb
      have h4 : contains ctx "parse".toList = false := by
        rw [← Bool.not_eq_true, contains_spec]
        exact hp
      unfold samplesOf
      rw [he, if_pos happ, if_pos ⟨h3, h4⟩]
      rfl

/-- C11 on the chunk made of the reports
`duration: 1.0 ms  parse <unnamed>: SELECT 1`, which yields no sample, and
`duration: 1.0 ms  statement: SELECT parse FROM bind`, which yields one. -/
theorem bind_parse_exclusion_witness :
    ((∀ m : BackendMap, (insertionOrder m).Perm m)
      ∧ parsedEvents parseTimestamp exampleExclusionReads
          = some [exampleParseTiming, exampleQueryMention])
    ∧ (∃ (out : List LogLine) (smp : List (PostgresQuerySample Float64)),
      processChunk parseTimestamp runtime 0 insertionOrder exampleExclusionReads [] []
        = some ([] ++ out, [] ++ smp)
      ∧ smp = out.flatMap (samplesOf runtime)
      ∧ (∀ l ∈ [exampleParseTiming, exampleQueryMention], inWindow 0 l = true →
          isContextLine l = false → ∃ o ∈ out, o.core = l.core)
      ∧ ∀ o ∈ out, ∀ d ctx q : GoString,
          findStringSubmatch o.Content = some (d, ctx, q) →
          (("bind".toList <:+: ctx ∨ "parse".toList <:+: ctx) → samplesOf runtime o = [])
          ∧ (¬ "bind".toList <:+: ctx → ¬ "parse".toList <:+: ctx →
              "duration: ".toList <+: o.Content → ¬ truncationMarker <:+ o.Content →
              samplesOf runtime o
                = [{ OccurredAt := o.OccurredAt, Username := o.Username,
                     Database := o.Database, Query := q, RuntimeMs := runtime d }]))
    ∧ findStringSubmatch exampleParseTiming.Content
        = some ("1.0".toList, "  parse <unnamed>".toList, "SELECT 1".toList)
    ∧ findStringSubmatch exampleQueryMention.Content
        = some ("1.0".toList, "  statement".toList, "SELECT parse FROM bind".toList)
    ∧ (processChunk parseTimestamp runtime 0 insertionOrder exampleExclusionReads [] []).map
        (fun x => (x.1.map (fun e => e.Content), x.2.map (fun s => (s.Query, s.RuntimeMs))))
        = some (["duration: 1.0 ms  parse <unnamed>: SELECT 1".toList,
                 "duration: 1.0 ms  statement: SELECT parse FROM bind".toList],
                [("SELECT parse FROM bind".toList, Float64.finite 4503599627370496 (-52))]) :=
  ⟨⟨fun m => List.Perm.refl m, rfl⟩,
   bind_parse_exclusion parseTimestamp runtime 0 insertionOrder (fun m => List.Perm.refl m)
     exampleExclusionReads [exampleParseTiming, exampleQueryMention] rfl [] [],
   by decide, by decide, by decide⟩

/-- C20: for a chunk whose lines, as `ReadLine` returns them, hold no line feed
and leave the events `evs`, every event of `evs` in the time window and not of
level STATEMENT, DETAIL or HINT yields a top-level event, and the samples that
the chunk adds are those of its top-level events, in order.  A top-level event
`o` whose Content is exactly `duration: D ms CTX: Q`, with `D` a non-empty text
of digits and dots that is not a decimal number, and `CTX`, `Q` and the Content
as in C10, still has exactly one sample, with Query `Q`, and its RuntimeMs is 0:
`strconv.ParseFloat` returns 0 with the syntax error on `D`, and the code drops
the error. -/
theorem malformed_duration_sample (parseTime : GoString → Option Time) (linesNewerThan : Time)
    (rangeOrder : BackendMap → BackendMap) (hperm : ∀ m, (rangeOrder m).Perm m)
    (reads : List (GoString × Bool)) (hr : ∀ rd ∈ reads, '\n' ∉ rd.1)
    (evs : List LogLine) (hparsed : parsedEvents parseTime reads = some evs)
    (result : List LogLine) (samples : List (PostgresQuerySample Float64)) :
    ∃ (out : List LogLine) (smp : List (PostgresQuerySample Float64)),
      processChunk parseTime runtime linesNewerThan rangeOrder reads result samples
        = some (result ++ out, samples ++ smp)
      ∧ smp = out.flatMap (samplesOf runtime)
      ∧ (∀ l ∈ evs, inWindow linesNewerThan l = true → isContextLine l = false →
          ∃ o ∈ out, o.core = l.core)
      ∧ ∀ o ∈ out, ∀ D CTX Q : GoString,
          o.Content = "duration: ".toList ++ D ++ " ms".toList ++ CTX ++ ": ".toList ++ Q →
          (D ≠ [] ∧ ∀ c ∈ D, isDigit c = true ∨ c = '.') →
          isDecimalNumber D = false →
          (CTX ≠ [] ∧ ':' ∉ CTX ∧ ¬ "bind".toList <:+: CTX ∧ ¬ "parse".toList <:+: CTX) →
          Q ≠ [] → ¬ truncationMarker <:+ o.Content →
          ParseFloat D = (Float64.finite 0 (-1074), some .errSyntax)
          ∧ floatValue 0 (-1074) = 0
          ∧ samplesOf runtime o
              = [{ OccurredAt := o.OccurredAt, Username := o.Username, Database := o.Database,
                   Query := Q, RuntimeMs := Float64.finite 0 (-1074) }] := by
  refine ⟨_, _, processChunk_of_parsed parseTime runtime linesNewerThan rangeOrder reads
    evs hparsed result samples, chunkSamples_eq runtime _, ?_, ?_⟩
  · intro l hl hw hctx
    exact chunkResult_of_not_context runtime linesNewerThan rangeOrder hperm evs l hl hw hctx
  · intro o ho D CTX Q hcontent hD hbad hCTX hQ htrunc
    obtain ⟨hnl, _⟩ := chunkResult_no_newline parseTime runtime
      linesNewerThan rangeOrder hperm reads hr evs hparsed o ho
    have hQ' : Q ≠ [] ∧ '\n' ∉ Q := ⟨hQ, query_no_newline o.Content D CTX Q hcontent hnl⟩
    have hpf := ParseFloat_of_invalid D hbad
    refine ⟨hpf, by simp [floatValue], ?_⟩
    rw [samplesOf_of_shape runtime o D CTX Q hcontent hD hCTX hQ' htrunc]
    show _ = [{ OccurredAt := o.OccurredAt, Username := o.Username, Database := o.Database,
                Query := Q, RuntimeMs := Float64.finite 0 (-1074) }]
    rw [runtime, hpf]
    rfl

/-- C20 on the chunk made of the reports `duration: 1.2.3 ms  statement: SELECT 1`
and `duration: . ms  statement: SELECT 1`: two top-level events and two samples,
each with RuntimeMs 0. -/
theorem malformed_duration_sample_witness :
    ((∀ m : BackendMap, (insertionOrder m).Perm m)
      ∧ (∀ rd ∈ exampleMalformedReads, '\n' ∉ rd.1)
      ∧ parsedEvents parseTimestamp exampleMalformedReads
          = some [exampleMalformed, exampleLoneDot])
    ∧ (∃ (out : List LogLine) (smp : List (PostgresQuerySample Float64)),
      processChunk parseTimestamp runtime 0 insertionOrder exampleMalformedReads [] []
        = some ([] ++ out, [] ++ smp)
      ∧ smp = out.flatMap (samplesOf runtime)
      ∧ (∀ l ∈ [exampleMalformed, exampleLoneDot], inWindow 0 l = true →
          isContextLine l = false → ∃ o ∈ out, o.core = l.core)
      ∧ ∀ o ∈ out, ∀ D CTX Q : GoString,
          o.Content = "duration: ".toList ++ D ++ " ms".toList ++ CTX ++ ": ".toList ++ Q →
          (D ≠ [] ∧ ∀ c ∈ D, isDigit c = true ∨ c = '.') →
          isDecimalNumber D = false →
          (CTX ≠ [] ∧ ':' ∉ CTX ∧ ¬ "bind".toList <:+: CTX ∧ ¬ "parse".toList <:+: CTX) →
          Q ≠ [] → ¬ truncationMarker <:+ o.Content →
          ParseFloat D = (Float64.finite 0 (-1074), some .errSyntax)
          ∧ floatValue 0 (-1074) = 0
          ∧ samplesOf runtime o
              = [{ OccurredAt := o.OccurredAt, Username := o.Username, Database := o.Database,
                   Query := Q, RuntimeMs := Float64.finite 0 (-1074) }])
    ∧ (exampleMalformed.Content
          = "duration: ".toList ++ "1.2.3".toList ++ " ms".toList ++ "  statement".toList
              ++ ": ".toList ++ "SELECT 1".toList
        ∧ isDecimalNumber "1.2.3".toList = false
        ∧ exampleLoneDot.Content
          = "duration: ".toList ++ ".".toList ++ " ms".toList ++ "  statement".toList
              ++ ": ".toList ++ "SELECT 1".toList
        ∧ isDecimalNumber ".".toList = false)
    ∧ (processChunk parseTimestamp runtime 0 insertionOrder exampleMalformedReads [] []).map
        (fun x => (x.1.map (fun e => e.Content), x.2.map (fun s => (s.Query, s.RuntimeMs))))
        = some (["duration: 1.2.3 ms  statement: SELECT 1".toList,
                 "duration: . ms  statement: SELECT 1".toList],
                [("SELECT 1".toList, Float64.finite 0 (-1074)),
                 ("SELECT 1".toList, Float64.finite 0 (-1074))]) :=
  ⟨⟨fun m => List.Perm.refl m, by decide, rfl⟩,
   malformed_duration_sample parseTimestamp 0 insertionOrder (fun m => List.Perm.refl m)
     exampleMalformedReads (by decide) [exampleMalformed, exampleLoneDot] rfl [] [],
   by decide, by decide⟩

/-! ## Properties of the time window -/

/-- The loop over the files processes, in order, the chunks retrieved up to the
first retrieval that fails. -/
theorem filesLoop_eq_retrieved {F : Type} (parseTime : GoString → Option Time)
    (parseFloat : GoString → F) (linesNewerThan : Time)
    (rangeOrder : BackendMap → BackendMap) (files : List ChunkStream)
    (acc : List LogLine × List (PostgresQuerySample F)) :
    filesLoop parseTime parseFloat linesNewerThan rangeOrder files acc
      = processChunks parseTime parseFloat linesNewerThan rangeOrder
          (retrievedChunks files) acc := by
  induction files generalizing acc with
  | nil => rfl
  | cons f fs ih =>
    cases hf : f.fails with
    | true =>
      simp only [filesLoop, downloadFile_eq, retrievedChunks, hf, if_true]
      cases processChunks parseTime parseFloat linesNewerThan rangeOrder f.chunks acc with
      | none => rfl
      | some a => rfl
    | false =>
      simp only [filesLoop, downloadFile_eq, retrievedChunks, hf, Bool.false_eq_true, if_false]
      rw [processChunks_append]
      cases processChunks parseTime parseFloat linesNewerThan rangeOrder f.chunks acc with
      | none => rfl
      | some a => exact ih a

/-- The processing of a list of chunks keeps the events accumulated before it
and adds the top-level events of every chunk of the list. -/
theorem processChunks_covers {F : Type} (parseTime : GoString → Option Time)
    (parseFloat : GoString → F) (linesNewerThan : Time)
    (rangeOrder : BackendMap → BackendMap) (chunks : List (List (GoString × Bool)))
    (acc x : List LogLine × List (PostgresQuerySample F))
    (h : processChunks parseTime parseFloat linesNewerThan rangeOrder chunks acc = some x) :
    (∀ o ∈ acc.1, o ∈ x.1)
    ∧ ∀ reads ∈ chunks, ∀ evs, parsedEvents parseTime reads = some evs →
        ∀ o ∈ chunkResult parseFloat
            ((rangeOrder (groupByBackend linesNewerThan [] evs)).map Prod.snd),
          o ∈ x.1 := by
  induction chunks generalizing acc with
  | nil =>
    simp only [processChunks, Option.some.injEq] at h
    rw [← h]
    exact ⟨fun o ho => ho, fun reads hreads => by simp at hreads⟩
  | cons rd rest ih =>
    simp only [processChunks] at h
    cases hp : processChunk parseTime parseFloat linesNewerThan rangeOrder rd acc.1 acc.2 with
    | none => simp [hp] at h
    | some acc' =>
      simp only [hp] at h
      obtain ⟨i1, i2⟩ := ih acc' h
      obtain ⟨evs0, hparsed0, hacc'⟩ := processChunk_some parseTime parseFloat linesNewerThan
        rangeOrder rd acc.1 acc.2 acc' hp
      have hfst : acc'.1 = acc.1 ++ chunkResult parseFloat
          ((rangeOrder (groupByBackend linesNewerThan [] evs0)).map Prod.snd) := by
        rw [hacc']
      constructor
      · intro o ho
        exact i1 o (by rw [hfst]; exact List.mem_append_left _ ho)
      · intro reads hreads evs hparsed o ho
        rcases List.mem_cons.1 hreads with e | e
        · subst e
          rw [hparsed0] at hparsed
          have hev : evs0 = evs := Option.some.inj hparsed
          subst hev
          exact i1 o (by rw [hfst]; exact List.mem_append_right _ ho)
        · exact i2 reads e evs hparsed o ho

/-- C13: whatever `GetLogLines`, called at the instant `now`, returns, every
event of the result, top-level or attached to a top-level event, and every
sample has a timestamp that is not before `now` minus 10 minutes; every event
parsed from a retrieved chunk whose timestamp is not before that threshold, in
particular one timestamped exactly at it, is in the result, as a top-level
event or as a line attached to one; and the processing of a chunk gives what it
gives when the parsed events before the threshold are removed beforehand, so
that such an event is nowhere in the output and brings neither an attachment nor
a query text to another event. -/
theorem window_property {F : Type} (parseTime : GoString → Option Time)
    (parseFloat : GoString → F) (rangeOrder : BackendMap → BackendMap)
    (hperm : ∀ m, (rangeOrder m).Perm m) (now : Time)
    (logFiles : Option (List ChunkStream)) (result : List LogLine)
    (samples : List (PostgresQuerySample F))
    (h : GetLogLines parseTime parseFloat rangeOrder now logFiles = some (result, samples)) :
    linesNewerThanAt now = now - 10 * 60 * 1000000000
    ∧ (∀ o ∈ result, now - 10 * 60 * 1000000000 ≤ o.OccurredAt
        ∧ ∀ a ∈ o.AdditionalLines, now - 10 * 60 * 1000000000 ≤ a.OccurredAt)
    ∧ (∀ sm ∈ samples, now - 10 * 60 * 1000000000 ≤ sm.OccurredAt)
    ∧ (∀ files, logFiles = some files →
        ∀ reads ∈ retrievedChunks files, ∀ evs, parsedEvents parseTime reads = some evs →
        ∀ e ∈ evs, now - 10 * 60 * 1000000000 ≤ e.OccurredAt →
          ∃ o ∈ result, o.core = e.core ∨ ∃ a ∈ o.AdditionalLines, a.core = e.core)
    ∧ (∀ (reads : List (GoString × Bool)) (evs r : List LogLine)
        (s : List (PostgresQuerySample F)), parsedEvents parseTime reads = some evs →
        processChunk parseTime parseFloat (linesNewerThanAt now) rangeOrder reads r s
          = some (r ++ chunkResult parseFloat
                    ((rangeOrder (groupByBackend (linesNewerThanAt now) []
                      (evs.filter (fun e => decide (now - 10 * 60 * 1000000000
                        ≤ e.OccurredAt))))).map Prod.snd),
                  s ++ chunkSamples parseFloat
                    ((rangeOrder (groupByBackend (linesNewerThanAt now) []
                      (evs.filter (fun e => decide (now - 10 * 60 * 1000000000
                        ≤ e.OccurredAt))))).map Prod.snd))) := by
  have hT : linesNewerThanAt now = now - 10 * 60 * 1000000000 := by
    unfold linesNewerThanAt minute
    show (now : Int) + -10 * (60 * 1000000000) = now - 10 * 60 * 1000000000
    ring
  have hall : (∀ o ∈ result, inWindow (linesNewerThanAt now) o = true
        ∧ ∀ a ∈ o.AdditionalLines, inWindow (linesNewerThanAt now) a = true)
      ∧ ∀ sm ∈ samples, linesNewerThanAt now ≤ sm.OccurredAt := by
    cases logFiles with
    | none =>
      simp only [GetLogLines, Option.some.injEq, Prod.mk.injEq] at h
      rw [← h.1, ← h.2]
      simp
    | some files =>
      simp only [GetLogLines] at h
      exact filesLoop_window parseTime parseFloat (linesNewerThanAt now) rangeOrder hperm files
        ([], []) (result, samples) (by simp) h
  have hfilter : ∀ evs : List LogLine,
      evs.filter (fun e => decide (now - 10 * 60 * 1000000000 ≤ e.OccurredAt))
        = evs.filter (inWindow (linesNewerThanAt now)) := by
    intro evs
    apply List.filter_congr
    intro e _
    rw [← hT]
    cases hw : inWindow (linesNewerThanAt now) e with
    | true => exact decide_eq_true ((inWindow_iff _ e).1 hw)
    | false =>
      apply decide_eq_false
      intro hle
      rw [(inWindow_iff _ e).2 hle] at hw
      exact Bool.noConfusion hw
  refine ⟨hT, ?_, ?_, ?_, ?_⟩
  · intro o ho
    rw [← hT]
    refine ⟨(inWindow_iff _ o).1 (hall.1 o ho).1, ?_⟩
    intro a ha
    exact (inWindow_iff _ a).1 ((hall.1 o ho).2 a ha)
  · intro sm hsm
    rw [← hT]
    exact hall.2 sm hsm
  · intro files hfiles reads hreads evs hparsed e he hle
    rw [hfiles] at h
    simp only [GetLogLines] at h
    rw [filesLoop_eq_retrieved] at h
    obtain ⟨_, hcov⟩ := processChunks_covers parseTime parseFloat (linesNewerThanAt now)
      rangeOrder (retrievedChunks files) ([], []) (result, samples) h
    rw [← hT] at hle
    obtain ⟨o, ho, hoe⟩ := chunkResult_covers parseFloat (linesNewerThanAt now) rangeOrder
      hperm evs (parsedEvents_additional parseTime reads evs hparsed) e he
      ((inWindow_iff _ e).2 hle)
    exact ⟨o, hcov reads hreads evs hparsed o ho, hoe⟩
  · intro reads evs r s hparsed
    rw [hfilter, groupByBackend_filter]
    exact processChunk_of_parsed parseTime parseFloat _ rangeOrder reads evs hparsed r s

/-- C13 on one file made of the chunk `exampleBoundaryReads`, collected at
12:10:00: the event of 11:59:59 is dropped, the event of 12:00:00, timestamped
exactly at the threshold, and the event of 12:00:01 are kept. -/
theorem window_property_witness :
    ((∀ m : BackendMap, (insertionOrder m).Perm m)
      ∧ GetLogLines parseTimestampNanos runtime insertionOrder 1462104600000000000
          (some [ChunkStream.last exampleBoundaryReads])
        = some ((exampleBoundaryCollection.getD ([], [])).1,
                (exampleBoundaryCollection.getD ([], [])).2))
    ∧ (linesNewerThanAt 1462104600000000000 = 1462104600000000000 - 10 * 60 * 1000000000
      ∧ (∀ o ∈ (exampleBoundaryCollection.getD ([], [])).1,
          1462104600000000000 - 10 * 60 * 1000000000 ≤ o.OccurredAt
          ∧ ∀ a ∈ o.AdditionalLines,
              1462104600000000000 - 10 * 60 * 1000000000 ≤ a.OccurredAt)
      ∧ (∀ sm ∈ (exampleBoundaryCollection.getD ([], [])).2,
          1462104600000000000 - 10 * 60 * 1000000000 ≤ sm.OccurredAt)
      ∧ (∀ files, some [ChunkStream.last exampleBoundaryReads] = some files →
          ∀ reads ∈ retrievedChunks files, ∀ evs,
          parsedEvents parseTimestampNanos reads = some evs →
          ∀ e ∈ evs, 1462104600000000000 - 10 * 60 * 1000000000 ≤ e.OccurredAt →
            ∃ o ∈ (exampleBoundaryCollection.getD ([], [])).1,
              o.core = e.core ∨ ∃ a ∈ o.AdditionalLines, a.core = e.core)
      ∧ (∀ (reads : List (GoString × Bool)) (evs r : List LogLine)
          (s : List (PostgresQuerySample Float64)),
          parsedEvents parseTimestampNanos reads = some evs →
          processChunk parseTimestampNanos runtime (linesNewerThanAt 1462104600000000000)
              insertionOrder reads r s
            = some (r ++ chunkResult runtime
                      ((insertionOrder (groupByBackend (linesNewerThanAt 1462104600000000000) []
                        (evs.filter (fun e => decide (1462104600000000000
                          - 10 * 60 * 1000000000 ≤ e.OccurredAt))))).map Prod.snd),
                    s ++ chunkSamples runtime
                      ((insertionOrder (groupByBackend (linesNewerThanAt 1462104600000000000) []
                        (evs.filter (fun e => decide (1462104600000000000
                          - 10 * 60 * 1000000000 ≤ e.OccurredAt))))).map Prod.snd))))
    ∧ retrievedChunks [ChunkStream.last exampleBoundaryReads] = [exampleBoundaryReads]
    ∧ (parsedEvents parseTimestampNanos exampleBoundaryReads).map
        (fun evs => evs.map (fun e => (e.BackendPid, e.OccurredAt, e.Content)))
        = some [(12, 1462103999000000000, "checkpoint starting".toList),
                (12, 1462104000000000000, "checkpoint complete".toList),
                (13, 1462104001000000000, "connection received".toList)]
    ∧ (1462104600000000000 - 10 * 60 * 1000000000 : Int) = 1462104000000000000
    ∧ exampleBoundaryCollection.map
        (fun x => x.1.map (fun e => (e.BackendPid, e.OccurredAt, e.Content)))
        = some [(12, 1462104000000000000, "checkpoint complete".toList),
                (13, 1462104001000000000, "connection received".toList)] :=
  ⟨⟨fun m => List.Perm.refl m, rfl⟩,
   window_property parseTimestampNanos runtime insertionOrder
     (fun m => List.Perm.refl m) 1462104600000000000
     (some [ChunkStream.last exampleBoundaryReads])
     (exampleBoundaryCollection.getD ([], [])).1 (exampleBoundaryCollection.getD ([], [])).2 rfl,
   by decide, by decide, by decide, by decide⟩

/-! ## Properties of the statistics helper -/

/-- The schema remediation on errors of the provider: after a first failure
with the code 42P01 the helper issues one `CREATE EXTENSION` and, when that
succeeds, one retry of the query, and a failure of either is returned as it is;
after a first failure with another code of the provider it makes no further
call and returns that error as it is. -/
theorem buffercache_remediation {Entry : Type} (db : Nat → DbResult Entry)
    (code message : GoString) (h0 : db 0 = DbResult.failed (DbError.pq code message)) :
    (code ≠ "42P01".toList →
      GetBuffercache db
        = { calls := [DbCall.query], returned := some ([], some (DbError.pq code message)) })
    ∧ (code = "42P01".toList →
        (∀ err, db 1 = DbResult.failed err →
          GetBuffercache db
            = { calls := [DbCall.query, DbCall.createExtension],
                returned := some ([], some err) })
        ∧ (∀ rs err, db 1 = DbResult.rows rs → db 2 = DbResult.failed err →
          GetBuffercache db
            = { calls := [DbCall.query, DbCall.createExtension, DbCall.query],
                returned := some ([], some err) })
        ∧ (∀ rs rs', db 1 = DbResult.rows rs → db 2 = DbResult.rows rs' →
          GetBuffercache db
            = { calls := [DbCall.query, DbCall.createExtension, DbCall.query],
                returned := some (scanRows rs' []) })) := by
  constructor
  · intro hc
    simp only [GetBuffercache, h0, hc, if_false]
  · intro hc
    refine ⟨?_, ?_, ?_⟩
    · intro err h1
      simp only [GetBuffercache, h0, hc, if_true, h1]
    · intro rs err h1 h2
      simp only [GetBuffercache, h0, hc, if_true, h1, h2]
    · intro rs rs' h1 h2
      simp only [GetBuffercache, h0, hc, if_true, h1, h2]

/-- C16: when the first query fails with an error that is not of the provider,
here a refused connection, the helper makes no remediation call but does not
return the error: it panics on the type assertion. -/
theorem buffercache_panics_on_foreign_error :
    (GetBuffercache (fun _ => (DbResult.failed (DbError.other "connection refused".toList)
        : DbResult Nat))).returned = none
    ∧ (GetBuffercache (fun _ => (DbResult.failed (DbError.other "connection refused".toList)
        : DbResult Nat))).calls = [DbCall.query] := by
  decide

end Collector
